import Mathlib

/-!
Verification of the prime-data library: a compressed prime store (8 bits per
block of 30 integers, one bit for each residue coprime with 30), a segmented
sieve expansion, range counting, nth-prime search, an iterator over stored
primes, and a factorization subsystem.

The definitions below are a shallow embedding of the Rust source.  Machine
integers (u64/u8/usize) are modelled as `Nat`; the quantities involved stay far
from 2^64 in every reachable computation used here.  The source's integer
square root (`sqrt_floor`, float-based with a Newton correction above 2^52) is
modelled as the mathematical `Nat.sqrt`, which is the value it computes.
Fallible operations return `Except`; Rust panics (`unwrap` on errors that the
library considers unreachable) are modelled as documented at each definition.
-/

/-- The eight residues mod 30 that are coprime with 30 (`K_VALUES` in the source). -/
def K_VALUES : List Nat := [1, 7, 11, 13, 17, 19, 23, 29]

/-- Boolean test for membership in `K_VALUES`. -/
def isKval (v : Nat) : Bool := K_VALUES.contains v

/-- Position of a k-value inside `K_VALUES` (the `Ok` case of the source's
`K_VALUES.binary_search`), `none` for non-k-values. -/
def kIndex? : Nat → Option Nat
  | 1 => some 0
  | 7 => some 1
  | 11 => some 2
  | 13 => some 3
  | 17 => some 4
  | 19 => some 5
  | 23 => some 6
  | 29 => some 7
  | _ => none

/-- The j-th k-value (0 for out-of-range j, which never occurs in reachable code). -/
def kvs (j : Nat) : Nat := K_VALUES.getD j 0

/-- Floor division, `Divisible::div_floor` in the source. -/
def div_floor (a b : Nat) : Nat := a / b

/-- Ceiling division as written in the source (`Divisible::div_ceil`). -/
def div_ceil (a b : Nat) : Nat := if a / b * b = a then a / b else a / b + 1

/-- Divisibility test as written in the source: floor and ceiling division agree. -/
def divisible_by (a b : Nat) : Bool := div_floor a b = div_ceil a b

namespace PrimeByte

/-- Bit `j` of a byte, counted from the least significant bit.  The source reads
bit positions as `is_one(byte >> shr)`, i.e. `(byte >> shr) % 2 == 1`. -/
def bit (b j : Nat) : Bool := b / 2 ^ j % 2 == 1

/-- `PrimeByte::new`: all eight candidate bits set. -/
def new : Nat := 255

/-- `PrimeByte::is_prime`: looks the residue up among the k-values and returns its
bit; residues outside the k-value set yield `false` (total, no error path). -/
def is_prime (b x : Nat) : Bool :=
  match kIndex? x with
  | some i => bit b (7 - i)
  | none => false

/-- `PrimeByte::set_nonprime`: clears the bit of a k-value, reporting whether the
bit changed; errors on a non-k-value. -/
def set_nonprime (b k : Nat) : Except Unit (Bool × Nat) :=
  match kIndex? k with
  | some i => if bit b (7 - i) then .ok (true, b - 2 ^ (7 - i)) else .ok (false, b)
  | none => .error ()

/-- Result byte of `set_nonprime`, keeping the byte unchanged on the error case
(the source panics there via `unwrap`; the error case is proved unreachable at
every call site used below). -/
def set_nonprimeD (b k : Nat) : Nat :=
  match set_nonprime b k with
  | .ok (_, b2) => b2
  | .error _ => b

/-- `PrimeByte::count_primes`: number of set bits (the byte is always < 256). -/
def count_primes (b : Nat) : Nat :=
  ((List.range 8).filter (fun j => bit b (7 - j))).length

/-- `PrimeByte::count_primes_in_range`: number of set bits whose k-value lies in
the inclusive range. -/
def count_primes_in_range (b lo hi : Nat) : Nat :=
  ((List.range 8).filter
    (fun j => bit b (7 - j) && decide (lo ≤ kvs j) && decide (kvs j ≤ hi))).length

/-- `PrimeByte::as_primes`: the set bits converted to integers `30*offset + k`. -/
def as_primes (b offset : Nat) : List Nat :=
  ((List.range 8).filter (fun j => bit b (7 - j))).map (fun j => 30 * offset + kvs j)

/-- `PrimeByte::as_primes_in_range`: as `as_primes`, restricted to k-values inside
the given inclusive range. -/
def as_primes_in_range (b offset lo hi : Nat) : List Nat :=
  ((List.range 8).filter
    (fun j => bit b (7 - j) && decide (lo ≤ kvs j) && decide (kvs j ≤ hi))).map
    (fun j => 30 * offset + kvs j)

end PrimeByte

/-- Inclusive integer range, modelling `RangeInclusive<u64>`. -/
structure URange where
  lo : Nat
  hi : Nat
deriving DecidableEq

/-- `RangeInclusive::contains`. -/
def URange.containsN (r : URange) (x : Nat) : Bool :=
  decide (r.lo ≤ x) && decide (x ≤ r.hi)

/-- `ContainsRange::contains_range` from the source: `Ok` when `self.lo ≤ other.lo`
and `other.hi ≤ self.hi`; otherwise the first failing side is reported. -/
def URange.contains_range (self other : URange) : Except URange Unit :=
  if self.lo > other.lo then .error ⟨other.lo, self.lo - 1⟩
  else if other.hi > self.hi then .error ⟨self.hi + 1, other.hi⟩
  else .ok ()

/-- Error action enumeration from the source. -/
inductive ErrorAction where
  | Reading
  | Modifying
  | Generating
deriving DecidableEq

/-- Error source enumeration from the source. -/
inductive ErrorSource where
  | PrimeByte
  | PrimeData
deriving DecidableEq

/-- Error context from the source. -/
structure ErrorContext where
  action : ErrorAction
  source : ErrorSource
deriving DecidableEq

/-- Error payload from the source. -/
inductive ErrorType where
  | NotEnoughData (r : URange)
  | OutOfBounds (n : Nat)
deriving DecidableEq

/-- The crate's error type. -/
structure PrimeError where
  context : ErrorContext
  error : ErrorType
deriving DecidableEq

/-- The crate's result alias. -/
abbrev PrimeResult (T : Type) := Except PrimeError T

/-- The prime store: block bytes plus the inclusive range they are valid for. -/
structure PrimeData where
  data : List Nat
  range : URange

/-- `PrimeData::new`: one block covering `[0,30]` with 1 marked non-prime
(byte `0b01111111` = 127). -/
def PrimeData.new : PrimeData := ⟨[127], ⟨0, 30⟩⟩

/-- `PrimeData::offset`: block index of the range start. -/
def PrimeData.offset (d : PrimeData) : Nat := d.range.lo / 30

/-- `PrimeData::is_empty`: the range start exceeds the range end. -/
def PrimeData.is_empty (d : PrimeData) : Bool := decide (d.range.lo > d.range.hi)

/-- `PrimeData::create_empty`: all-ones blocks covering the range rounded out to
block boundaries, with the bit of 1 pre-cleared when block 0 is included. -/
def PrimeData.create_empty (r : URange) : PrimeData :=
  let data_start := div_floor r.lo 30
  let data_end := div_ceil r.hi 30
  if data_start ≥ data_end then ⟨[], r⟩
  else
    let data_length := data_end - data_start
    let data := List.replicate data_length PrimeByte.new
    let data := if data_start = 0 then data.set 0 (PrimeByte.set_nonprimeD PrimeByte.new 1) else data
    ⟨data, r⟩

/-- `PrimeData::set_nonprime`: clears the bit of a number inside the range.  The
source indexes `self.data[data_index]` (a panic when out of bounds, proved
unreachable below); the model reads the byte with `getD` and writes with
`List.set`, which is a no-op out of bounds. -/
def PrimeData.set_nonprime (d : PrimeData) (nonprime : Nat) : PrimeResult (Bool × PrimeData) :=
  if d.range.containsN nonprime then
    let data_index := nonprime / 30 - d.offset
    let k_value := nonprime % 30
    match PrimeByte.set_nonprime (d.data.getD data_index 0) k_value with
    | .ok (boolean, byte) => .ok (boolean, ⟨d.data.set data_index byte, d.range⟩)
    | .error _ => .error ⟨⟨.Modifying, .PrimeData⟩, .OutOfBounds nonprime⟩
  else .error ⟨⟨.Modifying, .PrimeData⟩, .OutOfBounds nonprime⟩

/-- Store after `set_nonprime`, unchanged on the error case (the source calls
`set_nonprime(..).unwrap()` during expansion; the error case is proved
unreachable there). -/
def PrimeData.set_nonprimeD (d : PrimeData) (nonprime : Nat) : PrimeData :=
  match d.set_nonprime nonprime with
  | .ok (_, d2) => d2
  | .error _ => d

/-- `PrimeData::data_index_that_contains`.  The source's
`panic!("Unexpected error! ...")` branch is modelled as `none` and proved
unreachable for stores with the block-count invariant. -/
def PrimeData.data_index_that_contains (d : PrimeData) (x : Nat) : Option Nat :=
  if d.is_empty then none
  else if d.range.containsN x then
    let result := x / 30 - d.offset
    if result ≥ d.data.length then
      if divisible_by x 30 then some (result - 1) else none
    else some result
  else none

/-- `PrimeData::try_is_prime`.  The source unwraps `data_index_that_contains`
(a panic when it is `none`, proved unreachable for stores with the block-count
invariant); the model returns `false` on that dead branch. -/
def PrimeData.try_is_prime (d : PrimeData) (x : Nat) : PrimeResult Bool :=
  if d.range.containsN x && !d.is_empty then
    if x = 2 ∨ x = 3 ∨ x = 5 then .ok true
    else if divisible_by x 30 then .ok false
    else
      match d.data_index_that_contains x with
      | some index => .ok (PrimeByte.is_prime (d.data.getD index 0) (x % 30))
      | none => .ok false
  else .error ⟨⟨.Reading, .PrimeData⟩, .OutOfBounds x⟩

/-- `PrimeData::is_prime` (the unwrapping wrapper); `false` stands for the panic
on the error case, which is never reached at the call sites used below. -/
def PrimeData.is_primeD (d : PrimeData) (x : Nat) : Bool :=
  match d.try_is_prime x with
  | .ok b => b
  | .error _ => false

/-- State of `CoprimeIter`: block multiplier, k-value index, inclusive stop. -/
structure CoprimeIter where
  offset : Nat
  index : Nat
  stop_after : Nat

/-- The source's `unwrap_any(K_VALUES.binary_search(&value))` for `value < 30`:
the index of the first k-value that is ≥ `value`. -/
def kSearch (v : Nat) : Nat :=
  if v ≤ 1 then 0 else if v ≤ 7 then 1 else if v ≤ 11 then 2 else if v ≤ 13 then 3
  else if v ≤ 17 then 4 else if v ≤ 19 then 5 else if v ≤ 23 then 6 else 7

/-- `CoprimeIter::new`. -/
def CoprimeIter.new (r : URange) : CoprimeIter :=
  ⟨r.lo / 30, kSearch (r.lo % 30), r.hi⟩

/-- Value the iterator currently points at. -/
def CoprimeIter.curVal (it : CoprimeIter) : Nat := 30 * it.offset + kvs it.index

/-- State advance of `CoprimeIter::next`. -/
def CoprimeIter.step (it : CoprimeIter) : CoprimeIter :=
  if it.index < 7 then ⟨it.offset, it.index + 1, it.stop_after⟩
  else ⟨it.offset + 1, 0, it.stop_after⟩

/-- `CoprimeIter::next`. -/
def CoprimeIter.next (it : CoprimeIter) : Option (Nat × CoprimeIter) :=
  if it.curVal > it.stop_after then none
  else some (it.curVal, it.step)

theorem kvs_le_29 (j : Nat) : kvs j ≤ 29 := by
  unfold kvs K_VALUES
  match j with
  | 0 | 1 | 2 | 3 | 4 | 5 | 6 | 7 => simp [List.getD]
  | n + 8 => simp [List.getD]

theorem curVal_lt_step (it : CoprimeIter) : it.curVal < it.step.curVal := by
  unfold CoprimeIter.curVal CoprimeIter.step
  by_cases h : it.index < 7
  · simp only [if_pos h]
    have h2 : kvs it.index < kvs (it.index + 1) := by
      interval_cases it.index <;> simp [kvs, K_VALUES, List.getD]
    omega
  · simp only [if_neg h]
    have h2 := kvs_le_29 it.index
    have h3 : kvs 0 = 1 := by simp [kvs, K_VALUES, List.getD]
    omega

/-- The full yielded sequence of a `CoprimeIter`. -/
def CoprimeIter.toList (it : CoprimeIter) : List Nat :=
  if _h : it.curVal > it.stop_after then []
  else it.curVal :: it.step.toList
termination_by it.stop_after + 1 - it.curVal
decreasing_by
  have h1 : it.curVal < it.step.curVal := curVal_lt_step it
  have h2 : it.step.stop_after = it.stop_after := by
    unfold CoprimeIter.step; by_cases hh : it.index < 7 <;> simp [hh]
  rw [h2]; omega

/-- The block-scan loop shared by `PrimeIter::new` and `PrimeIter::next`: starting
at block index `i` of the slice, find the first block whose extraction is
non-empty, returning the extracted list and the block index. -/
def scanBlocks (data : List Nat) (dOff i : Nat) : Option (List Nat × Nat) :=
  match h : data.get? i with
  | some byte =>
    let byte_primes := PrimeByte.as_primes byte (dOff + i)
    if byte_primes = [] then scanBlocks data dOff (i + 1) else some (byte_primes, i)
  | none => none
termination_by data.length - i
decreasing_by
  have hlt : i < data.length := by
    by_contra hc
    rw [List.get?_eq_none.mpr (by omega)] at h
    exact Option.noConfusion h
  omega

/-- State of `PrimeIter`: borrowed slice, current extracted vector, cursor
(block index, index inside the vector), absolute offset of the slice, stop. -/
structure PrimeIter where
  data : List Nat
  primes : Option (List Nat)
  current : Nat × Nat
  data_offset : Nat
  stop_at : Nat

/-- `PrimeIter::new`.  The initial loop is unrolled: block 0 of the slice gets the
range-restricted extraction, later blocks the full one; `{2,3,5}` at or above the
range start are prepended to the first non-empty extraction. -/
def PrimeIter.new (prime_data : PrimeData) (r : URange) : PrimeResult PrimeIter :=
  match prime_data.range.contains_range r with
  | .error out_of_bounds => .error ⟨⟨.Reading, .PrimeData⟩, .NotEnoughData out_of_bounds⟩
  | .ok _ =>
    let original_offset := prime_data.offset
    let data_start := div_floor r.lo 30 - original_offset
    let data_end := div_ceil r.hi 30 - original_offset
    let data := (prime_data.data.drop data_start).take (data_end - data_start)
    let data_offset := data_start + original_offset
    let found :=
      match data.get? 0 with
      | none => none
      | some byte =>
        let start := r.lo - 30 * data_offset
        let byte_primes := PrimeByte.as_primes_in_range byte data_offset start (start + 30)
        if byte_primes = [] then scanBlocks data data_offset 1 else some (byte_primes, 0)
    match found with
    | some (byte_primes, c0) =>
      let byte_primes := (([2, 3, 5] : List Nat).filter (fun x => decide (x ≥ r.lo))) ++ byte_primes
      .ok ⟨data, some byte_primes, (c0, 0), data_offset, r.hi⟩
    | none => .ok ⟨data, none, (data.length, 0), data_offset, r.hi⟩

/-- `PrimeIter::next` (`Iterator` implementation). -/
def PrimeIter.next (it : PrimeIter) : Option (Nat × PrimeIter) :=
  match it.primes with
  | none => none
  | some vector =>
    let current_prime := vector.getD it.current.2 0
    if current_prime > it.stop_at then none
    else
      let it2 :=
        if it.current.2 + 1 < vector.length then
          { it with current := (it.current.1, it.current.2 + 1) }
        else
          match scanBlocks it.data it.data_offset (it.current.1 + 1) with
          | some (byte_primes, i) => { it with primes := some byte_primes, current := (i, 0) }
          | none => { it with primes := none, current := (it.data.length, 0) }
      some (current_prime, it2)

/-- Fuel-bounded unfolding of `PrimeIter::next`. -/
def PrimeIter.toListF : Nat → PrimeIter → List Nat
  | 0, _ => []
  | fuel + 1, it =>
    match it.next with
    | none => []
    | some (v, it2) => v :: PrimeIter.toListF fuel it2

/-- Everything the iterator yields.  The fuel `3 + 8 * slice length` dominates
the number of elements the iterator can produce. -/
def PrimeIter.toList (it : PrimeIter) : List Nat := PrimeIter.toListF (3 + 8 * it.data.length) it

/-- The sequence produced by `PrimeData::iter` over a range (`[]` on the error
case, where the source's `iter` panics; every use below establishes the
containment precondition). -/
def PrimeData.iterList (d : PrimeData) (r : URange) : List Nat :=
  match PrimeIter.new d r with
  | .ok it => it.toList
  | .error _ => []

/-- `PrimeData::try_expand`: precondition check, fresh block array, then one
sieving pass `p * m` for each stored prime `p` in `[7, isqrt(end)]` and each
coprime-30 multiplier `m` in `[max(ceil(start/p), 7), floor(end/p)]`. -/
def PrimeData.try_expand (self : PrimeData) (r : URange) : PrimeResult PrimeData :=
  let start := r.lo
  let stop := r.hi
  let end_sqrt := Nat.sqrt stop
  match self.range.contains_range ⟨7, end_sqrt⟩ with
  | .error missing_range => .error ⟨⟨.Modifying, .PrimeData⟩, .NotEnoughData missing_range⟩
  | .ok _ =>
    let expanded_data := PrimeData.create_empty r
    if expanded_data.is_empty then .ok expanded_data
    else
      .ok ((self.iterList ⟨7, end_sqrt⟩).foldl (fun acc prime =>
        let lower_bound := max (div_ceil start prime) 7
        let upper_bound := div_floor stop prime
        (CoprimeIter.new ⟨lower_bound, upper_bound⟩).toList.foldl
          (fun acc2 multiplier => acc2.set_nonprimeD (prime * multiplier)) acc)
        expanded_data)

/-- `PrimeData::expand`: `try_expand` unwrapped; the error case (a panic in the
source) keeps the original store and is proved unreachable at every call site
used below. -/
def PrimeData.expandD (self : PrimeData) (r : URange) : PrimeData :=
  match self.try_expand r with
  | .ok d => d
  | .error _ => self

/-- `PrimeData::generate`: direct expansion of the base store for bounds up to
900 = 30², otherwise recursive generation up to the square root followed by one
expansion. -/
def PrimeData.generate (r : URange) : PrimeData :=
  if _h : r.hi ≤ 900 then PrimeData.new.expandD ⟨r.lo, r.hi⟩
  else
    let sqrt_end := Nat.sqrt r.hi
    (PrimeData.generate ⟨0, sqrt_end⟩).expandD ⟨r.lo, r.hi⟩
termination_by r.hi
decreasing_by
  exact Nat.sqrt_lt_self (by omega)

/-- Sum of `PrimeByte.count_primes` over a list of blocks (the source's
`iter().fold(0, ..)`). -/
def sumCounts (blocks : List Nat) : Nat :=
  blocks.foldl (fun acc cur => acc + PrimeByte.count_primes cur) 0

/-- `PrimeData::try_count_primes_in_range`: containment check, then the branch
structure of the source (empty store, reversed range, single point, and the four
block-boundary shapes).  The source's `data_index_that_contains(..).unwrap()`
calls are modelled with `getD 0` (unreachable `none`, proved below). -/
def PrimeData.try_count_primes_in_range (d : PrimeData) (r : URange) : PrimeResult Nat :=
  match d.range.contains_range r with
  | .error missing_range => .error ⟨⟨.Reading, .PrimeData⟩, .NotEnoughData missing_range⟩
  | .ok _ =>
    if d.is_empty then .ok 0
    else
      let missing_primes := (([2, 3, 5] : List Nat).filter (fun x => r.containsN x)).length
      let start := r.lo
      let stop := r.hi
      if start > stop then .ok 0
      else if start = stop then (if d.is_primeD start then .ok 1 else .ok 0)
      else
        let start_index := (d.data_index_that_contains start).getD 0
        let end_index := (d.data_index_that_contains stop).getD 0
        let start_mod := start % 30
        let end_mod := stop % 30
        if divisible_by start 30 && divisible_by stop 30 then
          let end_index := start_index + (stop - start) / 30
          let prime_count := sumCounts ((d.data.drop start_index).take (end_index - start_index))
          .ok (missing_primes + prime_count)
        else if divisible_by start 30 then
          let prime_count := sumCounts ((d.data.drop start_index).take (end_index - start_index))
          let last_primes := PrimeByte.count_primes_in_range (d.data.getD end_index 0) 0 end_mod
          .ok (missing_primes + prime_count + last_primes)
        else if divisible_by stop 30 then
          let first_primes := PrimeByte.count_primes_in_range (d.data.getD start_index 0) start_mod 30
          if start_index = end_index || start + 30 > stop then
            .ok (missing_primes + first_primes)
          else
            let end_index := if stop = d.range.hi then end_index else end_index - 1
            let prime_count :=
              sumCounts ((d.data.drop (start_index + 1)).take (end_index + 1 - (start_index + 1)))
            .ok (missing_primes + first_primes + prime_count)
        else
          if start_index = end_index then
            let prime_range :=
              PrimeByte.count_primes_in_range (d.data.getD start_index 0) start_mod end_mod
            .ok (missing_primes + prime_range)
          else
            let first_primes := PrimeByte.count_primes_in_range (d.data.getD start_index 0) start_mod 30
            let prime_count :=
              sumCounts ((d.data.drop (start_index + 1)).take (end_index - (start_index + 1)))
            let last_primes := PrimeByte.count_primes_in_range (d.data.getD end_index 0) 0 end_mod
            .ok (missing_primes + first_primes + prime_count + last_primes)

/-- `PrimeData::count_primes`: count over the store's own range (the inner
`unwrap` cannot fail, a range always contains itself). -/
def PrimeData.count_primesD (d : PrimeData) : Nat :=
  match d.try_count_primes_in_range d.range with
  | .ok n => n
  | .error _ => 0

/-- `estimate::nth_prime_bounds`, with the `f64`-based `log10` modelled as
`Nat.log 10` (exact on the integer inputs involved here).  The `n ≥ 10^4`
branch (`nth_prime_approximation` plus a relative epsilon, in
`estimate/nth_prime.rs`) is a chain of `f64` operations (`ln`, products,
quotients and casts) whose exact rounded values integer arithmetic cannot
reproduce; the embedding therefore takes that branch's result as an
unconstrained parameter `large : Nat → URange`.  Every theorem about
`try_nth_prime` quantifies over `large`, so each holds in particular for the
function the floating-point code computes. -/
def nth_prime_bounds (large : Nat → URange) (n : Nat) : URange :=
  if Nat.log 10 n < 4 then ⟨0, 104723⟩ else large n

/-- `PrimeData::try_nth_prime`.  The outer `Option` models the source's panics
(the unwrapped `count_primes_in_range(7..=start)` and the final
`.nth(..).unwrap()`): `none` means the source panics.  `large` is the
`f64`-valued `n ≥ 10^4` branch of `nth_prime_bounds`, see there. -/
def PrimeData.try_nth_prime (d : PrimeData) (large : Nat → URange) (nth : Nat) :
    Option (PrimeResult Nat) :=
  match nth with
  | 0 => some (.error ⟨⟨.Reading, .PrimeData⟩, .OutOfBounds nth⟩)
  | 1 => some (.ok 2)
  | 2 => some (.ok 3)
  | 3 => some (.ok 5)
  | _ =>
    let total_primes := d.count_primesD
    match d.range.contains_range ⟨7, total_primes⟩ with
    | .error missing_range => some (.error ⟨⟨.Reading, .PrimeData⟩, .NotEnoughData missing_range⟩)
    | .ok _ =>
      let bounds := nth_prime_bounds large nth
      let start := max 7 bounds.lo
      let stop := min d.range.hi bounds.hi
      match d.try_count_primes_in_range ⟨7, start⟩ with
      | .error _ => none
      | .ok below =>
        let offset := 3 + below - (if d.is_primeD start then 1 else 0)
        match (d.iterList ⟨start, stop⟩).get? (nth - offset - 1) with
        | some p => some (.ok p)
        | none => none

/-- Factorization data: association list from prime factor to multiplicity (the
source uses a `HashMap`; only the entry set matters to its operations, and the
model keeps first-insertion order). -/
structure Factorization where
  data : List (Nat × Nat)

/-- `Factorization::new`. -/
def Factorization.new : Factorization := ⟨[]⟩

/-- `Factorization::add_factor`: bump the multiplicity, inserting it at 1 if the
factor is absent. -/
def Factorization.add_factor (f : Factorization) (factor : Nat) : Factorization :=
  if f.data.any (fun e => e.1 = factor) then
    ⟨f.data.map (fun e => if e.1 = factor then (e.1, e.2 + 1) else e)⟩
  else ⟨f.data ++ [(factor, 1)]⟩

/-- `Factorization::as_u64`: product of `prime ^ multiplicity` over the entries. -/
def Factorization.as_u64 (f : Factorization) : Nat :=
  f.data.foldl (fun acc e => acc * e.1 ^ e.2) 1

/-- `Factorization::as_tuples`: the entries sorted by prime. -/
def Factorization.as_tuples (f : Factorization) : List (Nat × Nat) :=
  f.data.insertionSort (fun a b => a.1 ≤ b.1)

/-- `Factorization::factor_combos`: all products of one power choice per entry. -/
def Factorization.factor_combos : List (Nat × Nat) → List Nat
  | [] => [1]
  | e :: rest =>
    let inner_combos := Factorization.factor_combos rest
    (List.range (e.2 + 1)).foldl
      (fun combinations pow => combinations ++ inner_combos.map (fun x => e.1 ^ pow * x)) []

/-- `Factorization::all_factors`: every divisor combination, sorted ascending. -/
def Factorization.all_factors (f : Factorization) : List Nat :=
  (Factorization.factor_combos f.as_tuples).insertionSort (· ≤ ·)

/-- The `while number % prime == 0` loop of `try_factorize`: divide out `prime`,
recording one factor per division.  The `2 ≤ prime` and `0 < number` guards make
the recursion terminate; in the source a call violating them would loop forever,
and both guards are established at the call sites used below. -/
def divideOut (prime number : Nat) (f : Factorization) : Nat × Factorization :=
  if _h : 2 ≤ prime ∧ 0 < number ∧ number % prime = 0 then
    divideOut prime (number / prime) (f.add_factor prime)
  else (number, f)
termination_by number
decreasing_by
  exact Nat.div_lt_self _h.2.1 _h.1

/-- `PrimeData::try_factorize`: divide out every stored prime in `[2, isqrt(x)]`
in ascending order, then record the residual cofactor when it exceeds 1. -/
def PrimeData.try_factorize (d : PrimeData) (x : Nat) : PrimeResult Factorization :=
  let sqrt := Nat.sqrt x
  match d.range.contains_range ⟨2, sqrt⟩ with
  | .error missing_range => .error ⟨⟨.Reading, .PrimeData⟩, .NotEnoughData missing_range⟩
  | .ok _ =>
    let result :=
      (d.iterList ⟨2, sqrt⟩).foldl (fun acc prime => divideOut prime acc.1 acc.2)
        (x, Factorization.new)
    if result.1 > 1 then .ok (result.2.add_factor result.1)
    else .ok result.2

/-- `From<u64> for Factorization`: generate a store up to `isqrt(x)` and
factorize (that store always covers `[2, isqrt(x)]`, so the source's unwrap
cannot fail; the dead error case returns the empty factorization). -/
def Factorization.from_u64 (number : Nat) : Factorization :=
  match (PrimeData.generate ⟨0, Nat.sqrt number⟩).try_factorize number with
  | .ok f => f
  | .error _ => Factorization.new

/-- `all_factors_of`. -/
def all_factors_of (x : Nat) : List Nat := (Factorization.from_u64 x).all_factors

/-! The semantic invariant of a prime store. -/

/-- The bit that queries consult for the number `x`: byte at block index
`x/30 - offset`, residue `x % 30`. -/
def PrimeData.bitAt (d : PrimeData) (x : Nat) : Bool :=
  PrimeByte.is_prime (d.data.getD (x / 30 - d.offset) 0) (x % 30)

/-- Semantic soundness of a store: the block count matches the range, every byte
is byte-sized, each in-range coprime-30 bit encodes true primality, and the
padding bits above the range end (other than the bit of 1) are still set. -/
def Sound (d : PrimeData) : Prop :=
  d.data.length = div_ceil d.range.hi 30 - d.range.lo / 30
  ∧ (∀ b ∈ d.data, b < 256)
  ∧ (∀ x, d.range.lo ≤ x → x ≤ d.range.hi → isKval (x % 30) = true →
      d.bitAt x = decide (Nat.Prime x))
  ∧ (∀ x, isKval (x % 30) = true → x ≠ 1 → d.range.hi < x →
      x / 30 < d.range.lo / 30 + d.data.length → d.bitAt x = true)

/-- Extractions of the consecutive blocks `bs`, the first of which has slice
index `i` (proof-side companion of the iterator's block-scan loop). -/
def flattenBlocks (dOff : Nat) : Nat → List Nat → List Nat
  | _, [] => []
  | i, b :: rest => PrimeByte.as_primes b (dOff + i) ++ flattenBlocks dOff (i + 1) rest

/-- Concatenation of the full extractions of all blocks from slice index `i` on. -/
def blocksFlatten (data : List Nat) (dOff i : Nat) : List Nat :=
  flattenBlocks dOff i (data.drop i)

/-- The borrowed slice of the iterator over `r`. -/
def iterSlice (d : PrimeData) (r : URange) : List Nat :=
  (d.data.drop (div_floor r.lo 30 - d.offset)).take
    (div_ceil r.hi 30 - d.offset - (div_floor r.lo 30 - d.offset))

/-- Absolute block number of the first slice block. -/
def iterDOff (d : PrimeData) (r : URange) : Nat :=
  div_floor r.lo 30 - d.offset + d.offset

/-- The small primes prepended by the iterator. -/
def iterPre (r : URange) : List Nat :=
  ([2, 3, 5] : List Nat).filter (fun x => decide (x ≥ r.lo))

/-- The range-restricted extraction of the first slice block. -/
def iterExtract0 (d : PrimeData) (r : URange) : List Nat :=
  match (iterSlice d r).get? 0 with
  | none => []
  | some b0 => PrimeByte.as_primes_in_range b0 (iterDOff d r) (r.lo - 30 * iterDOff d r)
      (r.lo - 30 * iterDOff d r + 30)

/-- The candidate elements the iterator walks through: the prepended small
primes, the range-restricted extraction of the first block of the slice, and
the full extractions of the remaining blocks. -/
def iterCandidates (d : PrimeData) (r : URange) : List Nat :=
  iterPre r ++ iterExtract0 d r ++ blocksFlatten (iterSlice d r) (iterDOff d r) 1

/-- The ascending list of primes in `[lo, hi]`. -/
def primesBetween (lo hi : Nat) : List Nat :=
  (List.range (hi + 1)).filter (fun p => decide (lo ≤ p) && decide (Nat.Prime p))

/-- No integer in `[2, isqrt(x)]` divides `x` - trial division exactly as the
specification words it. -/
def trialDivisionNoDivisor (x : Nat) : Bool :=
  decide (∀ d, d ≤ Nat.sqrt x → 2 ≤ d → ¬ d ∣ x)

/-- Trial-division primality with the conventional `2 ≤ x` guard. -/
def trialDivisionPrime (x : Nat) : Bool :=
  decide (2 ≤ x) && trialDivisionNoDivisor x

/-- Number of consulted bits set among the coprime-30 residues in `[s, e]`
(proof-side counting device for the block-window counts). -/
def countBits (d : PrimeData) (s e : Nat) : Nat :=
  ((List.range' s (e + 1 - s)).filter (fun x => isKval (x % 30) && d.bitAt x)).length

set_option maxRecDepth 10000

/-! Arithmetic facts about the source's division helpers. -/

theorem div_ceil_30 (a : Nat) : div_ceil a 30 = (a + 29) / 30 := by
  unfold div_ceil
  split <;> omega

theorem divisible_by_30 (a : Nat) : divisible_by a 30 = decide (a % 30 = 0) := by
  unfold divisible_by div_floor div_ceil
  simp only [decide_eq_decide]
  split <;> omega

theorem div_ceil_le_iff {b : Nat} (hb : 0 < b) (a c : Nat) :
    div_ceil a b ≤ c ↔ a ≤ b * c := by
  unfold div_ceil
  have hmc : c * b = b * c := Nat.mul_comm c b
  split
  · rename_i h
    constructor
    · intro hc
      calc a = a / b * b := h.symm
        _ ≤ c * b := Nat.mul_le_mul_right b hc
        _ = b * c := hmc
    · intro hc
      have h2 : a / b ≤ b * c / b := Nat.div_le_div_right hc
      rwa [Nat.mul_div_cancel_left c hb] at h2
  · rename_i h
    have hnd : a ≠ b * c := by
      intro he
      apply h
      rw [he, Nat.mul_div_cancel_left c hb, Nat.mul_comm]
    constructor
    · intro hc
      have h2 : a / b < c := by omega
      have h3 : a < c * b := (Nat.div_lt_iff_lt_mul hb).mp h2
      omega
    · intro hc
      have h3 : a < b * c := Nat.lt_of_le_of_ne hc hnd
      have h4 : a / b < c := (Nat.div_lt_iff_lt_mul hb).mpr (by omega)
      omega

theorem le_div_floor_iff {p : Nat} (hp : 0 < p) (m a : Nat) :
    m ≤ div_floor a p ↔ p * m ≤ a := by
  unfold div_floor
  rw [Nat.le_div_iff_mul_le hp, Nat.mul_comm]

/-! Facts about k-values and bytes. -/

theorem kvs_lt_30 (j : Nat) : kvs j < 30 := by
  have := kvs_le_29 j
  omega

theorem kIndex?_kvs : ∀ j, j < 8 → kIndex? (kvs j) = some j := by
  decide

theorem kvs_one_le (j : Nat) (hj : j < 8) : 1 ≤ kvs j := by
  interval_cases j <;> decide

theorem kvs_strict_mono : ∀ i < 8, ∀ j < 8, i < j → kvs i < kvs j := by
  decide

theorem isKval_exists {k : Nat} (h : isKval k = true) : ∃ j, j < 8 ∧ kvs j = k := by
  have h2 : k = 1 ∨ k = 7 ∨ k = 11 ∨ k = 13 ∨ k = 17 ∨ k = 19 ∨ k = 23 ∨ k = 29 := by
    simpa [isKval, K_VALUES, List.contains] using h
  rcases h2 with h | h | h | h | h | h | h | h <;> subst h
  · exact ⟨0, by decide, rfl⟩
  · exact ⟨1, by decide, rfl⟩
  · exact ⟨2, by decide, rfl⟩
  · exact ⟨3, by decide, rfl⟩
  · exact ⟨4, by decide, rfl⟩
  · exact ⟨5, by decide, rfl⟩
  · exact ⟨6, by decide, rfl⟩
  · exact ⟨7, by decide, rfl⟩

theorem isKval_kvs (j : Nat) (hj : j < 8) : isKval (kvs j) = true := by
  interval_cases j <;> decide

theorem kIndex?_eq_none {k : Nat} (h : isKval k = false) : kIndex? k = none := by
  unfold kIndex?
  split <;> first
    | rfl
    | (exfalso; revert h; simp [isKval, K_VALUES, List.contains])

theorem isKval_mod30 (x : Nat) : isKval (x % 30) = decide (Nat.Coprime 30 x) := by
  have h30 : Nat.gcd 30 x = Nat.gcd (x % 30) 30 := Nat.gcd_rec 30 x
  have hlt : x % 30 < 30 := Nat.mod_lt x (by omega)
  have key : ∀ r < 30, isKval r = decide (Nat.gcd r 30 = 1) := by decide
  rw [key (x % 30) hlt]
  simp only [decide_eq_decide]
  unfold Nat.Coprime
  omega

theorem is_prime_kvs (b j : Nat) (hj : j < 8) :
    PrimeByte.is_prime b (kvs j) = PrimeByte.bit b (7 - j) := by
  interval_cases j <;> rfl

theorem is_prime_not_kval {b k : Nat} (h : isKval k = false) :
    PrimeByte.is_prime b k = false := by
  unfold PrimeByte.is_prime
  rw [kIndex?_eq_none h]

theorem bit_sub_pow : ∀ b < 256, ∀ p < 8, ∀ q < 8, PrimeByte.bit b p = true →
    PrimeByte.bit (b - 2 ^ p) q = (decide (q ≠ p) && PrimeByte.bit b q) := by
  decide

theorem set_nonprimeD_kvs_is_prime (b i i' : Nat) (hb : b < 256) (hi : i < 8) (hi' : i' < 8) :
    PrimeByte.is_prime (PrimeByte.set_nonprimeD b (kvs i)) (kvs i') =
      (decide (i' ≠ i) && PrimeByte.is_prime b (kvs i')) := by
  unfold PrimeByte.set_nonprimeD PrimeByte.set_nonprime
  rw [kIndex?_kvs i hi]
  simp only []
  by_cases hbit : PrimeByte.bit b (7 - i) = true
  · rw [if_pos hbit]
    simp only []
    rw [is_prime_kvs _ i' hi', is_prime_kvs _ i' hi']
    rw [bit_sub_pow b hb (7 - i) (by omega) (7 - i') (by omega) hbit]
    have : decide (7 - i' ≠ 7 - i) = decide (i' ≠ i) := by
      simp only [decide_eq_decide]
      omega
    rw [this]
  · rw [if_neg hbit]
    simp only []
    rw [is_prime_kvs _ i' hi']
    have hbit' : PrimeByte.bit b (7 - i) = false := by
      cases hx : PrimeByte.bit b (7 - i) with
      | false => rfl
      | true => exact absurd hx hbit
    by_cases he : i' = i
    · subst he
      simp [hbit']
    · simp [he]

theorem set_nonprimeD_le (b k : Nat) : PrimeByte.set_nonprimeD b k ≤ b := by
  unfold PrimeByte.set_nonprimeD PrimeByte.set_nonprime
  rcases h : kIndex? k with _ | i
  · simp [h]
  · simp only [h]
    by_cases hbit : PrimeByte.bit b (7 - i) = true
    · rw [if_pos hbit]
      simp
    · rw [if_neg hbit]

theorem set_nonprimeD_not_kval {b k : Nat} (h : isKval k = false) :
    PrimeByte.set_nonprimeD b k = b := by
  unfold PrimeByte.set_nonprimeD PrimeByte.set_nonprime
  rw [kIndex?_eq_none h]

theorem is_prime_255 (j : Nat) (hj : j < 8) : PrimeByte.is_prime 255 (kvs j) = true := by
  interval_cases j <;> decide

theorem is_prime_127 (j : Nat) (hj : j < 8) :
    PrimeByte.is_prime 127 (kvs j) = decide (j ≠ 0) := by
  interval_cases j <;> decide

theorem sound_new : Sound PrimeData.new := by
  refine ⟨rfl, ?_, ?_, ?_⟩
  · intro b hb
    simp only [PrimeData.new, List.mem_singleton] at hb
    omega
  · intro x h1 h2 hK
    simp only [PrimeData.new] at h1 h2
    revert hK
    interval_cases x <;> decide
  · intro x hK h1 h2 h3
    have h4 : x / 30 < 1 := by
      simpa [PrimeData.new, PrimeData.offset] using h3
    simp only [PrimeData.new] at h2
    omega

theorem getD_set_self {l : List Nat} {i : Nat} (v d : Nat) (h : i < l.length) :
    (l.set i v).getD i d = v := by
  rw [List.getD_eq_getElem _ _ (by simpa using h)]
  simp

theorem getD_set_ne {l : List Nat} {i j : Nat} (v d : Nat) (h : i ≠ j) :
    (l.set i v).getD j d = l.getD j d := by
  rw [List.getD_eq_getD_get?, List.getD_eq_getD_get?, List.get?_eq_getElem?,
    List.get?_eq_getElem?, List.getElem?_set_ne h]

theorem getD_replicate {n i : Nat} (a d : Nat) (h : i < n) :
    (List.replicate n a).getD i d = a := by
  rw [List.getD_eq_getElem _ _ (by simpa using h)]
  simp

/-- Normal form of `create_empty` with the lets reduced and the two byte
constants evaluated. -/
theorem create_empty_eq (r : URange) :
    PrimeData.create_empty r =
      if r.lo / 30 ≥ div_ceil r.hi 30 then ⟨[], r⟩
      else ⟨(if r.lo / 30 = 0
             then (List.replicate (div_ceil r.hi 30 - r.lo / 30) 255).set 0 127
             else List.replicate (div_ceil r.hi 30 - r.lo / 30) 255), r⟩ := by
  have h127 : PrimeByte.set_nonprimeD PrimeByte.new 1 = 127 := by decide
  have h255 : PrimeByte.new = 255 := rfl
  unfold PrimeData.create_empty div_floor
  dsimp only
  rw [h127, h255]

theorem create_empty_range (r : URange) : (PrimeData.create_empty r).range = r := by
  rw [create_empty_eq]
  split
  · rfl
  · split <;> rfl

theorem create_empty_length (r : URange) :
    (PrimeData.create_empty r).data.length = div_ceil r.hi 30 - r.lo / 30 := by
  rw [create_empty_eq]
  split
  · rename_i h
    simp only [List.length_nil]
    omega
  · split <;> simp

theorem create_empty_bytes (r : URange) : ∀ b ∈ (PrimeData.create_empty r).data, b < 256 := by
  rw [create_empty_eq]
  split
  · intro b hb
    simp at hb
  · split
    · intro b hb
      rcases List.mem_or_eq_of_mem_set hb with h | h
      · rw [List.eq_of_mem_replicate h]
        decide
      · subst h
        decide
    · intro b hb
      rw [List.eq_of_mem_replicate hb]
      decide

theorem create_empty_bitAt (r : URange) (x : Nat) (hK : isKval (x % 30) = true)
    (hlo : r.lo / 30 ≤ x / 30) (hhi : x / 30 < div_ceil r.hi 30) :
    (PrimeData.create_empty r).bitAt x = decide (x ≠ 1) := by
  obtain ⟨j, hj8, hjk⟩ := isKval_exists hK
  have hidx : x / 30 - r.lo / 30 < div_ceil r.hi 30 - r.lo / 30 := by omega
  have hx30 : x % 30 < 30 := Nat.mod_lt x (by omega)
  unfold PrimeData.bitAt PrimeData.offset
  rw [create_empty_eq]
  split
  · rename_i h
    omega
  · rename_i h
    dsimp only
    by_cases h0 : r.lo / 30 = 0
    · rw [if_pos h0]
      simp only [h0, Nat.sub_zero] at hidx ⊢
      by_cases hx0 : x / 30 = 0
      · rw [hx0]
        rw [getD_set_self _ _ (by simp; omega)]
        rw [← hjk, is_prime_127 j hj8]
        have hxj : x = kvs j := by omega
        simp only [decide_eq_decide]
        have hkvs0 : kvs 0 = 1 := by decide
        constructor
        · intro hj0 hx1
          rw [hx1] at hxj
          rcases Nat.eq_zero_or_pos j with hc | hc
          · exact hj0 hc
          · have := kvs_strict_mono 0 (by omega) j hj8 hc
            omega
        · intro hx1 hj0
          rw [hj0] at hxj
          omega
      · rw [getD_set_ne _ _ (fun he => hx0 he.symm)]
        rw [getD_replicate _ _ (by omega)]
        rw [← hjk, is_prime_255 j hj8]
        have hx1 : x ≠ 1 := by omega
        simp [hx1]
    · rw [if_neg h0]
      rw [getD_replicate _ _ (by omega)]
      rw [← hjk, is_prime_255 j hj8]
      have hx1 : x ≠ 1 := by
        intro he
        rw [he] at hlo
        simp at hlo
        omega
      simp [hx1]

/-- Normal form of the store-level `set_nonprimeD`: a byte update when the target
is in range and is a k-value, identity otherwise. -/
theorem pd_set_nonprimeD_eq (d : PrimeData) (np : Nat) :
    d.set_nonprimeD np =
      if d.range.containsN np && isKval (np % 30) then
        ⟨d.data.set (np / 30 - d.offset)
          (PrimeByte.set_nonprimeD (d.data.getD (np / 30 - d.offset) 0) (np % 30)), d.range⟩
      else d := by
  by_cases hc : d.range.containsN np = true
  · by_cases hk : isKval (np % 30) = true
    · obtain ⟨j, hj8, hjk⟩ := isKval_exists hk
      have hidx : kIndex? (np % 30) = some j := by
        rw [← hjk]
        exact kIndex?_kvs j hj8
      unfold PrimeData.set_nonprimeD PrimeData.set_nonprime PrimeByte.set_nonprimeD
        PrimeByte.set_nonprime
      dsimp only
      rw [hidx, if_pos hc,
        if_pos (show (d.range.containsN np && isKval (np % 30)) = true by rw [hc, hk]; rfl)]
      dsimp only
      cases hbit : PrimeByte.bit (d.data.getD (np / 30 - d.offset) 0) (7 - j) with
      | true => rfl
      | false => rfl
    · have hk' : isKval (np % 30) = false := by
        cases hx : isKval (np % 30) with
        | false => rfl
        | true => exact absurd hx hk
      have hidx : kIndex? (np % 30) = none := kIndex?_eq_none hk'
      unfold PrimeData.set_nonprimeD PrimeData.set_nonprime PrimeByte.set_nonprime
      dsimp only
      rw [if_pos hc, hidx, hc, hk']
      rfl
  · have hc' : d.range.containsN np = false := by
      cases hx : d.range.containsN np with
      | false => rfl
      | true => exact absurd hx hc
    unfold PrimeData.set_nonprimeD PrimeData.set_nonprime
    dsimp only
    rw [if_neg hc, hc']
    rfl

theorem pd_set_nonprimeD_range (d : PrimeData) (np : Nat) :
    (d.set_nonprimeD np).range = d.range := by
  rw [pd_set_nonprimeD_eq]
  split <;> rfl

theorem pd_set_nonprimeD_length (d : PrimeData) (np : Nat) :
    (d.set_nonprimeD np).data.length = d.data.length := by
  rw [pd_set_nonprimeD_eq]
  split
  · simp
  · rfl

theorem pd_set_nonprimeD_bytes (d : PrimeData) (np : Nat) (hb : ∀ b ∈ d.data, b < 256) :
    ∀ b ∈ (d.set_nonprimeD np).data, b < 256 := by
  rw [pd_set_nonprimeD_eq]
  split
  · intro b hmem
    rcases List.mem_or_eq_of_mem_set hmem with h | h
    · exact hb b h
    · subst h
      have h0 : d.data.getD (np / 30 - d.offset) 0 < 256 := by
        by_cases hi : np / 30 - d.offset < d.data.length
        · rw [List.getD_eq_getElem _ _ (by simpa using hi)]
          exact hb _ (List.getElem_mem _)
        · rw [List.getD_eq_default _ _ (by omega)]
          omega
      exact Nat.lt_of_le_of_lt (set_nonprimeD_le _ _) h0
  · exact hb

theorem byte_at_lt_256 (d : PrimeData) (i : Nat) (hb : ∀ b ∈ d.data, b < 256) :
    d.data.getD i 0 < 256 := by
  by_cases hi : i < d.data.length
  · rw [List.getD_eq_getElem _ _ (by simpa using hi)]
    exact hb _ (List.getElem_mem _)
  · rw [List.getD_eq_default _ _ (by omega)]
    omega

/-- Effect of one `set_nonprime` on one consulted bit: the target bit is cleared,
every other coprime-30 bit is unchanged. -/
theorem bitAt_pd_set_nonprimeD (d : PrimeData) (np x : Nat)
    (hnpK : isKval (np % 30) = true)
    (hnp_lo : d.range.lo ≤ np) (hnp_hi : np ≤ d.range.hi)
    (hxK : isKval (x % 30) = true)
    (hx_lo : d.range.lo / 30 ≤ x / 30)
    (hnp_idx : np / 30 - d.range.lo / 30 < d.data.length)
    (hb : ∀ b ∈ d.data, b < 256) :
    (d.set_nonprimeD np).bitAt x = (decide (x ≠ np) && d.bitAt x) := by
  have hcn : d.range.containsN np = true := by
    simp [URange.containsN]
    omega
  unfold PrimeData.bitAt PrimeData.offset
  rw [pd_set_nonprimeD_eq, if_pos (by rw [hcn, hnpK]; rfl)]
  dsimp only
  simp only [PrimeData.offset]
  have hnp30 : d.range.lo / 30 ≤ np / 30 := Nat.div_le_div_right hnp_lo
  by_cases hblk : x / 30 = np / 30
  · rw [hblk, getD_set_self _ _ (by omega)]
    obtain ⟨j, hj8, hjk⟩ := isKval_exists hnpK
    obtain ⟨j', hj'8, hj'k⟩ := isKval_exists hxK
    rw [← hjk, ← hj'k, set_nonprimeD_kvs_is_prime _ _ _
      (byte_at_lt_256 d _ hb) hj8 hj'8]
    have heq : (decide (j' ≠ j)) = (decide (x ≠ np)) := by
      simp only [decide_eq_decide, ne_eq, not_iff_not]
      constructor
      · intro he
        have : kvs j' = kvs j := by rw [he]
        have hx30 : x % 30 = np % 30 := by rw [← hjk, ← hj'k, this]
        omega
      · intro he
        subst he
        have : kvs j' = kvs j := by rw [hjk, hj'k]
        rcases Nat.lt_trichotomy j' j with hc | hc | hc
        · have := kvs_strict_mono j' hj'8 j hj8 hc
          omega
        · exact hc
        · have := kvs_strict_mono j hj8 j' hj'8 hc
          omega
    rw [heq]
  · have hne : np / 30 - d.range.lo / 30 ≠ x / 30 - d.range.lo / 30 := by omega
    rw [getD_set_ne _ _ hne]
    have hxne : decide (x ≠ np) = true := by
      simp only [decide_eq_true_eq, ne_eq]
      intro he
      subst he
      exact hblk rfl
    rw [hxne, Bool.true_and]

/-- Effect of a whole pass of clears on one consulted bit. -/
theorem bitAt_foldl_set_nonprimeD (l : List Nat) (d : PrimeData) (x : Nat)
    (hall : ∀ np ∈ l, isKval (np % 30) = true ∧ d.range.lo ≤ np ∧ np ≤ d.range.hi)
    (hlen : d.data.length = div_ceil d.range.hi 30 - d.range.lo / 30)
    (hxK : isKval (x % 30) = true)
    (hx_lo : d.range.lo / 30 ≤ x / 30)
    (hb : ∀ b ∈ d.data, b < 256) :
    (l.foldl (fun acc np => acc.set_nonprimeD np) d).bitAt x
      = ((decide (x ∉ l)) && d.bitAt x) := by
  induction l generalizing d with
  | nil => simp
  | cons a t ih =>
    obtain ⟨haK, ha_lo, ha_hi⟩ := hall a (by simp)
    have ha_idx : a / 30 - d.range.lo / 30 < d.data.length := by
      rw [hlen, div_ceil_30]
      have h1 : d.range.lo / 30 ≤ a / 30 := Nat.div_le_div_right ha_lo
      have h2 : a % 30 ≠ 0 := by
        intro hz
        rw [isKval_mod30] at haK
        simp only [decide_eq_true_eq] at haK
        have hdvd : (30 : Nat) ∣ a := Nat.dvd_of_mod_eq_zero hz
        have h30 : Nat.gcd 30 a = 30 := Nat.gcd_eq_left hdvd
        unfold Nat.Coprime at haK
        omega
      omega
    simp only [List.foldl_cons]
    rw [ih (d.set_nonprimeD a)
      (by
        intro np hnp
        have := hall np (by simp [hnp])
        rwa [pd_set_nonprimeD_range])
      (by rw [pd_set_nonprimeD_length, pd_set_nonprimeD_range]; exact hlen)
      (by rw [pd_set_nonprimeD_range]; exact hx_lo)
      (pd_set_nonprimeD_bytes d a hb)]
    rw [bitAt_pd_set_nonprimeD d a x haK ha_lo ha_hi hxK hx_lo ha_idx hb]
    have hsplit : decide (x ∉ a :: t) = (decide (x ≠ a) && decide (x ∉ t)) := by
      simp [List.mem_cons, not_or]
    rw [hsplit]
    cases decide (x ≠ a) <;> cases decide (x ∉ t) <;> simp

/-! CoprimeIter: characterization of the yielded set. -/

theorem kSearch_le_7 (v : Nat) : kSearch v ≤ 7 := by
  unfold kSearch
  repeat' split
  all_goals omega

theorem kSearch_ge : ∀ v < 30, v ≤ kvs (kSearch v) := by decide

theorem kSearch_least : ∀ v < 30, ∀ j < 8, v ≤ kvs j → kSearch v ≤ j := by decide

theorem kvs_mono (i j : Nat) (hij : i ≤ j) (hj : j < 8) : kvs i ≤ kvs j := by
  rcases Nat.eq_or_lt_of_le hij with h | h
  · subst h
    exact Nat.le_refl _
  · exact Nat.le_of_lt (kvs_strict_mono i (by omega) j hj h)

theorem curVal_isK (it : CoprimeIter) (h : it.index < 8) :
    isKval (it.curVal % 30) = true := by
  unfold CoprimeIter.curVal
  have h1 : kvs it.index < 30 := kvs_lt_30 _
  have h2 : (30 * it.offset + kvs it.index) % 30 = kvs it.index := by omega
  rw [h2]
  exact isKval_kvs _ h

theorem step_index_lt (it : CoprimeIter) : it.step.index < 8 := by
  unfold CoprimeIter.step
  split
  · rename_i h
    dsimp only
    omega
  · dsimp only
    omega

theorem step_stop (it : CoprimeIter) : it.step.stop_after = it.stop_after := by
  unfold CoprimeIter.step
  split <;> rfl

theorem step_curVal_le (it : CoprimeIter) (h8 : it.index < 8) (x : Nat)
    (hxK : isKval (x % 30) = true) (hx : it.curVal < x) : it.step.curVal ≤ x := by
  obtain ⟨j, hj8, hjk⟩ := isKval_exists hxK
  have hk30 : kvs it.index < 30 := kvs_lt_30 _
  have hj30 : kvs j < 30 := kvs_lt_30 _
  have hj1 : 1 ≤ kvs j := kvs_one_le j hj8
  have hxeq : x = 30 * (x / 30) + (x % 30) := by omega
  unfold CoprimeIter.curVal at hx
  unfold CoprimeIter.step CoprimeIter.curVal
  by_cases h7 : it.index < 7
  · rw [if_pos h7]
    dsimp only
    by_cases hblk : x / 30 = it.offset
    · have hgt : kvs it.index < kvs j := by omega
      have hle : kvs (it.index + 1) ≤ kvs j := by
        have key : ∀ i < 7, ∀ j2 < 8, kvs i < kvs j2 → kvs (i + 1) ≤ kvs j2 := by decide
        exact key it.index h7 j hj8 hgt
      omega
    · have hlt : it.offset < x / 30 := by omega
      have h31 : kvs (it.index + 1) < 30 := kvs_lt_30 _
      omega
  · rw [if_neg h7]
    dsimp only
    have hi7 : it.index = 7 := by omega
    have hk29 : kvs it.index = 29 := by rw [hi7]; decide
    have hkvs0 : kvs 0 = 1 := by decide
    omega

theorem coprime_toList_mem (it : CoprimeIter) (h8 : it.index < 8) (x : Nat) :
    x ∈ it.toList ↔ (isKval (x % 30) = true ∧ it.curVal ≤ x ∧ x ≤ it.stop_after) := by
  by_cases hstop : it.curVal > it.stop_after
  · unfold CoprimeIter.toList
    rw [dif_pos hstop]
    simp only [List.not_mem_nil, false_iff, not_and]
    intro hK h1
    omega
  · unfold CoprimeIter.toList
    rw [dif_neg hstop]
    rw [List.mem_cons]
    have hrec := coprime_toList_mem it.step (step_index_lt it) x
    rw [hrec, step_stop]
    constructor
    · rintro (h | ⟨hK, h1, h2⟩)
      · subst h
        exact ⟨curVal_isK it h8, Nat.le_refl _, by omega⟩
      · have := curVal_lt_step it
        exact ⟨hK, by omega, h2⟩
    · rintro ⟨hK, h1, h2⟩
      by_cases he : x = it.curVal
      · exact Or.inl he
      · right
        refine ⟨hK, ?_, h2⟩
        exact step_curVal_le it h8 x hK (by omega)
termination_by it.stop_after + 1 - it.curVal
decreasing_by
  have h1 : it.curVal < it.step.curVal := curVal_lt_step it
  have h2 : it.step.stop_after = it.stop_after := step_stop it
  rw [h2]
  omega

theorem coprime_new_toList_mem (lb ub x : Nat) :
    x ∈ (CoprimeIter.new ⟨lb, ub⟩).toList ↔
      (isKval (x % 30) = true ∧ lb ≤ x ∧ x ≤ ub) := by
  have h8 : (CoprimeIter.new ⟨lb, ub⟩).index < 8 := by
    unfold CoprimeIter.new
    have := kSearch_le_7 (lb % 30)
    dsimp only
    omega
  rw [coprime_toList_mem _ h8]
  unfold CoprimeIter.new CoprimeIter.curVal
  dsimp only
  constructor
  · rintro ⟨hK, h1, h2⟩
    refine ⟨hK, ?_, h2⟩
    have := kSearch_ge (lb % 30) (Nat.mod_lt lb (by omega))
    omega
  · rintro ⟨hK, h1, h2⟩
    refine ⟨hK, ?_, h2⟩
    obtain ⟨j, hj8, hjk⟩ := isKval_exists hK
    have hx30 : x % 30 < 30 := Nat.mod_lt x (by omega)
    have hks := kSearch_le_7 (lb % 30)
    by_cases hblk : x / 30 = lb / 30
    · have hle : lb % 30 ≤ x % 30 := by omega
      have hsl : kSearch (lb % 30) ≤ j := kSearch_least (lb % 30) (by omega) j hj8 (by omega)
      have := kvs_mono _ _ hsl hj8
      omega
    · have hdiv : lb / 30 ≤ x / 30 := Nat.div_le_div_right h1
      have h29 := kvs_le_29 (kSearch (lb % 30))
      omega

/-! PrimeIter: extraction facts and the unfolding of the iterator loop. -/

theorem as_primes_length_le (b off : Nat) : (PrimeByte.as_primes b off).length ≤ 8 := by
  unfold PrimeByte.as_primes
  rw [List.length_map]
  calc ((List.range 8).filter _).length ≤ (List.range 8).length := List.length_filter_le _ _
    _ = 8 := List.length_range 8

theorem mem_as_primes (b off x : Nat) :
    x ∈ PrimeByte.as_primes b off ↔
      ∃ j, j < 8 ∧ PrimeByte.bit b (7 - j) = true ∧ x = 30 * off + kvs j := by
  unfold PrimeByte.as_primes
  simp only [List.mem_map, List.mem_filter, List.mem_range]
  constructor
  · rintro ⟨j, ⟨hj, hb⟩, hx⟩
    exact ⟨j, hj, hb, hx.symm⟩
  · rintro ⟨j, hj, hb, hx⟩
    exact ⟨j, ⟨hj, hb⟩, hx.symm⟩

theorem mem_as_primes_in_range (b off lo hi x : Nat) :
    x ∈ PrimeByte.as_primes_in_range b off lo hi ↔
      ∃ j, j < 8 ∧ PrimeByte.bit b (7 - j) = true ∧ lo ≤ kvs j ∧ kvs j ≤ hi ∧
        x = 30 * off + kvs j := by
  unfold PrimeByte.as_primes_in_range
  simp only [List.mem_map, List.mem_filter, List.mem_range, Bool.and_eq_true,
    decide_eq_true_eq]
  constructor
  · rintro ⟨j, ⟨hj, ⟨hb, h1⟩, h2⟩, hx⟩
    exact ⟨j, hj, hb, h1, h2, hx.symm⟩
  · rintro ⟨j, hj, hb, h1, h2, hx⟩
    exact ⟨j, ⟨hj, ⟨hb, h1⟩, h2⟩, hx.symm⟩

theorem as_primes_sorted (b off : Nat) : List.Sorted (· < ·) (PrimeByte.as_primes b off) := by
  unfold PrimeByte.as_primes List.Sorted
  rw [List.pairwise_map]
  have h : List.Pairwise (· < ·) ((List.range 8).filter (fun j => PrimeByte.bit b (7 - j))) :=
    (List.pairwise_lt_range 8).filter _
  apply h.imp_of_mem
  intro a c ha hc hlt
  have ha8 : a < 8 := List.mem_range.mp (List.mem_of_mem_filter ha)
  have hc8 : c < 8 := List.mem_range.mp (List.mem_of_mem_filter hc)
  have := kvs_strict_mono a ha8 c hc8 hlt
  omega

theorem as_primes_in_range_sorted (b off lo hi : Nat) :
    List.Sorted (· < ·) (PrimeByte.as_primes_in_range b off lo hi) := by
  unfold PrimeByte.as_primes_in_range List.Sorted
  rw [List.pairwise_map]
  have h : List.Pairwise (· < ·) ((List.range 8).filter
      (fun j => PrimeByte.bit b (7 - j) && decide (lo ≤ kvs j) && decide (kvs j ≤ hi))) :=
    (List.pairwise_lt_range 8).filter _
  apply h.imp_of_mem
  intro a c ha hc hlt
  have ha8 : a < 8 := List.mem_range.mp (List.mem_of_mem_filter ha)
  have hc8 : c < 8 := List.mem_range.mp (List.mem_of_mem_filter hc)
  have := kvs_strict_mono a ha8 c hc8 hlt
  omega

theorem toListF_none (n : Nat) (it : PrimeIter) (h : it.primes = none) :
    PrimeIter.toListF n it = [] := by
  cases n with
  | zero => rfl
  | succ m =>
    unfold PrimeIter.toListF PrimeIter.next
    rw [h]

theorem blocksFlatten_none {data : List Nat} {i : Nat} (dOff : Nat)
    (hg : data.get? i = none) : blocksFlatten data dOff i = [] := by
  unfold blocksFlatten
  have hlen : data.length ≤ i := List.get?_eq_none.mp hg
  rw [List.drop_eq_nil_of_le hlen]
  rfl

theorem blocksFlatten_cons {data : List Nat} {i b : Nat} (dOff : Nat)
    (hg : data.get? i = some b) :
    blocksFlatten data dOff i = PrimeByte.as_primes b (dOff + i) ++ blocksFlatten data dOff (i + 1) := by
  have hlt : i < data.length := by
    by_contra hc
    rw [List.get?_eq_none.mpr (by omega)] at hg
    exact Option.noConfusion hg
  have hb : data[i] = b := by
    have := List.get?_eq_getElem? data i
    rw [this, List.getElem?_eq_getElem hlt] at hg
    exact Option.some.inj hg
  unfold blocksFlatten
  rw [List.drop_eq_getElem_cons hlt, hb]
  rfl

theorem scanBlocks_none_flatten (data : List Nat) (dOff i : Nat)
    (h : scanBlocks data dOff i = none) : blocksFlatten data dOff i = [] := by
  rcases hg : data.get? i with _ | b
  · exact blocksFlatten_none dOff hg
  · have hlt : i < data.length := by
      by_contra hc
      rw [List.get?_eq_none.mpr (by omega)] at hg
      exact Option.noConfusion hg
    unfold scanBlocks at h
    split at h
    · rename_i byte hbyte
      have hbb : b = byte := by
        rw [hg] at hbyte
        exact Option.some.inj hbyte
      subst hbb
      dsimp only at h
      split at h
      · rename_i hemp
        have htail := scanBlocks_none_flatten data dOff (i + 1) h
        rw [blocksFlatten_cons dOff hg, hemp, htail]
        rfl
      · simp at h
    · rename_i hbyte
      rw [hg] at hbyte
      exact Option.noConfusion hbyte
termination_by data.length - i
decreasing_by
  omega

theorem scanBlocks_some_flatten (data : List Nat) (dOff i : Nat) (bp : List Nat) (j : Nat)
    (h : scanBlocks data dOff i = some (bp, j)) :
    i ≤ j ∧ j < data.length ∧ bp ≠ [] ∧
      (∃ b, data.get? j = some b ∧ bp = PrimeByte.as_primes b (dOff + j)) ∧
      blocksFlatten data dOff i = bp ++ blocksFlatten data dOff (j + 1) := by
  rcases hg : data.get? i with _ | b
  · unfold scanBlocks at h
    split at h
    · rename_i byte hbyte
      rw [hg] at hbyte
      exact Option.noConfusion hbyte
    · simp at h
  · have hlt : i < data.length := by
      by_contra hc
      rw [List.get?_eq_none.mpr (by omega)] at hg
      exact Option.noConfusion hg
    unfold scanBlocks at h
    split at h
    · rename_i byte hbyte
      have hbb : b = byte := by
        rw [hg] at hbyte
        exact Option.some.inj hbyte
      subst hbb
      dsimp only at h
      split at h
      · rename_i hemp
        obtain ⟨h1, h1b, h2, h3, h4⟩ := scanBlocks_some_flatten data dOff (i + 1) bp j h
        refine ⟨by omega, h1b, h2, h3, ?_⟩
        rw [blocksFlatten_cons dOff hg, hemp, List.nil_append]
        exact h4
      · rename_i hemp
        have hpair := Option.some.inj h
        have hbp : PrimeByte.as_primes b (dOff + i) = bp := congrArg Prod.fst hpair
        have hij : i = j := congrArg Prod.snd hpair
        subst hij
        refine ⟨Nat.le_refl _, hlt, by rw [← hbp]; exact hemp, ⟨b, hg, hbp.symm⟩, ?_⟩
        rw [blocksFlatten_cons dOff hg, hbp]
    · rename_i hbyte
      rw [hg] at hbyte
      exact Option.noConfusion hbyte
termination_by data.length - i
decreasing_by
  omega

/-- Unfolding of the iterator: with a live vector and enough fuel, the output is
the rest of the vector followed by the remaining block extractions, truncated at
the first element beyond the stop bound. -/
theorem toListF_spec (n : Nat) (it : PrimeIter) (v : List Nat)
    (hp : it.primes = some v) (hc1 : it.current.2 < v.length)
    (hn : (v.length - it.current.2) + 8 * (it.data.length - (it.current.1 + 1)) ≤ n) :
    PrimeIter.toListF n it =
      (v.drop it.current.2 ++ blocksFlatten it.data it.data_offset (it.current.1 + 1)).takeWhile
        (fun y => decide (y ≤ it.stop_at)) := by
  induction n generalizing it v with
  | zero => omega
  | succ m ih =>
    have hgetD : v.getD it.current.2 0 = v[it.current.2] :=
      List.getD_eq_getElem v 0 hc1
    have hdrop : v.drop it.current.2 = v[it.current.2] :: v.drop (it.current.2 + 1) :=
      List.drop_eq_getElem_cons hc1
    unfold PrimeIter.toListF PrimeIter.next
    rw [hp]
    dsimp only
    by_cases hstop : v.getD it.current.2 0 > it.stop_at
    · rw [if_pos hstop]
      rw [hdrop, List.cons_append, List.takeWhile_cons]
      have hfalse : decide (v[it.current.2] ≤ it.stop_at) = false := by
        rw [← hgetD]
        simp only [decide_eq_false_iff_not]
        omega
      rw [hfalse]
      rfl
    · rw [if_neg hstop]
      rw [hdrop, List.cons_append, List.takeWhile_cons]
      have htrue : decide (v[it.current.2] ≤ it.stop_at) = true := by
        rw [← hgetD]
        simp only [decide_eq_true_eq]
        omega
      rw [htrue]
      simp only [if_true, hgetD]
      congr 1
      by_cases hlen : it.current.2 + 1 < v.length
      · rw [if_pos hlen]
        rw [ih ⟨it.data, some v, (it.current.1, it.current.2 + 1), it.data_offset, it.stop_at⟩ v
          rfl (show it.current.2 + 1 < v.length from hlen)
          (show v.length - (it.current.2 + 1) + 8 * (it.data.length - (it.current.1 + 1)) ≤ m
            by omega)]
      · rw [if_neg hlen]
        have hrest_nil : v.drop (it.current.2 + 1) = [] :=
          List.drop_eq_nil_of_le (by omega)
        rcases hscan : scanBlocks it.data it.data_offset (it.current.1 + 1) with _ | ⟨bp, jj⟩
        · dsimp only
          rw [toListF_none m _ rfl]
          have hfl : blocksFlatten it.data it.data_offset (it.current.1 + 1) = [] :=
            scanBlocks_none_flatten _ _ _ hscan
          rw [hrest_nil, hfl]
          rfl
        · obtain ⟨hij, hjlt, hbp_ne, ⟨b, hgb, hbp⟩, hfl⟩ :=
            scanBlocks_some_flatten _ _ _ _ _ hscan
          dsimp only
          have hbplen : bp.length ≤ 8 := by
            rw [hbp]
            exact as_primes_length_le _ _
          have hbppos : 0 < bp.length := List.length_pos.mpr hbp_ne
          rw [hrest_nil, hfl, List.nil_append]
          rw [ih ⟨it.data, some bp, (jj, 0), it.data_offset, it.stop_at⟩ bp rfl
            (show (0 : Nat) < bp.length from hbppos)
            (show bp.length - 0 + 8 * (it.data.length - (jj + 1)) ≤ m by omega)]
          rw [List.drop_zero]

theorem as_primes_in_range_length_le (b off lo hi : Nat) :
    (PrimeByte.as_primes_in_range b off lo hi).length ≤ 8 := by
  unfold PrimeByte.as_primes_in_range
  rw [List.length_map]
  calc ((List.range 8).filter _).length ≤ (List.range 8).length := List.length_filter_le _ _
    _ = 8 := List.length_range 8

theorem contains_range_ok (s o : URange) (h1 : s.lo ≤ o.lo) (h2 : o.hi ≤ s.hi) :
    URange.contains_range s o = .ok () := by
  unfold URange.contains_range
  rw [if_neg (by omega), if_neg (by omega)]

theorem mem_iterPre (r : URange) (x : Nat) :
    x ∈ iterPre r ↔ (x = 2 ∨ x = 3 ∨ x = 5) ∧ r.lo ≤ x := by
  unfold iterPre
  simp only [List.mem_filter, List.mem_cons, List.not_mem_nil, or_false,
    decide_eq_true_eq, ge_iff_le]

theorem iterPre_empty (r : URange) (h : 5 < r.lo) : iterPre r = [] := by
  unfold iterPre
  rw [List.filter_eq_nil_iff]
  intro a ha
  simp only [List.mem_cons, List.not_mem_nil, or_false] at ha
  simp only [decide_eq_true_eq, ge_iff_le]
  rcases ha with h2 | h3 | h5
  · omega
  · omega
  · omega

theorem takeWhile_nil_of_all {p : Nat → Bool} {l : List Nat}
    (h : ∀ x ∈ l, p x = false) : l.takeWhile p = [] := by
  cases l with
  | nil => rfl
  | cons a as =>
    rw [List.takeWhile_cons, h a (by simp)]
    rfl

theorem iterExtract0_none (d : PrimeData) (r : URange)
    (h : (iterSlice d r).get? 0 = none) : iterExtract0 d r = [] := by
  unfold iterExtract0
  rw [h]

theorem iterExtract0_some (d : PrimeData) (r : URange) (b0 : Nat)
    (h : (iterSlice d r).get? 0 = some b0) :
    iterExtract0 d r = PrimeByte.as_primes_in_range b0 (iterDOff d r)
      (r.lo - 30 * iterDOff d r) (r.lo - 30 * iterDOff d r + 30) := by
  unfold iterExtract0
  rw [h]

theorem iterSlice_nil_hi (d : PrimeData) (r : URange)
    (h1 : d.range.lo ≤ r.lo) (h2 : r.hi ≤ d.range.hi)
    (hlen : d.data.length = div_ceil d.range.hi 30 - d.range.lo / 30)
    (hlo : r.lo ≤ 5) (hnil : iterSlice d r = []) : r.hi = 0 := by
  have hdlo : d.range.lo / 30 = 0 := by omega
  have hoff : d.offset = 0 := by
    unfold PrimeData.offset
    omega
  have hds : div_floor r.lo 30 - d.offset = 0 := by
    unfold div_floor
    omega
  unfold iterSlice at hnil
  rw [hds, List.drop_zero] at hnil
  have hlen0 : (d.data.take (div_ceil r.hi 30 - d.offset - 0)).length = 0 := by
    rw [hnil]
    rfl
  rw [List.length_take] at hlen0
  have hcases : div_ceil r.hi 30 - d.offset = 0 ∨ d.data.length = 0 := by omega
  have hce : div_ceil d.range.hi 30 ≤ d.range.lo / 30 → d.range.hi = 0 := by
    intro hc
    have := (div_ceil_le_iff (by omega) d.range.hi (d.range.lo / 30)).mp hc
    omega
  have h30 : (0 : Nat) < 30 := by omega
  rcases hcases with hc | hc
  · rw [hoff] at hc
    have hle : div_ceil r.hi 30 ≤ 0 := by omega
    have := (div_ceil_le_iff h30 r.hi 0).mp hle
    omega
  · rw [hlen] at hc
    have hle2 : div_ceil d.range.hi 30 ≤ d.range.lo / 30 := by omega
    have hdh : d.range.hi = 0 := hce hle2
    omega

theorem iterList_eq_takeWhile (d : PrimeData) (r : URange)
    (h1 : d.range.lo ≤ r.lo) (h2 : r.hi ≤ d.range.hi)
    (hlen : d.data.length = div_ceil d.range.hi 30 - d.range.lo / 30)
    (hfb : r.lo ≤ 5 → iterSlice d r ≠ [] → iterExtract0 d r ≠ []) :
    d.iterList r = (iterCandidates d r).takeWhile (fun y => decide (y ≤ r.hi)) := by
  have hpre_len : (iterPre r).length ≤ 3 := by
    unfold iterPre
    calc (([2,3,5] : List Nat).filter _).length ≤ ([2,3,5] : List Nat).length :=
          List.length_filter_le _ _
      _ = 3 := rfl
  unfold PrimeData.iterList PrimeIter.new
  rw [contains_range_ok _ _ h1 h2]
  dsimp only
  rw [show ((d.data.drop (div_floor r.lo 30 - d.offset)).take
      (div_ceil r.hi 30 - d.offset - (div_floor r.lo 30 - d.offset))) = iterSlice d r from rfl]
  rw [show (div_floor r.lo 30 - d.offset + d.offset) = iterDOff d r from rfl]
  rw [show (([2, 3, 5] : List Nat).filter (fun x => decide (x ≥ r.lo))) = iterPre r from rfl]
  rcases hs0 : (iterSlice d r).get? 0 with _ | b0
  · dsimp only
    unfold PrimeIter.toList
    rw [toListF_none _ _ rfl]
    have hnil : iterSlice d r = [] :=
      List.eq_nil_of_length_eq_zero (by have := List.get?_eq_none.mp hs0; omega)
    unfold iterCandidates
    rw [iterExtract0_none d r hs0, List.append_nil]
    rw [blocksFlatten_none (iterDOff d r) (by rw [hnil]; rfl), List.append_nil]
    by_cases hlo : r.lo ≤ 5
    · have hhi : r.hi = 0 := iterSlice_nil_hi d r h1 h2 hlen hlo hnil
      refine (takeWhile_nil_of_all ?_).symm
      intro x hx
      have := (mem_iterPre r x).mp hx
      simp only [decide_eq_false_iff_not]
      omega
    · rw [iterPre_empty r (by omega)]
      rfl
  · dsimp only
    rw [show PrimeByte.as_primes_in_range b0 (iterDOff d r) (r.lo - 30 * iterDOff d r)
        (r.lo - 30 * iterDOff d r + 30) = iterExtract0 d r from
      (iterExtract0_some d r b0 hs0).symm]
    have hslt : 0 < (iterSlice d r).length := by
      by_contra hc
      rw [List.get?_eq_none.mpr (by omega)] at hs0
      exact Option.noConfusion hs0
    have he0len : (iterExtract0 d r).length ≤ 8 := by
      rw [iterExtract0_some d r b0 hs0]
      exact as_primes_in_range_length_le _ _ _ _
    by_cases he : iterExtract0 d r = []
    · rw [if_pos he]
      rcases hscan : scanBlocks (iterSlice d r) (iterDOff d r) 1 with _ | ⟨bp, jj⟩
      · dsimp only
        unfold PrimeIter.toList
        rw [toListF_none _ _ rfl]
        unfold iterCandidates
        rw [he, List.append_nil]
        rw [scanBlocks_none_flatten _ _ _ hscan, List.append_nil]
        by_cases hlo : r.lo ≤ 5
        · exact absurd he (hfb hlo (by intro hc; rw [hc] at hslt; exact Nat.lt_irrefl 0 hslt))
        · rw [iterPre_empty r (by omega)]
          rfl
      · obtain ⟨hij, hjlt, hbp_ne, ⟨b, hgb, hbp⟩, hfl⟩ := scanBlocks_some_flatten _ _ _ _ _ hscan
        dsimp only
        have hbplen : bp.length ≤ 8 := by
          rw [hbp]
          exact as_primes_length_le _ _
        have hbppos : 0 < bp.length := List.length_pos.mpr hbp_ne
        unfold PrimeIter.toList
        rw [toListF_spec _ ⟨iterSlice d r, some (iterPre r ++ bp), (jj, 0), iterDOff d r, r.hi⟩
          (iterPre r ++ bp) rfl
          (show (0 : Nat) < (iterPre r ++ bp).length by rw [List.length_append]; omega)
          (show (iterPre r ++ bp).length - 0 +
              8 * ((iterSlice d r).length - (jj + 1)) ≤ 3 + 8 * (iterSlice d r).length by
            rw [List.length_append]; omega)]
        dsimp only
        rw [List.drop_zero]
        unfold iterCandidates
        rw [he, List.append_nil, hfl, List.append_assoc]
    · rw [if_neg he]
      dsimp only
      have he0pos : 0 < (iterExtract0 d r).length := List.length_pos.mpr he
      unfold PrimeIter.toList
      rw [toListF_spec _ ⟨iterSlice d r, some (iterPre r ++ iterExtract0 d r), (0, 0),
          iterDOff d r, r.hi⟩ (iterPre r ++ iterExtract0 d r) rfl
        (show (0 : Nat) < (iterPre r ++ iterExtract0 d r).length by
          rw [List.length_append]; omega)
        (show (iterPre r ++ iterExtract0 d r).length - 0 +
            8 * ((iterSlice d r).length - (0 + 1)) ≤ 3 + 8 * (iterSlice d r).length by
          rw [List.length_append]; omega)]
      dsimp only
      rw [List.drop_zero]
      unfold iterCandidates
      rw [List.append_assoc]

theorem mem_blocksFlatten (data : List Nat) (dOff i x : Nat) :
    x ∈ blocksFlatten data dOff i ↔
      ∃ k b, i ≤ k ∧ data.get? k = some b ∧ x ∈ PrimeByte.as_primes b (dOff + k) := by
  rcases hg : data.get? i with _ | b
  · rw [blocksFlatten_none dOff hg]
    simp only [List.not_mem_nil, false_iff]
    rintro ⟨k, b, hik, hk, hx⟩
    have hlen : data.length ≤ i := List.get?_eq_none.mp hg
    rw [List.get?_eq_none.mpr (by omega)] at hk
    exact Option.noConfusion hk
  · rw [blocksFlatten_cons dOff hg, List.mem_append,
      mem_blocksFlatten data dOff (i + 1) x]
    constructor
    · rintro (hx | ⟨k, b', hik, hk, hx⟩)
      · exact ⟨i, b, Nat.le_refl i, hg, hx⟩
      · exact ⟨k, b', by omega, hk, hx⟩
    · rintro ⟨k, b', hik, hk, hx⟩
      rcases Nat.eq_or_lt_of_le hik with he | hlt
      · subst he
        have hbb : b' = b := by
          rw [hg] at hk
          exact (Option.some.inj hk).symm
        rw [hbb] at hx
        exact Or.inl hx
      · exact Or.inr ⟨k, b', by omega, hk, hx⟩
termination_by data.length - i
decreasing_by
  have hlt : i < data.length := by
    by_contra hc
    rw [List.get?_eq_none.mpr (by omega)] at hg
    exact Option.noConfusion hg
  omega

theorem mem_as_primes_bounds {b off x : Nat} (h : x ∈ PrimeByte.as_primes b off) :
    30 * off + 1 ≤ x ∧ x ≤ 30 * off + 29 := by
  obtain ⟨j, hj, _, hx⟩ := (mem_as_primes b off x).mp h
  have hl := kvs_one_le j hj
  have hu := kvs_le_29 j
  omega

theorem mem_blocksFlatten_lower {data : List Nat} {dOff i x : Nat}
    (h : x ∈ blocksFlatten data dOff i) : 30 * (dOff + i) + 1 ≤ x := by
  obtain ⟨k, b, hik, hk, hx⟩ := (mem_blocksFlatten data dOff i x).mp h
  have hb := (mem_as_primes_bounds hx).1
  have hmono : 30 * (dOff + i) ≤ 30 * (dOff + k) := by omega
  omega

theorem blocksFlatten_sorted (data : List Nat) (dOff i : Nat) :
    List.Sorted (· < ·) (blocksFlatten data dOff i) := by
  rcases hg : data.get? i with _ | b
  · rw [blocksFlatten_none dOff hg]
    exact List.sorted_nil
  · rw [blocksFlatten_cons dOff hg]
    unfold List.Sorted
    rw [List.pairwise_append]
    refine ⟨as_primes_sorted b (dOff + i), blocksFlatten_sorted data dOff (i + 1), ?_⟩
    intro x hx y hy
    have hxu := (mem_as_primes_bounds hx).2
    have hyl := mem_blocksFlatten_lower hy
    omega
termination_by data.length - i
decreasing_by
  have hlt : i < data.length := by
    by_contra hc
    rw [List.get?_eq_none.mpr (by omega)] at hg
    exact Option.noConfusion hg
  omega

theorem iterSlice_get (d : PrimeData) (r : URange) (k b : Nat)
    (h : (iterSlice d r).get? k = some b) :
    d.data.get? (div_floor r.lo 30 - d.offset + k) = some b ∧
      k < div_ceil r.hi 30 - d.offset - (div_floor r.lo 30 - d.offset) := by
  have hlt : k < (iterSlice d r).length := by
    by_contra hc
    rw [List.get?_eq_none.mpr (by omega)] at h
    exact Option.noConfusion h
  unfold iterSlice at hlt h
  rw [List.length_take, List.length_drop] at hlt
  have hkn : k < div_ceil r.hi 30 - d.offset - (div_floor r.lo 30 - d.offset) := by omega
  rw [List.get?_take hkn, List.get?_drop] at h
  exact ⟨h, hkn⟩

theorem iterSlice_get_rev (d : PrimeData) (r : URange) (k : Nat)
    (hk : k < div_ceil r.hi 30 - d.offset - (div_floor r.lo 30 - d.offset)) :
    (iterSlice d r).get? k = d.data.get? (div_floor r.lo 30 - d.offset + k) := by
  unfold iterSlice
  rw [List.get?_take hk, List.get?_drop]

theorem mem_iterCandidates (d : PrimeData) (r : URange) (x : Nat)
    (hlen : d.data.length = div_ceil d.range.hi 30 - d.range.lo / 30)
    (h1 : d.range.lo ≤ r.lo) (h2 : r.hi ≤ d.range.hi) :
    x ∈ iterCandidates d r ↔
      ((x = 2 ∨ x = 3 ∨ x = 5) ∧ r.lo ≤ x) ∨
        (isKval (x % 30) = true ∧ r.lo ≤ x ∧ x < 30 * div_ceil r.hi 30 ∧
          d.bitAt x = true) := by
  have hoff : d.offset = d.range.lo / 30 := rfl
  have hoffle : d.offset ≤ r.lo / 30 := by
    rw [hoff]
    omega
  have hdOff : iterDOff d r = r.lo / 30 := by
    unfold iterDOff div_floor
    omega
  have hceil : div_ceil r.hi 30 = (r.hi + 29) / 30 := div_ceil_30 r.hi
  have hceild : div_ceil d.range.hi 30 = (d.range.hi + 29) / 30 := div_ceil_30 d.range.hi
  unfold iterCandidates
  simp only [List.mem_append]
  rw [mem_iterPre, mem_blocksFlatten]
  constructor
  · rintro ((hpre | he0) | ⟨k, b, h1k, hk, hx⟩)
    · exact Or.inl hpre
    · right
      rcases hs0 : (iterSlice d r).get? 0 with _ | b0
      · rw [iterExtract0_none d r hs0] at he0
        exact absurd he0 (List.not_mem_nil x)
      · rw [iterExtract0_some d r b0 hs0] at he0
        obtain ⟨j, hj, hb, hlo', hhi', hx⟩ := (mem_as_primes_in_range _ _ _ _ x).mp he0
        obtain ⟨hdget, hklt⟩ := iterSlice_get d r 0 b0 hs0
        rw [hdOff] at hx hlo'
        have hkl := kvs_le_29 j
        have hk1 := kvs_one_le j hj
        have hxdiv : x / 30 = r.lo / 30 := by omega
        have hxmod : x % 30 = kvs j := by omega
        rw [hceil] at hklt
        unfold div_floor at hklt hdget
        rw [hoff] at hklt hdget
        refine ⟨by rw [hxmod]; exact isKval_kvs j hj, by omega, by rw [hceil]; omega, ?_⟩
        unfold PrimeData.bitAt
        rw [hxdiv, hxmod, hoff]
        have hgd : d.data.getD (r.lo / 30 - d.range.lo / 30) 0 = b0 := by
          rw [List.getD_eq_getElem?_getD, ← List.get?_eq_getElem?]
          rw [show r.lo / 30 - d.range.lo / 30 = r.lo / 30 - d.range.lo / 30 + 0 by omega]
          rw [hdget]
          rfl
        rw [hgd, is_prime_kvs b0 j hj]
        exact hb
    · right
      obtain ⟨hdget, hklt⟩ := iterSlice_get d r k b hk
      obtain ⟨j, hj, hb, hx⟩ := (mem_as_primes b (iterDOff d r + k) x).mp hx
      rw [hdOff] at hx
      have hkl := kvs_le_29 j
      have hk1 := kvs_one_le j hj
      have hxdiv : x / 30 = r.lo / 30 + k := by omega
      have hxmod : x % 30 = kvs j := by omega
      rw [hceil] at hklt
      unfold div_floor at hklt hdget
      rw [hoff] at hklt hdget
      refine ⟨by rw [hxmod]; exact isKval_kvs j hj, by omega, by rw [hceil]; omega, ?_⟩
      unfold PrimeData.bitAt
      rw [hxdiv, hxmod, hoff]
      have hgd : d.data.getD (r.lo / 30 + k - d.range.lo / 30) 0 = b := by
        rw [List.getD_eq_getElem?_getD, ← List.get?_eq_getElem?]
        rw [show r.lo / 30 + k - d.range.lo / 30 = r.lo / 30 - d.range.lo / 30 + k by omega]
        rw [hdget]
        rfl
      rw [show r.lo / 30 + k - d.range.lo / 30 = r.lo / 30 + k - d.range.lo / 30 from rfl] at hgd
      rw [hgd, is_prime_kvs b j hj]
      exact hb
  · rintro (⟨h235, hlox⟩ | ⟨hkv, hlox, hxlt, hbit⟩)
    · exact Or.inl (Or.inl ⟨h235, hlox⟩)
    · obtain ⟨j, hj, hkj⟩ := isKval_exists hkv
      have hkl := kvs_le_29 j
      have hk1 := kvs_one_le j hj
      have hdivle : r.lo / 30 ≤ x / 30 := by omega
      have hdivlt : x / 30 < div_ceil r.hi 30 := by
        rw [hceil]
        rw [hceil] at hxlt
        omega
      have hmono : (r.hi + 29) / 30 ≤ (d.range.hi + 29) / 30 := by omega
      have hidx : x / 30 - d.offset < d.data.length := by
        rw [hlen, hceild, hoff]
        rw [hceil] at hdivlt
        omega
      have hkbound : x / 30 - r.lo / 30 <
          div_ceil r.hi 30 - d.offset - (div_floor r.lo 30 - d.offset) := by
        unfold div_floor
        rw [hceil]
        rw [hceil] at hdivlt
        omega
      have hget : d.data.get? (x / 30 - d.offset) =
          some (d.data.getD (x / 30 - d.offset) 0) := by
        rw [List.get?_eq_getElem?, List.getElem?_eq_getElem hidx,
          List.getD_eq_getElem d.data 0 hidx]
      have hbitb : PrimeByte.bit (d.data.getD (x / 30 - d.offset) 0) (7 - j) = true := by
        unfold PrimeData.bitAt at hbit
        rw [← hkj, is_prime_kvs _ j hj] at hbit
        exact hbit
      by_cases hk0 : x / 30 = r.lo / 30
      · refine Or.inl (Or.inr ?_)
        have hs0 : (iterSlice d r).get? 0 = some (d.data.getD (x / 30 - d.offset) 0) := by
          rw [iterSlice_get_rev d r 0 (by omega)]
          rw [show div_floor r.lo 30 - d.offset + 0 = x / 30 - d.offset by
            unfold div_floor
            omega]
          exact hget
        rw [iterExtract0_some d r _ hs0]
        refine (mem_as_primes_in_range _ _ _ _ x).mpr ⟨j, hj, hbitb, ?_, ?_, ?_⟩
        · rw [hdOff]
          omega
        · rw [hdOff]
          omega
        · rw [hdOff]
          omega
      · refine Or.inr ⟨x / 30 - r.lo / 30, d.data.getD (x / 30 - d.offset) 0, by omega, ?_, ?_⟩
        · rw [iterSlice_get_rev d r _ hkbound]
          rw [show div_floor r.lo 30 - d.offset + (x / 30 - r.lo / 30) = x / 30 - d.offset by
            unfold div_floor
            omega]
          exact hget
        · refine (mem_as_primes _ _ x).mpr ⟨j, hj, hbitb, ?_⟩
          rw [hdOff]
          omega

theorem kvs_one_or_ge7 : ∀ j < 8, kvs j = 1 ∨ 7 ≤ kvs j := by decide

theorem mem_iterExtract0_form {d : PrimeData} {r : URange} {y : Nat}
    (h : y ∈ iterExtract0 d r) :
    ∃ j, j < 8 ∧ y = 30 * iterDOff d r + kvs j ∧ r.lo ≤ y := by
  rcases hs0 : (iterSlice d r).get? 0 with _ | b0
  · rw [iterExtract0_none d r hs0] at h
    exact absurd h (List.not_mem_nil y)
  · rw [iterExtract0_some d r b0 hs0] at h
    obtain ⟨j, hj, _, hlo', _, hx⟩ := (mem_as_primes_in_range _ _ _ _ y).mp h
    exact ⟨j, hj, hx, by omega⟩

theorem iterExtract0_sorted (d : PrimeData) (r : URange) :
    List.Sorted (· < ·) (iterExtract0 d r) := by
  rcases hs0 : (iterSlice d r).get? 0 with _ | b0
  · rw [iterExtract0_none d r hs0]
    exact List.sorted_nil
  · rw [iterExtract0_some d r b0 hs0]
    exact as_primes_in_range_sorted _ _ _ _

theorem iterExtract0_no_one (d : PrimeData) (r : URange) (hs : Sound d)
    (h1 : d.range.lo ≤ r.lo) (h2 : r.hi ≤ d.range.hi) :
    1 ∉ iterExtract0 d r := by
  intro hmem
  obtain ⟨hlen, hbytes, hin, hpad⟩ := hs
  have hc : 1 ∈ iterCandidates d r := by
    unfold iterCandidates
    rw [List.mem_append, List.mem_append]
    exact Or.inl (Or.inr hmem)
  rcases (mem_iterCandidates d r 1 hlen h1 h2).mp hc with ⟨h235, _⟩ | ⟨_, hlo1, hlt, hbit⟩
  · rcases h235 with h | h | h <;> omega
  · have hhi1 : 1 ≤ r.hi := by
      rw [div_ceil_30] at hlt
      omega
    have hb := hin 1 (by omega) (by omega) (by decide)
    rw [hbit] at hb
    have hp1 : Nat.Prime 1 := of_decide_eq_true hb.symm
    exact Nat.not_prime_one hp1

theorem iterCandidates_sorted (d : PrimeData) (r : URange) (hs : Sound d)
    (h1 : d.range.lo ≤ r.lo) (h2 : r.hi ≤ d.range.hi) :
    List.Sorted (· < ·) (iterCandidates d r) := by
  have hno1 := iterExtract0_no_one d r hs h1 h2
  have hcross : ∀ x, x ∈ iterPre r → ∀ y, y ∈ iterExtract0 d r → x < y := by
    intro x hx y hy0
    have hx235 := (mem_iterPre r x).mp hx
    have hx5 : x ≤ 5 := by
      rcases hx235.1 with h | h | h <;> omega
    obtain ⟨j, hj, hye, _⟩ := mem_iterExtract0_form hy0
    have hne1 : y ≠ 1 := by
      intro hy1
      rw [hy1] at hy0
      exact hno1 hy0
    rcases kvs_one_or_ge7 j hj with hk1 | hk7
    · rcases Nat.eq_zero_or_pos (iterDOff d r) with h0 | hpos
      · rw [h0, hk1] at hye
        omega
      · omega
    · omega
  unfold iterCandidates
  unfold List.Sorted
  rw [List.pairwise_append]
  refine ⟨?_, blocksFlatten_sorted _ _ _, ?_⟩
  · rw [List.pairwise_append]
    refine ⟨?_, iterExtract0_sorted d r, hcross⟩
    unfold iterPre
    exact List.Pairwise.filter _ (by decide)
  · intro x hx y hy
    have hyl := mem_blocksFlatten_lower hy
    rcases List.mem_append.mp hx with hxp | hx0
    · have hx235 := (mem_iterPre r x).mp hxp
      have hx5 : x ≤ 5 := by
        rcases hx235.1 with h | h | h <;> omega
      omega
    · obtain ⟨j, hj, hxe, _⟩ := mem_iterExtract0_form hx0
      have hkl := kvs_le_29 j
      omega

theorem iterExtract0_seven (d : PrimeData) (r : URange) (hs : Sound d)
    (h1 : d.range.lo ≤ r.lo) (h2 : r.hi ≤ d.range.hi)
    (hlo : r.lo ≤ 5) (hne : iterSlice d r ≠ []) : iterExtract0 d r ≠ [] := by
  obtain ⟨hlen, hbytes, hin, hpad⟩ := hs
  have hoff : d.offset = d.range.lo / 30 := rfl
  have hoff0 : d.offset = 0 := by
    rw [hoff]
    omega
  have hdOff : iterDOff d r = 0 := by
    unfold iterDOff div_floor
    omega
  rcases hs0 : (iterSlice d r).get? 0 with _ | b0
  · have hl := List.get?_eq_none.mp hs0
    have : iterSlice d r = [] := List.eq_nil_of_length_eq_zero (by omega)
    exact absurd this hne
  · obtain ⟨hdget, _⟩ := iterSlice_get d r 0 b0 hs0
    unfold div_floor at hdget
    rw [hoff0] at hdget
    simp only [Nat.sub_zero, Nat.add_zero] at hdget
    rw [show r.lo / 30 = 0 by omega] at hdget
    have hdatapos : 0 < d.data.length := by
      by_contra hc
      rw [List.get?_eq_none.mpr (by omega)] at hdget
      exact Option.noConfusion hdget
    have hgd : d.data.getD 0 0 = b0 := by
      rw [List.getD_eq_getElem?_getD, ← List.get?_eq_getElem?, hdget]
      rfl
    have hbit7 : d.bitAt 7 = true := by
      unfold PrimeData.bitAt
      rw [show (7 : Nat) / 30 = 0 from rfl, show (7 : Nat) % 30 = 7 from rfl, hoff0]
      simp only [Nat.sub_zero]
      by_cases hd7 : 7 ≤ d.range.hi
      · have := hin 7 (by omega) hd7 (by decide)
        unfold PrimeData.bitAt at this
        rw [show (7 : Nat) / 30 = 0 from rfl, show (7 : Nat) % 30 = 7 from rfl, hoff0] at this
        simp only [Nat.sub_zero] at this
        rw [this]
        decide
      · have := hpad 7 (by decide) (by omega) (by omega)
          (by rw [show (7 : Nat) / 30 = 0 from rfl]; omega)
        unfold PrimeData.bitAt at this
        rw [show (7 : Nat) / 30 = 0 from rfl, show (7 : Nat) % 30 = 7 from rfl, hoff0] at this
        simp only [Nat.sub_zero] at this
        exact this
    have hmem : 7 ∈ iterExtract0 d r := by
      rw [iterExtract0_some d r b0 hs0]
      refine (mem_as_primes_in_range _ _ _ _ 7).mpr ⟨1, by omega, ?_, ?_, ?_, ?_⟩
      · unfold PrimeData.bitAt at hbit7
        rw [show (7 : Nat) / 30 = 0 from rfl, show (7 : Nat) % 30 = 7 from rfl, hoff0] at hbit7
        simp only [Nat.sub_zero] at hbit7
        rw [hgd] at hbit7
        have h7 : (7 : Nat) = kvs 1 := rfl
        rw [h7, is_prime_kvs b0 1 (by omega)] at hbit7
        exact hbit7
      · rw [hdOff]
        have hk1 : kvs 1 = 7 := rfl
        omega
      · rw [hdOff]
        have hk1 : kvs 1 = 7 := rfl
        omega
      · rw [hdOff]
        have hk1 : kvs 1 = 7 := rfl
        omega
    exact List.ne_nil_of_mem hmem

theorem takeWhile_eq_filter_of_sorted {l : List Nat} {hi : Nat}
    (hsort : List.Sorted (· < ·) l) :
    l.takeWhile (fun y => decide (y ≤ hi)) = l.filter (fun y => decide (y ≤ hi)) := by
  induction l with
  | nil => rfl
  | cons a as ih =>
    rw [List.sorted_cons] at hsort
    obtain ⟨ha, htail⟩ := hsort
    by_cases h : a ≤ hi
    · have hd : decide (a ≤ hi) = true := decide_eq_true h
      rw [List.takeWhile_cons, List.filter_cons, hd]
      simp only [if_true]
      rw [ih htail]
    · have hd : decide (a ≤ hi) = false := decide_eq_false h
      have hnil : as.filter (fun y => decide (y ≤ hi)) = [] := by
        rw [List.filter_eq_nil_iff]
        intro y hy
        have hay := ha y hy
        simp only [decide_eq_true_eq]
        omega
      rw [List.takeWhile_cons, List.filter_cons, hd, hnil]
      rfl

theorem mem_primesBetween (lo hi x : Nat) :
    x ∈ primesBetween lo hi ↔ lo ≤ x ∧ x ≤ hi ∧ Nat.Prime x := by
  unfold primesBetween
  simp only [List.mem_filter, List.mem_range, Bool.and_eq_true, decide_eq_true_eq]
  constructor
  · rintro ⟨hr, hlo, hp⟩
    exact ⟨hlo, by omega, hp⟩
  · rintro ⟨hlo, hhi, hp⟩
    exact ⟨by omega, hlo, hp⟩

theorem primesBetween_sorted (lo hi : Nat) :
    List.Sorted (· < ·) (primesBetween lo hi) := by
  unfold primesBetween
  unfold List.Sorted
  exact List.Pairwise.filter _ (List.pairwise_lt_range _)

theorem prime_coprime_30 {x : Nat} (hp : Nat.Prime x) (h235 : ¬(x = 2 ∨ x = 3 ∨ x = 5)) :
    Nat.Coprime 30 x := by
  rw [Nat.coprime_comm]
  rw [Nat.Prime.coprime_iff_not_dvd hp]
  intro hdvd
  have hle : x ≤ 30 := Nat.le_of_dvd (by omega) hdvd
  have hdec : ∀ y, y ≤ 30 → y ∣ 30 → Nat.Prime y → (y = 2 ∨ y = 3 ∨ y = 5) := by decide
  exact h235 (hdec x hle hdvd hp)

theorem sorted_lt_eq_of_mem_iff : ∀ {l1 l2 : List Nat},
    List.Sorted (· < ·) l1 → List.Sorted (· < ·) l2 →
    (∀ x, x ∈ l1 ↔ x ∈ l2) → l1 = l2 := by
  intro l1
  induction l1 with
  | nil =>
    intro l2 _ _ hmem
    cases l2 with
    | nil => rfl
    | cons b bs => exact absurd ((hmem b).mpr (by simp)) (List.not_mem_nil b)
  | cons a as ih =>
    intro l2 hs1 hs2 hmem
    cases l2 with
    | nil => exact absurd ((hmem a).mp (by simp)) (List.not_mem_nil a)
    | cons b bs =>
      rw [List.sorted_cons] at hs1 hs2
      obtain ⟨ha, hs1'⟩ := hs1
      obtain ⟨hb, hs2'⟩ := hs2
      have hab : a = b := by
        have hm1 := (hmem a).mp (List.mem_cons_self a as)
        have hm2 := (hmem b).mpr (List.mem_cons_self b bs)
        rcases List.mem_cons.mp hm1 with he | hmem1
        · exact he
        · rcases List.mem_cons.mp hm2 with he2 | hmem2
          · exact he2.symm
          · have hc1 := ha b hmem2
            have hc2 := hb a hmem1
            omega
      subst hab
      congr 1
      apply ih hs1' hs2'
      intro x
      constructor
      · intro hx
        have hax := ha x hx
        rcases List.mem_cons.mp ((hmem x).mp (List.mem_cons_of_mem a hx)) with he | h
        · omega
        · exact h
      · intro hx
        have hbx := hb x hx
        rcases List.mem_cons.mp ((hmem x).mpr (List.mem_cons_of_mem a hx)) with he | h
        · omega
        · exact h

theorem iterList_adequate (d : PrimeData) (r : URange) (hs : Sound d)
    (h1 : d.range.lo ≤ r.lo) (h2 : r.hi ≤ d.range.hi) :
    d.iterList r = primesBetween r.lo r.hi := by
  have hsrt := iterCandidates_sorted d r hs h1 h2
  obtain ⟨hlen, hbytes, hin, hpad⟩ := hs
  rw [iterList_eq_takeWhile d r h1 h2 hlen
    (fun hlo hne => iterExtract0_seven d r ⟨hlen, hbytes, hin, hpad⟩ h1 h2 hlo hne)]
  rw [takeWhile_eq_filter_of_sorted hsrt]
  apply sorted_lt_eq_of_mem_iff (List.Pairwise.filter _ hsrt) (primesBetween_sorted r.lo r.hi)
  intro x
  rw [List.mem_filter, mem_iterCandidates d r x hlen h1 h2, mem_primesBetween]
  constructor
  · rintro ⟨hc, hxle⟩
    simp only [decide_eq_true_eq] at hxle
    rcases hc with ⟨h235, hlo⟩ | ⟨hkv, hlo, _, hbit⟩
    · refine ⟨hlo, hxle, ?_⟩
      rcases h235 with h | h | h <;> subst h <;> norm_num
    · have hb := hin x (by omega) (by omega) hkv
      rw [hbit] at hb
      exact ⟨hlo, hxle, of_decide_eq_true hb.symm⟩
  · rintro ⟨hlo, hhi, hp⟩
    refine ⟨?_, by simp only [decide_eq_true_eq]; exact hhi⟩
    by_cases h235 : x = 2 ∨ x = 3 ∨ x = 5
    · exact Or.inl ⟨h235, hlo⟩
    · have hco := prime_coprime_30 hp h235
      have hkv : isKval (x % 30) = true := by
        rw [isKval_mod30]
        exact decide_eq_true hco
      have hx30 : x % 30 ≠ 0 := by
        obtain ⟨j, hj, hkj⟩ := isKval_exists hkv
        have hk1 := kvs_one_le j hj
        omega
      have hxlt : x < 30 * div_ceil r.hi 30 := by
        rw [div_ceil_30]
        omega
      refine Or.inr ⟨hkv, hlo, hxlt, ?_⟩
      rw [hin x (by omega) (by omega) hkv]
      exact decide_eq_true hp

theorem contains_range_ok_inv {s o : URange} {u : Unit}
    (h : URange.contains_range s o = .ok u) : s.lo ≤ o.lo ∧ o.hi ≤ s.hi := by
  unfold URange.contains_range at h
  split at h
  · exact absurd h (by simp)
  · split at h
    · exact absurd h (by simp)
    · rename_i h1 h2
      omega

theorem foldl_set_range (l : List Nat) (d : PrimeData) :
    (l.foldl (fun acc np => acc.set_nonprimeD np) d).range = d.range := by
  induction l generalizing d with
  | nil => rfl
  | cons a t ih =>
    simp only [List.foldl_cons]
    rw [ih, pd_set_nonprimeD_range]

theorem foldl_set_length (l : List Nat) (d : PrimeData) :
    (l.foldl (fun acc np => acc.set_nonprimeD np) d).data.length = d.data.length := by
  induction l generalizing d with
  | nil => rfl
  | cons a t ih =>
    simp only [List.foldl_cons]
    rw [ih, pd_set_nonprimeD_length]

theorem foldl_set_bytes (l : List Nat) (d : PrimeData) (hb : ∀ b ∈ d.data, b < 256) :
    ∀ b ∈ (l.foldl (fun acc np => acc.set_nonprimeD np) d).data, b < 256 := by
  induction l generalizing d with
  | nil => exact hb
  | cons a t ih =>
    simp only [List.foldl_cons]
    exact ih _ (pd_set_nonprimeD_bytes d a hb)

theorem foldl_nested_flat (ps : List Nat) (g : Nat → List Nat) (d : PrimeData) :
    ps.foldl (fun acc p => (g p).foldl
        (fun acc2 m => acc2.set_nonprimeD (p * m)) acc) d =
      (ps.flatMap (fun p => (g p).map (fun m => p * m))).foldl
        (fun acc np => acc.set_nonprimeD np) d := by
  induction ps generalizing d with
  | nil => rfl
  | cons p ps ih =>
    rw [List.foldl_cons, List.flatMap_cons, List.foldl_append, List.foldl_map]
    exact ih _


theorem try_expand_ok_sound (d : PrimeData) (r : URange) (hs : Sound d)
    (hr : r.lo ≤ r.hi) (d' : PrimeData)
    (h : d.try_expand r = .ok d') : Sound d' ∧ d'.range = r := by
  obtain ⟨hlen, hbytes, hin, hpad⟩ := hs
  unfold PrimeData.try_expand at h
  dsimp only at h
  split at h
  · exact Except.noConfusion h
  · rename_i u hcr
    obtain ⟨hd7, hdq⟩ := contains_range_ok_inv hcr
    split at h
    · rename_i hemp
      unfold PrimeData.is_empty at hemp
      rw [create_empty_range] at hemp
      simp only [decide_eq_true_eq] at hemp
      omega
    · have hok := Except.ok.inj h
      rw [iterList_adequate d ⟨7, Nat.sqrt r.hi⟩ ⟨hlen, hbytes, hin, hpad⟩ hd7 hdq] at hok
      rw [foldl_nested_flat (primesBetween 7 (Nat.sqrt r.hi))
        (fun p => (CoprimeIter.new ⟨max (div_ceil r.lo p) 7, div_floor r.hi p⟩).toList)
        (PrimeData.create_empty r)] at hok
      subst hok
      have hmem : ∀ x : Nat,
          x ∈ (primesBetween 7 (Nat.sqrt r.hi)).flatMap
            (fun p => ((CoprimeIter.new ⟨max (div_ceil r.lo p) 7,
              div_floor r.hi p⟩).toList).map (fun m => p * m)) ↔
          ∃ p m, Nat.Prime p ∧ 7 ≤ p ∧ p ≤ Nat.sqrt r.hi ∧ isKval (m % 30) = true ∧
            div_ceil r.lo p ≤ m ∧ 7 ≤ m ∧ m ≤ div_floor r.hi p ∧ x = p * m := by
        intro x
        simp only [List.mem_flatMap, List.mem_map, mem_primesBetween,
          coprime_new_toList_mem]
        constructor
        · rintro ⟨p, ⟨h7p, hpq, hpp⟩, m, ⟨hmk, hml, hmu⟩, hx⟩
          exact ⟨p, m, hpp, h7p, hpq, hmk, by omega, by omega, hmu, hx.symm⟩
        · rintro ⟨p, m, hpp, h7p, hpq, hmk, hmc, hm7, hmu, hx⟩
          exact ⟨p, ⟨h7p, hpq, hpp⟩, m, ⟨hmk, by omega, hmu⟩, hx.symm⟩
      have hall : ∀ np ∈ (primesBetween 7 (Nat.sqrt r.hi)).flatMap
          (fun p => ((CoprimeIter.new ⟨max (div_ceil r.lo p) 7,
            div_floor r.hi p⟩).toList).map (fun m => p * m)),
          isKval (np % 30) = true ∧ r.lo ≤ np ∧ np ≤ r.hi := by
        intro np hnp
        obtain ⟨p, m, hpp, h7p, hpq, hmk, hmc, hm7, hmu, hx⟩ := (hmem np).mp hnp
        have hp0 : 0 < p := by omega
        have hlo2 : r.lo ≤ p * m := (div_ceil_le_iff hp0 r.lo m).mp hmc
        have hhi2 : p * m ≤ r.hi := (le_div_floor_iff hp0 m r.hi).mp hmu
        have hcop : Nat.Coprime 30 p := prime_coprime_30 hpp (by omega)
        have hcom : Nat.Coprime 30 m := by
          rw [isKval_mod30] at hmk
          exact of_decide_eq_true hmk
        have hcpm : Nat.Coprime 30 (p * m) := Nat.Coprime.mul_right hcop hcom
        subst hx
        refine ⟨?_, hlo2, hhi2⟩
        rw [isKval_mod30]
        exact decide_eq_true hcpm
      have hbit : ∀ x, isKval (x % 30) = true → r.lo / 30 ≤ x / 30 →
          (((primesBetween 7 (Nat.sqrt r.hi)).flatMap
            (fun p => ((CoprimeIter.new ⟨max (div_ceil r.lo p) 7,
              div_floor r.hi p⟩).toList).map (fun m => p * m))).foldl
            (fun acc np => acc.set_nonprimeD np) (PrimeData.create_empty r)).bitAt x =
          (decide (x ∉ (primesBetween 7 (Nat.sqrt r.hi)).flatMap
            (fun p => ((CoprimeIter.new ⟨max (div_ceil r.lo p) 7,
              div_floor r.hi p⟩).toList).map (fun m => p * m))) &&
            (PrimeData.create_empty r).bitAt x) := by
        intro x hk hxlo
        exact bitAt_foldl_set_nonprimeD _ (PrimeData.create_empty r) x
          (by
            intro np hnp
            rw [create_empty_range]
            exact hall np hnp)
          (by rw [create_empty_range, create_empty_length])
          hk (by rw [create_empty_range]; exact hxlo)
          (create_empty_bytes r)
      refine ⟨⟨?_, ?_, ?_, ?_⟩, ?_⟩
      · rw [foldl_set_range, create_empty_range, foldl_set_length, create_empty_length]
      · exact foldl_set_bytes _ _ (create_empty_bytes r)
      · rw [foldl_set_range, create_empty_range]
        intro x hxlo hxhi hxk
        have hx30 : x % 30 ≠ 0 := by
          obtain ⟨j, hj, hkj⟩ := isKval_exists hxk
          have := kvs_one_le j hj
          omega
        rw [hbit x hxk (by omega)]
        rw [create_empty_bitAt r x hxk (by omega) (by rw [div_ceil_30]; omega)]
        by_cases hpx : Nat.Prime x
        · have hx2 := hpx.two_le
          have hnotin : x ∉ (primesBetween 7 (Nat.sqrt r.hi)).flatMap
              (fun p => ((CoprimeIter.new ⟨max (div_ceil r.lo p) 7,
                div_floor r.hi p⟩).toList).map (fun m => p * m)) := by
            intro hmemF
            obtain ⟨p, m, hpp, h7p, hpq, hmk, hmc, hm7, hmu, hx⟩ := (hmem x).mp hmemF
            rcases hpx.eq_one_or_self_of_dvd p ⟨m, hx⟩ with h1 | hself
            · omega
            · rw [hself] at hx
              have hm1 : m = 1 :=
                Nat.eq_of_mul_eq_mul_left (show 0 < x by omega)
                  (show x * m = x * 1 by rw [Nat.mul_one]; exact hx.symm)
              omega
          rw [decide_eq_true hnotin, decide_eq_true (show x ≠ 1 by omega),
            decide_eq_true hpx]
          rfl
        · rw [decide_eq_false hpx]
          by_cases hx1 : x = 1
          · rw [decide_eq_false (show ¬ x ≠ 1 by omega)]
            rw [Bool.and_false]
          · have hco : Nat.Coprime 30 x := by
              rw [isKval_mod30] at hxk
              exact of_decide_eq_true hxk
            have hx7 : 7 ≤ x := by
              obtain ⟨j, hj, hkj⟩ := isKval_exists hxk
              rcases kvs_one_or_ge7 j hj with hk1 | hk7
              · omega
              · omega
            have hp := Nat.minFac_prime hx1
            have hpd := Nat.minFac_dvd x
            have hp2 : 2 ≤ x.minFac := hp.two_le
            have hp30 : ¬ x.minFac ∣ 30 := by
              intro hd
              have hg : x.minFac ∣ Nat.gcd 30 x := Nat.dvd_gcd hd hpd
              have hg1 : x.minFac ∣ 1 := hco ▸ hg
              have := Nat.dvd_one.mp hg1
              omega
            have hp7 : 7 ≤ x.minFac := by
              by_contra hc
              have hcases : x.minFac = 2 ∨ x.minFac = 3 ∨ x.minFac = 4 ∨
                  x.minFac = 5 ∨ x.minFac = 6 := by omega
              rcases hcases with he | he | he | he | he
              · exact hp30 (by rw [he]; decide)
              · exact hp30 (by rw [he]; decide)
              · rw [he] at hp
                exact absurd hp (by decide)
              · exact hp30 (by rw [he]; decide)
              · rw [he] at hp
                exact absurd hp (by decide)
            have hsq : x.minFac * x.minFac ≤ x := by
              have hq := Nat.minFac_sq_le_self (by omega) hpx
              rwa [Nat.pow_two] at hq
            have hpq : x.minFac ≤ Nat.sqrt r.hi :=
              Nat.le_sqrt.mpr (Nat.le_trans hsq (by omega))
            have hxm : x = x.minFac * (x / x.minFac) :=
              (Nat.mul_div_cancel' hpd).symm
            have hm0 : x / x.minFac ≠ 0 := by
              intro h0
              rw [h0, Nat.mul_zero] at hxm
              omega
            have hmne1 : x / x.minFac ≠ 1 := by
              intro h1
              rw [h1, Nat.mul_one] at hxm
              rw [← hxm] at hp
              exact hpx hp
            have hmdvd : x / x.minFac ∣ x := ⟨x.minFac, by rw [Nat.mul_comm]; exact hxm⟩
            have hmf2 : 2 ≤ (x / x.minFac).minFac := (Nat.minFac_prime hmne1).two_le
            have hmfd : (x / x.minFac).minFac ∣ x :=
              dvd_trans (Nat.minFac_dvd (x / x.minFac)) hmdvd
            have hple : x.minFac ≤ (x / x.minFac).minFac :=
              Nat.minFac_le_of_dvd hmf2 hmfd
            have hmpos : 0 < x / x.minFac :=
              Nat.div_pos (Nat.minFac_le (show 0 < x by omega)) (show 0 < x.minFac by omega)
            have hmfm : (x / x.minFac).minFac ≤ x / x.minFac := Nat.minFac_le hmpos
            have hm7 : 7 ≤ x / x.minFac := Nat.le_trans hp7 (Nat.le_trans hple hmfm)
            have hcom : Nat.Coprime 30 (x / x.minFac) := by
              have hcc := hco
              rw [hxm] at hcc
              exact (Nat.coprime_mul_iff_right.mp hcc).2
            have hmemF : x ∈ (primesBetween 7 (Nat.sqrt r.hi)).flatMap
                (fun p => ((CoprimeIter.new ⟨max (div_ceil r.lo p) 7,
                  div_floor r.hi p⟩).toList).map (fun m => p * m)) := by
              refine (hmem x).mpr ⟨x.minFac, x / x.minFac, hp, hp7, hpq, ?_, ?_, hm7, ?_, hxm⟩
              · rw [isKval_mod30]
                exact decide_eq_true hcom
              · exact (div_ceil_le_iff (by omega) r.lo (x / x.minFac)).mpr
                  (by rw [← hxm]; exact hxlo)
              · exact (le_div_floor_iff (by omega) (x / x.minFac) r.hi).mpr
                  (by rw [← hxm]; exact hxhi)
            rw [decide_eq_false (show ¬ x ∉ (primesBetween 7 (Nat.sqrt r.hi)).flatMap
                (fun p => ((CoprimeIter.new ⟨max (div_ceil r.lo p) 7,
                  div_floor r.hi p⟩).toList).map (fun m => p * m)) from
              fun hn => hn hmemF)]
            rfl
      · rw [foldl_set_range, create_empty_range, foldl_set_length, create_empty_length]
        intro x hxk hx1 hxhi hxidx
        rw [hbit x hxk (by omega)]
        have hnotin : x ∉ (primesBetween 7 (Nat.sqrt r.hi)).flatMap
            (fun p => ((CoprimeIter.new ⟨max (div_ceil r.lo p) 7,
              div_floor r.hi p⟩).toList).map (fun m => p * m)) := by
          intro hmemF
          have := (hall x hmemF).2.2
          omega
        rw [decide_eq_true hnotin]
        rw [create_empty_bitAt r x hxk (by omega)
          (by rw [div_ceil_30]; rw [div_ceil_30] at hxidx; omega)]
        rw [decide_eq_true hx1]
        rfl
      · rw [foldl_set_range, create_empty_range]

theorem expandD_sound (d : PrimeData) (r : URange) (hs : Sound d) (hr : r.lo ≤ r.hi)
    (h7 : d.range.lo ≤ 7) (hq : Nat.sqrt r.hi ≤ d.range.hi) :
    Sound (d.expandD r) ∧ (d.expandD r).range = r := by
  have hok : ∃ d2, d.try_expand r = .ok d2 := by
    unfold PrimeData.try_expand
    dsimp only
    rw [contains_range_ok _ _ h7 hq]
    dsimp only
    split
    · exact ⟨_, rfl⟩
    · exact ⟨_, rfl⟩
  obtain ⟨d2, hd2⟩ := hok
  unfold PrimeData.expandD
  rw [hd2]
  exact try_expand_ok_sound d r hs hr d2 hd2

theorem generate_sound (r : URange) (hr : r.lo ≤ r.hi) :
    Sound (PrimeData.generate r) ∧ (PrimeData.generate r).range = r := by
  unfold PrimeData.generate
  split
  · rename_i h900
    have h30 : Nat.sqrt 900 = 30 := by
      rw [show (900 : Nat) = 30 * 30 by norm_num]
      exact Nat.sqrt_eq' 30
    have hmono : Nat.sqrt r.hi ≤ Nat.sqrt 900 := Nat.sqrt_le_sqrt h900
    exact expandD_sound PrimeData.new ⟨r.lo, r.hi⟩ sound_new hr (by decide)
      (show Nat.sqrt r.hi ≤ 30 by omega)
  · rename_i h900
    dsimp only
    have hrec := generate_sound ⟨0, Nat.sqrt r.hi⟩ (Nat.zero_le _)
    refine expandD_sound _ ⟨r.lo, r.hi⟩ hrec.1 hr ?_ ?_
    · rw [hrec.2]
      exact Nat.zero_le 7
    · rw [hrec.2]
termination_by r.hi
decreasing_by
  exact Nat.sqrt_lt_self (by omega)

theorem data_index_some_nondiv (d : PrimeData) (x : Nat)
    (hlen : d.data.length = div_ceil d.range.hi 30 - d.range.lo / 30)
    (hlo : d.range.lo ≤ x) (hhi : x ≤ d.range.hi) (hnd : x % 30 ≠ 0) :
    d.data_index_that_contains x = some (x / 30 - d.offset) ∧
      x / 30 - d.offset < d.data.length := by
  have hoff : d.offset = d.range.lo / 30 := rfl
  have hcn : d.range.containsN x = true := by
    unfold URange.containsN
    simp only [Bool.and_eq_true, decide_eq_true_eq]
    omega
  have hne : d.is_empty = false := by
    unfold PrimeData.is_empty
    simp only [decide_eq_false_iff_not]
    omega
  have hidx : x / 30 - d.offset < d.data.length := by
    rw [hlen, div_ceil_30, hoff]
    omega
  unfold PrimeData.data_index_that_contains
  rw [if_neg (show ¬ d.is_empty = true by rw [hne]; exact Bool.false_ne_true)]
  rw [if_pos hcn]
  dsimp only
  rw [if_neg (by omega)]
  exact ⟨rfl, hidx⟩

theorem try_is_prime_sound (d : PrimeData) (x : Nat) (hs : Sound d)
    (hlo : d.range.lo ≤ x) (hhi : x ≤ d.range.hi) :
    d.try_is_prime x = .ok (decide (Nat.Prime x)) := by
  obtain ⟨hlen, hbytes, hin, hpad⟩ := hs
  have hcn : d.range.containsN x = true := by
    unfold URange.containsN
    simp only [Bool.and_eq_true, decide_eq_true_eq]
    omega
  have hne : d.is_empty = false := by
    unfold PrimeData.is_empty
    simp only [decide_eq_false_iff_not]
    omega
  unfold PrimeData.try_is_prime
  rw [if_pos (show (d.range.containsN x && !d.is_empty) = true by rw [hcn, hne]; rfl)]
  by_cases h235 : x = 2 ∨ x = 3 ∨ x = 5
  · rw [if_pos h235]
    rcases h235 with h | h | h <;> subst h <;>
      rw [decide_eq_true (by norm_num : Nat.Prime _)]
  · rw [if_neg h235]
    by_cases hdiv : x % 30 = 0
    · rw [divisible_by_30]
      rw [if_pos (decide_eq_true hdiv)]
      have hnp : ¬ Nat.Prime x := by
        intro hpx
        have h2d : (2 : Nat) ∣ x := dvd_trans (by decide) (Nat.dvd_of_mod_eq_zero hdiv)
        rcases Nat.Prime.eq_one_or_self_of_dvd hpx 2 h2d with h | h
        · omega
        · omega
      rw [decide_eq_false hnp]
    · rw [divisible_by_30]
      rw [if_neg (show ¬ decide (x % 30 = 0) = true by simp [hdiv])]
      obtain ⟨hsome, hidx⟩ := data_index_some_nondiv d x hlen hlo hhi hdiv
      rw [hsome]
      dsimp only
      by_cases hkv : isKval (x % 30) = true
      · have hb := hin x hlo hhi hkv
        unfold PrimeData.bitAt at hb
        rw [hb]
      · have hkv' : isKval (x % 30) = false := by
          cases hx : isKval (x % 30) with
          | false => rfl
          | true => exact absurd hx hkv
        rw [is_prime_not_kval hkv']
        have hnp : ¬ Nat.Prime x := by
          intro hpx
          have hcc := prime_coprime_30 hpx h235
          rw [isKval_mod30, decide_eq_true hcc] at hkv'
          exact Bool.noConfusion hkv'
        rw [decide_eq_false hnp]

theorem is_primeD_sound (d : PrimeData) (x : Nat) (hs : Sound d)
    (hlo : d.range.lo ≤ x) (hhi : x ≤ d.range.hi) :
    d.is_primeD x = decide (Nat.Prime x) := by
  unfold PrimeData.is_primeD
  rw [try_is_prime_sound d x hs hlo hhi]

theorem trialDivision_eq_prime (x : Nat) :
    trialDivisionPrime x = decide (Nat.Prime x) := by
  unfold trialDivisionPrime trialDivisionNoDivisor
  by_cases h2 : 2 ≤ x
  · by_cases hpx : Nat.Prime x
    · rw [decide_eq_true hpx, decide_eq_true h2]
      rw [decide_eq_true (show ∀ d, d ≤ Nat.sqrt x → 2 ≤ d → ¬ d ∣ x by
        intro m hms hm2 hdvd
        have := (Nat.prime_def_le_sqrt.mp hpx).2 m hm2 hms
        exact this hdvd)]
      rfl
    · rw [decide_eq_false hpx]
      have hnd : ¬ ∀ d, d ≤ Nat.sqrt x → 2 ≤ d → ¬ d ∣ x := by
        intro hall
        exact hpx (Nat.prime_def_le_sqrt.mpr ⟨h2, fun m hm2 hms => hall m hms hm2⟩)
      rw [decide_eq_false hnd]
      rw [Bool.and_false]
  · rw [decide_eq_false h2, Bool.false_and]
    have hnp : ¬ Nat.Prime x := by
      intro hpx
      have := hpx.two_le
      omega
    rw [decide_eq_false hnp]

theorem countBits_split (d : PrimeData) (s m e : Nat) (h1 : s ≤ m + 1) (h2 : m ≤ e) :
    countBits d s m + countBits d (m + 1) e = countBits d s e := by
  unfold countBits
  have hr : List.range' s (m + 1 - s) ++ List.range' (m + 1) (e + 1 - (m + 1)) =
      List.range' s (e + 1 - s) := by
    have h := List.range'_append_1 s (m + 1 - s) (e + 1 - (m + 1))
    rw [show s + (m + 1 - s) = m + 1 by omega] at h
    rw [show e + 1 - (m + 1) + (m + 1 - s) = e + 1 - s by omega] at h
    exact h
  rw [← hr, List.filter_append, List.length_append]

theorem countBits_top_nonkval (d : PrimeData) (s e : Nat) (hse : s ≤ e) (h1 : 1 ≤ e)
    (hk : isKval (e % 30) = false) : countBits d s e = countBits d s (e - 1) := by
  unfold countBits
  have hr : List.range' s (e - 1 + 1 - s) ++ List.range' e 1 = List.range' s (e + 1 - s) := by
    have h := List.range'_append_1 s (e - 1 + 1 - s) 1
    rw [show s + (e - 1 + 1 - s) = e by omega] at h
    rw [show 1 + (e - 1 + 1 - s) = e + 1 - s by omega] at h
    exact h
  rw [← hr, List.filter_append, List.length_append]
  rw [List.range'_one]
  rw [show ([e] : List Nat).filter (fun x => isKval (x % 30) && d.bitAt x) = [] by
    simp [hk]]
  rfl

theorem count_in_range_cap (b l : Nat) :
    PrimeByte.count_primes_in_range b l 30 = PrimeByte.count_primes_in_range b l 29 := by
  unfold PrimeByte.count_primes_in_range
  apply congrArg List.length
  apply List.filter_congr
  intro j _
  have h29 := kvs_le_29 j
  rw [decide_eq_true (show kvs j ≤ 30 by omega), decide_eq_true (show kvs j ≤ 29 by omega)]

theorem count_primes_eq_full (b : Nat) :
    PrimeByte.count_primes b = PrimeByte.count_primes_in_range b 0 30 := by
  unfold PrimeByte.count_primes PrimeByte.count_primes_in_range
  apply congrArg List.length
  apply List.filter_congr
  intro j _
  rw [decide_eq_true (Nat.zero_le (kvs j)), decide_eq_true (show kvs j ≤ 30 by
    have h29 := kvs_le_29 j
    omega)]
  rw [Bool.and_true, Bool.and_true]

theorem count_byte_window (d : PrimeData) (B l h : Nat) (hl : l ≤ 30) (hh : h ≤ 30) :
    PrimeByte.count_primes_in_range (d.data.getD (B - d.offset) 0) l h =
      countBits d (30 * B + l) (30 * B + h) := by
  have hlen : PrimeByte.count_primes_in_range (d.data.getD (B - d.offset) 0) l h =
      (PrimeByte.as_primes_in_range (d.data.getD (B - d.offset) 0) B l h).length := by
    unfold PrimeByte.count_primes_in_range PrimeByte.as_primes_in_range
    rw [List.length_map]
  rw [hlen]
  unfold countBits
  congr 1
  apply sorted_lt_eq_of_mem_iff (as_primes_in_range_sorted _ _ _ _)
    (List.Pairwise.filter _ (List.pairwise_lt_range' _ _))
  intro x
  rw [mem_as_primes_in_range, List.mem_filter, List.mem_range'_1]
  constructor
  · rintro ⟨j, hj, hb, hlj, hhj, hx⟩
    have hk1 := kvs_one_le j hj
    have hk29 := kvs_le_29 j
    have hxd : x / 30 = B := by omega
    have hxm : x % 30 = kvs j := by omega
    refine ⟨⟨by omega, by omega⟩, ?_⟩
    rw [Bool.and_eq_true]
    constructor
    · rw [hxm]
      exact isKval_kvs j hj
    · unfold PrimeData.bitAt
      rw [hxd, hxm, is_prime_kvs _ j hj]
      exact hb
  · rintro ⟨⟨hxl, hxh⟩, hcond⟩
    rw [Bool.and_eq_true] at hcond
    obtain ⟨hkv, hbit⟩ := hcond
    obtain ⟨j, hj, hkj⟩ := isKval_exists hkv
    have hk1 := kvs_one_le j hj
    have hk29 := kvs_le_29 j
    have hxd : x / 30 = B := by omega
    have hxm : x % 30 = kvs j := by omega
    refine ⟨j, hj, ?_, by omega, by omega, by omega⟩
    unfold PrimeData.bitAt at hbit
    rw [hxd, hxm, is_prime_kvs _ j hj] at hbit
    exact hbit

theorem sumCounts_cons (b : Nat) (l : List Nat) :
    sumCounts (b :: l) = PrimeByte.count_primes b + sumCounts l := by
  unfold sumCounts
  rw [List.foldl_cons]
  have hgen : ∀ (t : List Nat) (a : Nat),
      t.foldl (fun acc cur => acc + PrimeByte.count_primes cur) a =
        a + t.foldl (fun acc cur => acc + PrimeByte.count_primes cur) 0 := by
    intro t
    induction t with
    | nil => intro a; simp
    | cons c cs ih =>
      intro a
      rw [List.foldl_cons, List.foldl_cons, ih (a + PrimeByte.count_primes c),
        ih (0 + PrimeByte.count_primes c)]
      omega
  rw [hgen _ (0 + PrimeByte.count_primes b)]
  omega

theorem sumCounts_blocks (d : PrimeData) : ∀ (n i : Nat), i + n ≤ d.data.length →
    sumCounts ((d.data.drop i).take n) =
      countBits d (30 * (d.offset + i)) (30 * (d.offset + i + n) - 1) := by
  intro n
  induction n with
  | zero =>
    intro i _
    rw [List.take_zero]
    rcases Nat.eq_zero_or_pos (d.offset + i) with h0 | hpos
    · rw [show 30 * (d.offset + i + 0) - 1 = 0 by omega, show 30 * (d.offset + i) = 0 by omega]
      unfold sumCounts countBits
      rw [show (0 : Nat) + 1 - 0 = 1 by omega, List.range'_one]
      rw [show ([0] : List Nat).filter (fun x => isKval (x % 30) && d.bitAt x) = [] by
        simp [show isKval (0 % 30) = false by decide]]
      rfl
    · unfold sumCounts countBits
      rw [show 30 * (d.offset + i + 0) - 1 + 1 - 30 * (d.offset + i) = 0 by omega]
      rfl
  | succ n ih =>
    intro i hin
    have hi : i < d.data.length := by omega
    rw [List.drop_eq_getElem_cons hi]
    rw [List.take_succ_cons, sumCounts_cons]
    rw [ih (i + 1) (show i + 1 + n ≤ d.data.length by omega)]
    have hbyte : d.data[i] = d.data.getD ((d.offset + i) - d.offset) 0 := by
      rw [show d.offset + i - d.offset = i by omega]
      rw [List.getD_eq_getElem d.data 0 hi]
    rw [hbyte, count_primes_eq_full, count_in_range_cap,
      count_byte_window d (d.offset + i) 0 29 (by omega) (by omega)]
    rw [show 30 * (d.offset + i) + 0 = 30 * (d.offset + i) by omega]
    have hsplit := countBits_split d (30 * (d.offset + i)) (30 * (d.offset + i) + 29)
      (30 * (d.offset + i + (n + 1)) - 1) (by omega) (by omega)
    rw [show 30 * (d.offset + i) + 29 + 1 = 30 * (d.offset + (i + 1)) by omega] at hsplit
    rw [show 30 * (d.offset + (i + 1) + n) - 1 = 30 * (d.offset + i + (n + 1)) - 1 by omega]
    exact hsplit

theorem primesBetween_nil (lo hi : Nat) (h : hi < lo) : primesBetween lo hi = [] := by
  unfold primesBetween
  rw [List.filter_eq_nil_iff]
  intro p hp
  rw [List.mem_range] at hp
  simp only [Bool.and_eq_true, decide_eq_true_eq, not_and]
  intro hle
  omega

theorem primesBetween_self (p : Nat) :
    primesBetween p p = if Nat.Prime p then [p] else [] := by
  by_cases hp : Nat.Prime p
  · rw [if_pos hp]
    apply sorted_lt_eq_of_mem_iff (primesBetween_sorted _ _)
      (List.sorted_singleton p)
    intro x
    rw [mem_primesBetween]
    simp only [List.mem_singleton]
    constructor
    · rintro ⟨hx1, hx2, _⟩
      omega
    · rintro h
      subst h
      exact ⟨Nat.le_refl _, Nat.le_refl _, hp⟩
  · rw [if_neg hp]
    apply List.eq_nil_iff_forall_not_mem.mpr
    intro x hx
    obtain ⟨h1, h2, hpx⟩ := (mem_primesBetween _ _ _).mp hx
    have hxp : x = p := by omega
    rw [hxp] at hpx
    exact hp hpx

theorem countBits_nil (d : PrimeData) (s e : Nat) (h : e + 1 ≤ s ∨ e = 0) :
    countBits d s e = 0 := by
  unfold countBits
  rcases h with h | h
  · rw [show e + 1 - s = 0 by omega]
    rfl
  · subst h
    rcases Nat.eq_zero_or_pos s with h0 | hpos
    · subst h0
      rw [show (0 : Nat) + 1 - 0 = 1 by omega, List.range'_one]
      rw [show ([0] : List Nat).filter (fun x => isKval (x % 30) && d.bitAt x) = [] by
        simp [show isKval (0 % 30) = false by decide]]
      rfl
    · rw [show (0 : Nat) + 1 - s = 0 by omega]
      rfl

theorem data_index_getD_spec (d : PrimeData) (x : Nat)
    (hlen : d.data.length = div_ceil d.range.hi 30 - d.range.lo / 30)
    (hlo : d.range.lo ≤ x) (hhi : x ≤ d.range.hi) :
    (d.data_index_that_contains x).getD 0 =
      if x % 30 = 0 ∧ x = d.range.hi then x / 30 - d.offset - 1
      else x / 30 - d.offset := by
  have hoff : d.offset = d.range.lo / 30 := rfl
  have hceil : div_ceil d.range.hi 30 = (d.range.hi + 29) / 30 := div_ceil_30 d.range.hi
  have hcn : d.range.containsN x = true := by
    unfold URange.containsN
    simp only [Bool.and_eq_true, decide_eq_true_eq]
    omega
  have hne : d.is_empty = false := by
    unfold PrimeData.is_empty
    simp only [decide_eq_false_iff_not]
    omega
  unfold PrimeData.data_index_that_contains
  rw [if_neg (show ¬ d.is_empty = true by rw [hne]; exact Bool.false_ne_true)]
  rw [if_pos hcn]
  dsimp only
  by_cases hbig : x / 30 - d.offset ≥ d.data.length
  · rw [if_pos hbig]
    rw [hlen, hceil, hoff] at hbig
    have hxdiv : x % 30 = 0 := by omega
    have hxhi : x = d.range.hi := by omega
    rw [divisible_by_30, decide_eq_true hxdiv]
    simp only [if_true]
    rw [Option.getD_some, if_pos ⟨hxdiv, hxhi⟩]
  · rw [if_neg hbig]
    rw [hlen, hceil, hoff] at hbig
    rw [Option.getD_some, if_neg (show ¬ (x % 30 = 0 ∧ x = d.range.hi) by
      rintro ⟨hd, hx⟩
      omega)]

theorem count_split (d : PrimeData) (r : URange)
    (hin : ∀ x, d.range.lo ≤ x → x ≤ d.range.hi → isKval (x % 30) = true →
      d.bitAt x = decide (Nat.Prime x))
    (hds : d.range.lo ≤ r.lo) (hde : r.hi ≤ d.range.hi) :
    (primesBetween r.lo r.hi).length =
      (([2, 3, 5] : List Nat).filter (fun x => r.containsN x)).length +
        countBits d r.lo r.hi := by
  have hlist : primesBetween r.lo r.hi =
      (([2, 3, 5] : List Nat).filter (fun x => r.containsN x)) ++
        (List.range' r.lo (r.hi + 1 - r.lo)).filter
          (fun x => isKval (x % 30) && d.bitAt x) := by
    apply sorted_lt_eq_of_mem_iff (primesBetween_sorted _ _)
    · unfold List.Sorted
      rw [List.pairwise_append]
      refine ⟨List.Pairwise.filter _ (by decide),
        List.Pairwise.filter _ (List.pairwise_lt_range' _ _), ?_⟩
      intro x hx y hy
      have hx235 : x = 2 ∨ x = 3 ∨ x = 5 := by
        have hm := (List.mem_filter.mp hx).1
        simp only [List.mem_cons, List.not_mem_nil, or_false] at hm
        exact hm
      have hym := List.mem_filter.mp hy
      have hyr := List.mem_range'_1.mp hym.1
      obtain ⟨hkv, hbit⟩ := (Bool.and_eq_true _ _).mp hym.2
      have hbp := hin y (by omega) (by omega) hkv
      rw [hbit] at hbp
      have hpy : Nat.Prime y := of_decide_eq_true hbp.symm
      have hco : Nat.Coprime 30 y := by
        rw [isKval_mod30] at hkv
        exact of_decide_eq_true hkv
      have hy7 : 7 ≤ y := by
        obtain ⟨j, hj, hkj⟩ := isKval_exists hkv
        have h2y := hpy.two_le
        rcases kvs_one_or_ge7 j hj with h1 | h7
        · omega
        · omega
      omega
    · intro x
      rw [mem_primesBetween, List.mem_append, List.mem_filter, List.mem_filter,
        List.mem_range'_1]
      constructor
      · rintro ⟨hsx, hxe, hpx⟩
        by_cases h235 : x = 2 ∨ x = 3 ∨ x = 5
        · left
          refine ⟨?_, ?_⟩
          · simp only [List.mem_cons, List.not_mem_nil, or_false]
            exact h235
          · unfold URange.containsN
            simp only [Bool.and_eq_true, decide_eq_true_eq]
            exact ⟨hsx, hxe⟩
        · right
          have hco := prime_coprime_30 hpx h235
          have hkv : isKval (x % 30) = true := by
            rw [isKval_mod30]
            exact decide_eq_true hco
          refine ⟨⟨hsx, by omega⟩, ?_⟩
          rw [Bool.and_eq_true]
          refine ⟨hkv, ?_⟩
          rw [hin x (by omega) (by omega) hkv]
          exact decide_eq_true hpx
      · rintro (⟨hm, hc⟩ | ⟨hr, hc⟩)
        · simp only [List.mem_cons, List.not_mem_nil, or_false] at hm
          unfold URange.containsN at hc
          simp only [Bool.and_eq_true, decide_eq_true_eq] at hc
          refine ⟨hc.1, hc.2, ?_⟩
          rcases hm with h | h | h <;> subst h <;> norm_num
        · obtain ⟨hkv, hbit⟩ := (Bool.and_eq_true _ _).mp hc
          have hbp := hin x (by omega) (by omega) hkv
          rw [hbit] at hbp
          exact ⟨by omega, by omega, of_decide_eq_true hbp.symm⟩
  rw [hlist, List.length_append]
  rfl

theorem sumCounts_nil : sumCounts [] = 0 := rfl

theorem try_count_sound (d : PrimeData) (r : URange) (hs : Sound d)
    (h1 : d.range.lo ≤ r.lo) (h2 : r.hi ≤ d.range.hi) :
    d.try_count_primes_in_range r = .ok ((primesBetween r.lo r.hi).length) := by
  obtain ⟨hlen, hbytes, hin, hpad⟩ := hs
  have hoff : d.offset = d.range.lo / 30 := rfl
  unfold PrimeData.try_count_primes_in_range
  rw [contains_range_ok _ _ h1 h2]
  dsimp only
  by_cases hemp : d.is_empty = true
  · rw [if_pos hemp]
    unfold PrimeData.is_empty at hemp
    simp only [decide_eq_true_eq] at hemp
    rw [primesBetween_nil r.lo r.hi (by omega)]
    rfl
  · rw [if_neg hemp]
    by_cases hrev : r.lo > r.hi
    · rw [if_pos hrev]
      rw [primesBetween_nil r.lo r.hi (by omega)]
      rfl
    · rw [if_neg hrev]
      by_cases heq : r.lo = r.hi
      · rw [if_pos heq]
        rw [is_primeD_sound d r.lo ⟨hlen, hbytes, hin, hpad⟩ (by omega) (by omega)]
        rw [← heq, primesBetween_self]
        by_cases hp : Nat.Prime r.lo
        · rw [if_pos (decide_eq_true hp), if_pos hp]
          rfl
        · rw [if_neg (show ¬ decide (Nat.Prime r.lo) = true by simp [hp]), if_neg hp]
          rfl
      · rw [if_neg heq]
        have hlt : r.lo < r.hi := by omega
        have hsiv := data_index_getD_spec d r.lo hlen (by omega) (by omega)
        rw [if_neg (show ¬ (r.lo % 30 = 0 ∧ r.lo = d.range.hi) by
          rintro ⟨_, hx⟩
          omega)] at hsiv
        have heiv := data_index_getD_spec d r.hi hlen (by omega) (by omega)
        rw [divisible_by_30, divisible_by_30, hsiv]
        by_cases hs30 : r.lo % 30 = 0
        · by_cases he30 : r.hi % 30 = 0
          · -- both bounds multiples of 30
            rw [if_pos (show (decide (r.lo % 30 = 0) && decide (r.hi % 30 = 0)) = true by
              rw [decide_eq_true hs30, decide_eq_true he30]
              rfl)]
            rw [show r.lo / 30 - d.offset + (r.hi - r.lo) / 30 - (r.lo / 30 - d.offset)
                = r.hi / 30 - r.lo / 30 by rw [hoff]; omega]
            rw [sumCounts_blocks d (r.hi / 30 - r.lo / 30) (r.lo / 30 - d.offset)
              (by rw [hlen, div_ceil_30, hoff]; omega)]
            rw [show 30 * (d.offset + (r.lo / 30 - d.offset) + (r.hi / 30 - r.lo / 30)) - 1
                = r.hi - 1 by rw [hoff]; omega]
            rw [show 30 * (d.offset + (r.lo / 30 - d.offset)) = r.lo by rw [hoff]; omega]
            rw [← countBits_top_nonkval d r.lo r.hi (by omega) (by omega)
              (by rw [he30]; decide)]
            rw [count_split d r hin h1 h2]
          · -- start multiple of 30, end not
            rw [if_neg (show ¬ (decide (r.lo % 30 = 0) && decide (r.hi % 30 = 0)) = true by
              rw [decide_eq_false he30, Bool.and_false]
              exact Bool.false_ne_true)]
            rw [if_pos (decide_eq_true hs30)]
            rw [if_neg (show ¬ (r.hi % 30 = 0 ∧ r.hi = d.range.hi) by
              rintro ⟨hc, _⟩
              exact he30 hc)] at heiv
            rw [heiv]
            by_cases hAB : r.lo / 30 = r.hi / 30
            · rw [show r.hi / 30 - d.offset - (r.lo / 30 - d.offset) = 0 by rw [hoff]; omega]
              rw [List.take_zero, sumCounts_nil]
              rw [count_byte_window d (r.hi / 30) 0 (r.hi % 30) (by omega) (by omega)]
              rw [show 30 * (r.hi / 30) + 0 = r.lo by omega]
              rw [show 30 * (r.hi / 30) + r.hi % 30 = r.hi by omega]
              rw [count_split d r hin h1 h2]
              congr 1
            · rw [show r.hi / 30 - d.offset - (r.lo / 30 - d.offset)
                  = r.hi / 30 - r.lo / 30 by rw [hoff]; omega]
              rw [sumCounts_blocks d (r.hi / 30 - r.lo / 30) (r.lo / 30 - d.offset)
                (by rw [hlen, div_ceil_30, hoff]; omega)]
              rw [show 30 * (d.offset + (r.lo / 30 - d.offset) + (r.hi / 30 - r.lo / 30)) - 1
                  = 30 * (r.hi / 30) - 1 by rw [hoff]; omega]
              rw [show 30 * (d.offset + (r.lo / 30 - d.offset)) = r.lo by rw [hoff]; omega]
              rw [count_byte_window d (r.hi / 30) 0 (r.hi % 30) (by omega) (by omega)]
              rw [show 30 * (r.hi / 30) + 0 = 30 * (r.hi / 30) - 1 + 1 by omega]
              rw [show 30 * (r.hi / 30) + r.hi % 30 = r.hi by omega]
              have hglue := countBits_split d r.lo (30 * (r.hi / 30) - 1) r.hi
                (by omega) (by omega)
              rw [count_split d r hin h1 h2]
              congr 1
              omega
        · by_cases he30 : r.hi % 30 = 0
          · -- end multiple of 30, start not
            rw [if_neg (show ¬ (decide (r.lo % 30 = 0) && decide (r.hi % 30 = 0)) = true by
              rw [decide_eq_false hs30, Bool.false_and]
              exact Bool.false_ne_true)]
            rw [if_neg (show ¬ decide (r.lo % 30 = 0) = true by
              rw [decide_eq_false hs30]
              exact Bool.false_ne_true)]
            rw [if_pos (decide_eq_true he30)]
            rw [count_in_range_cap,
              count_byte_window d (r.lo / 30) (r.lo % 30) 29 (by omega) (by omega)]
            rw [show 30 * (r.lo / 30) + r.lo % 30 = r.lo by omega]
            by_cases hehi : r.hi = d.range.hi
            · rw [if_pos ⟨he30, hehi⟩] at heiv
              rw [heiv]
              by_cases hor : r.lo / 30 - d.offset = r.hi / 30 - d.offset - 1 ∨
                  r.lo + 30 > r.hi
              · rw [if_pos (show (decide (r.lo / 30 - d.offset = r.hi / 30 - d.offset - 1) ||
                    decide (r.lo + 30 > r.hi)) = true by
                  rcases hor with h | h
                  · rw [decide_eq_true h, Bool.true_or]
                  · rw [decide_eq_true h, Bool.or_true])]
                have he : r.hi = 30 * (r.lo / 30) + 30 := by
                  rcases hor with h | h
                  · rw [hoff] at h
                    omega
                  · omega
                rw [show 30 * (r.lo / 30) + 29 = r.hi - 1 by omega]
                rw [← countBits_top_nonkval d r.lo r.hi (by omega) (by omega)
                  (by rw [he30]; decide)]
                rw [count_split d r hin h1 h2]
              · push_neg at hor
                rw [if_neg (show ¬ (decide (r.lo / 30 - d.offset = r.hi / 30 - d.offset - 1) ||
                    decide (r.lo + 30 > r.hi)) = true by
                  rw [decide_eq_false hor.1, decide_eq_false (by omega), Bool.or_self]
                  exact Bool.false_ne_true)]
                rw [if_pos hehi]
                have hABlt : r.lo / 30 < r.hi / 30 := by omega
                rw [show r.hi / 30 - d.offset - 1 + 1 - (r.lo / 30 - d.offset + 1)
                    = r.hi / 30 - r.lo / 30 - 1 by rw [hoff]; omega]
                rw [sumCounts_blocks d (r.hi / 30 - r.lo / 30 - 1) (r.lo / 30 - d.offset + 1)
                  (by rw [hlen, div_ceil_30, hoff]; omega)]
                rw [show 30 * (d.offset + (r.lo / 30 - d.offset + 1) +
                      (r.hi / 30 - r.lo / 30 - 1)) - 1 = r.hi - 1 by rw [hoff]; omega]
                rw [show 30 * (d.offset + (r.lo / 30 - d.offset + 1))
                    = 30 * (r.lo / 30) + 29 + 1 by rw [hoff]; omega]
                have hglue := countBits_split d r.lo (30 * (r.lo / 30) + 29) (r.hi - 1)
                  (by omega) (by omega)
                have htop := countBits_top_nonkval d r.lo r.hi (by omega) (by omega)
                  (by rw [he30]; decide)
                rw [count_split d r hin h1 h2]
                congr 1
                omega
            · rw [if_neg (show ¬ (r.hi % 30 = 0 ∧ r.hi = d.range.hi) by
                rintro ⟨_, hc⟩
                exact hehi hc)] at heiv
              rw [heiv]
              by_cases hor : r.lo / 30 - d.offset = r.hi / 30 - d.offset ∨
                  r.lo + 30 > r.hi
              · rw [if_pos (show (decide (r.lo / 30 - d.offset = r.hi / 30 - d.offset) ||
                    decide (r.lo + 30 > r.hi)) = true by
                  rcases hor with h | h
                  · rw [decide_eq_true h, Bool.true_or]
                  · rw [decide_eq_true h, Bool.or_true])]
                have he : r.hi = 30 * (r.lo / 30) + 30 := by
                  rcases hor with h | h
                  · rw [hoff] at h
                    omega
                  · omega
                rw [show 30 * (r.lo / 30) + 29 = r.hi - 1 by omega]
                rw [← countBits_top_nonkval d r.lo r.hi (by omega) (by omega)
                  (by rw [he30]; decide)]
                rw [count_split d r hin h1 h2]
              · push_neg at hor
                rw [if_neg (show ¬ (decide (r.lo / 30 - d.offset = r.hi / 30 - d.offset) ||
                    decide (r.lo + 30 > r.hi)) = true by
                  rw [decide_eq_false hor.1, decide_eq_false (by omega), Bool.or_self]
                  exact Bool.false_ne_true)]
                rw [if_neg hehi]
                have hABlt : r.lo / 30 < r.hi / 30 := by omega
                rw [show r.hi / 30 - d.offset - 1 + 1 - (r.lo / 30 - d.offset + 1)
                    = r.hi / 30 - r.lo / 30 - 1 by rw [hoff]; omega]
                rw [sumCounts_blocks d (r.hi / 30 - r.lo / 30 - 1) (r.lo / 30 - d.offset + 1)
                  (by rw [hlen, div_ceil_30, hoff]; omega)]
                rw [show 30 * (d.offset + (r.lo / 30 - d.offset + 1) +
                      (r.hi / 30 - r.lo / 30 - 1)) - 1 = r.hi - 1 by rw [hoff]; omega]
                rw [show 30 * (d.offset + (r.lo / 30 - d.offset + 1))
                    = 30 * (r.lo / 30) + 29 + 1 by rw [hoff]; omega]
                have hglue := countBits_split d r.lo (30 * (r.lo / 30) + 29) (r.hi - 1)
                  (by omega) (by omega)
                have htop := countBits_top_nonkval d r.lo r.hi (by omega) (by omega)
                  (by rw [he30]; decide)
                rw [count_split d r hin h1 h2]
                congr 1
                omega
          · -- neither bound a multiple of 30
            rw [if_neg (show ¬ (decide (r.lo % 30 = 0) && decide (r.hi % 30 = 0)) = true by
              rw [decide_eq_false hs30, Bool.false_and]
              exact Bool.false_ne_true)]
            rw [if_neg (show ¬ decide (r.lo % 30 = 0) = true by
              rw [decide_eq_false hs30]
              exact Bool.false_ne_true)]
            rw [if_neg (show ¬ decide (r.hi % 30 = 0) = true by
              rw [decide_eq_false he30]
              exact Bool.false_ne_true)]
            rw [if_neg (show ¬ (r.hi % 30 = 0 ∧ r.hi = d.range.hi) by
              rintro ⟨hc, _⟩
              exact he30 hc)] at heiv
            rw [heiv]
            by_cases hsei : r.lo / 30 - d.offset = r.hi / 30 - d.offset
            · rw [if_pos hsei]
              have hAB : r.lo / 30 = r.hi / 30 := by
                rw [hoff] at hsei
                omega
              rw [count_byte_window d (r.lo / 30) (r.lo % 30) (r.hi % 30)
                (by omega) (by omega)]
              rw [show 30 * (r.lo / 30) + r.lo % 30 = r.lo by omega]
              rw [show 30 * (r.lo / 30) + r.hi % 30 = r.hi by omega]
              rw [count_split d r hin h1 h2]
            · rw [if_neg hsei]
              have hABlt : r.lo / 30 < r.hi / 30 := by
                rw [hoff] at hsei
                omega
              rw [count_in_range_cap,
                count_byte_window d (r.lo / 30) (r.lo % 30) 29 (by omega) (by omega)]
              rw [show 30 * (r.lo / 30) + r.lo % 30 = r.lo by omega]
              rw [show r.hi / 30 - d.offset - (r.lo / 30 - d.offset + 1)
                  = r.hi / 30 - r.lo / 30 - 1 by rw [hoff]; omega]
              rw [sumCounts_blocks d (r.hi / 30 - r.lo / 30 - 1) (r.lo / 30 - d.offset + 1)
                (by rw [hlen, div_ceil_30, hoff]; omega)]
              rw [show 30 * (d.offset + (r.lo / 30 - d.offset + 1) +
                    (r.hi / 30 - r.lo / 30 - 1)) - 1 = 30 * (r.hi / 30) - 1 by
                rw [hoff]; omega]
              rw [show 30 * (d.offset + (r.lo / 30 - d.offset + 1))
                  = 30 * (r.lo / 30) + 29 + 1 by rw [hoff]; omega]
              rw [count_byte_window d (r.hi / 30) 0 (r.hi % 30) (by omega) (by omega)]
              rw [show 30 * (r.hi / 30) + 0 = 30 * (r.hi / 30) - 1 + 1 by omega]
              rw [show 30 * (r.hi / 30) + r.hi % 30 = r.hi by omega]
              have hglue1 := countBits_split d r.lo (30 * (r.lo / 30) + 29)
                (30 * (r.hi / 30) - 1) (by omega) (by omega)
              have hglue2 := countBits_split d r.lo (30 * (r.hi / 30) - 1) r.hi
                (by omega) (by omega)
              rw [count_split d r hin h1 h2]
              congr 1
              omega

theorem count_primesD_sound (d : PrimeData) (hs : Sound d) :
    d.count_primesD = (primesBetween d.range.lo d.range.hi).length := by
  unfold PrimeData.count_primesD
  rw [try_count_sound d d.range hs (Nat.le_refl _) (Nat.le_refl _)]

theorem try_count_reversed (d : PrimeData) (r : URange) (hba : r.hi < r.lo)
    (hl : d.range.lo ≤ r.lo) (hh : r.hi ≤ d.range.hi) :
    d.try_count_primes_in_range r = .ok 0 := by
  unfold PrimeData.try_count_primes_in_range
  rw [contains_range_ok _ _ hl hh]
  dsimp only
  by_cases hemp : d.is_empty = true
  · rw [if_pos hemp]
  · rw [if_neg hemp]
    rw [if_pos hba]

theorem try_expand_error_char (d : PrimeData) (r : URange) (e : PrimeError) :
    d.try_expand r = .error e ↔
      (7 < d.range.lo ∧
        e = ⟨⟨.Modifying, .PrimeData⟩, .NotEnoughData ⟨7, d.range.lo - 1⟩⟩) ∨
      (d.range.lo ≤ 7 ∧ d.range.hi < Nat.sqrt r.hi ∧
        e = ⟨⟨.Modifying, .PrimeData⟩,
          .NotEnoughData ⟨d.range.hi + 1, Nat.sqrt r.hi⟩⟩) := by
  unfold PrimeData.try_expand
  dsimp only
  unfold URange.contains_range
  by_cases hlo : 7 < d.range.lo
  · rw [if_pos (show d.range.lo > (7 : Nat) from hlo)]
    dsimp only
    constructor
    · intro h
      exact Or.inl ⟨hlo, (Except.error.inj h).symm⟩
    · rintro (⟨_, he⟩ | ⟨hc, _, _⟩)
      · rw [he]
      · omega
  · rw [if_neg (show ¬ ((7 : Nat) < d.range.lo) from hlo)]
    by_cases hhi : Nat.sqrt r.hi > d.range.hi
    · rw [if_pos hhi]
      dsimp only
      constructor
      · intro h
        exact Or.inr ⟨by omega, hhi, (Except.error.inj h).symm⟩
      · rintro (⟨hc, _⟩ | ⟨_, _, he⟩)
        · omega
        · rw [he]
    · rw [if_neg hhi]
      dsimp only
      constructor
      · intro h
        split at h
        · exact Except.noConfusion h
        · exact Except.noConfusion h
      · rintro (⟨hc, _⟩ | ⟨_, hc, _⟩)
        · omega
        · omega

theorem data_index_spec_pos (d : PrimeData) (x : Nat)
    (hlen : d.data.length = div_ceil d.range.hi 30 - d.range.lo / 30)
    (hlo : d.range.lo ≤ x) (hhi : x ≤ d.range.hi) (hpos : 0 < d.data.length) :
    ∃ i, d.data_index_that_contains x = some i ∧ i < d.data.length := by
  have hoff : d.offset = d.range.lo / 30 := rfl
  have hceil : div_ceil d.range.hi 30 = (d.range.hi + 29) / 30 := div_ceil_30 d.range.hi
  have hcn : d.range.containsN x = true := by
    unfold URange.containsN
    simp only [Bool.and_eq_true, decide_eq_true_eq]
    omega
  have hne : d.is_empty = false := by
    unfold PrimeData.is_empty
    simp only [decide_eq_false_iff_not]
    omega
  unfold PrimeData.data_index_that_contains
  rw [if_neg (show ¬ d.is_empty = true by rw [hne]; exact Bool.false_ne_true)]
  rw [if_pos hcn]
  dsimp only
  by_cases hbig : x / 30 - d.offset ≥ d.data.length
  · rw [if_pos hbig]
    have hbig2 := hbig
    rw [hlen, hceil, hoff] at hbig2
    have hxdiv : x % 30 = 0 := by omega
    rw [divisible_by_30, decide_eq_true hxdiv]
    simp only [if_true]
    refine ⟨x / 30 - d.offset - 1, rfl, ?_⟩
    rw [hlen, hceil, hoff]
    omega
  · rw [if_neg hbig]
    exact ⟨x / 30 - d.offset, rfl, by omega⟩

theorem foldl_mul_hom (l : List (Nat × Nat)) (a : Nat) :
    l.foldl (fun acc e => acc * e.1 ^ e.2) a =
      a * l.foldl (fun acc e => acc * e.1 ^ e.2) 1 := by
  induction l generalizing a with
  | nil => simp
  | cons e t ih =>
    rw [List.foldl_cons, List.foldl_cons, ih (a * e.1 ^ e.2), ih (1 * e.1 ^ e.2)]
    ring

theorem as_u64_eq_prod (f : Factorization) :
    f.as_u64 = (f.data.map (fun e => e.1 ^ e.2)).prod := by
  unfold Factorization.as_u64
  rw [List.prod_eq_foldl, List.foldl_map]

theorem bump_prod (p : Nat) : ∀ (l : List (Nat × Nat)), (l.map Prod.fst).Nodup →
    l.any (fun e => decide (e.1 = p)) = true →
    ((l.map (fun e => if e.1 = p then (e.1, e.2 + 1) else e)).map
        (fun e => e.1 ^ e.2)).prod =
      (l.map (fun e => e.1 ^ e.2)).prod * p := by
  intro l
  induction l with
  | nil =>
    intro _ h
    simp at h
  | cons e t ih =>
    intro hnd hany
    rw [List.map_cons, List.nodup_cons] at hnd
    obtain ⟨hnotin, hndt⟩ := hnd
    by_cases hep : e.1 = p
    · rw [List.map_cons, if_pos hep]
      have htid : t.map (fun e2 => if e2.1 = p then (e2.1, e2.2 + 1) else e2) = t := by
        have hcg : ∀ x ∈ t, (if x.1 = p then (x.1, x.2 + 1) else x) = id x := by
          intro x hx
          rw [if_neg]
          · rfl
          · intro hc
            exact hnotin (by
              rw [← hep] at hc
              exact List.mem_map.mpr ⟨x, hx, hc⟩)
        rw [List.map_congr_left hcg, List.map_id]
      rw [htid, List.map_cons, List.map_cons, List.prod_cons, List.prod_cons, hep,
        pow_succ]
      ring
    · rw [List.map_cons, if_neg hep]
      have hanyt : t.any (fun e2 => decide (e2.1 = p)) = true := by
        rw [List.any_cons, decide_eq_false hep, Bool.false_or] at hany
        exact hany
      rw [List.map_cons, List.map_cons, List.prod_cons, List.prod_cons, ih hndt hanyt]
      ring

theorem add_factor_as_u64 (f : Factorization) (p : Nat)
    (hnd : (f.data.map Prod.fst).Nodup) :
    (f.add_factor p).as_u64 = f.as_u64 * p := by
  rw [as_u64_eq_prod, as_u64_eq_prod]
  unfold Factorization.add_factor
  split
  · rename_i hany
    exact bump_prod p f.data hnd hany
  · rw [List.map_append, List.prod_append]
    simp [pow_one]

theorem add_factor_keys_nodup (f : Factorization) (p : Nat)
    (hnd : (f.data.map Prod.fst).Nodup) :
    ((f.add_factor p).data.map Prod.fst).Nodup := by
  unfold Factorization.add_factor
  split
  · rename_i hany
    have hkeys : (f.data.map (fun e => if e.1 = p then (e.1, e.2 + 1) else e)).map Prod.fst
        = f.data.map Prod.fst := by
      rw [List.map_map]
      apply List.map_congr_left
      intro x _
      by_cases hx : x.1 = p
      · simp [hx]
      · simp [hx]
    rw [hkeys]
    exact hnd
  · rename_i hany
    rw [List.map_append]
    rw [List.nodup_append]
    refine ⟨hnd, List.nodup_singleton p, ?_⟩
    intro k hk hk2
    simp only [List.map_cons, List.map_nil, List.mem_singleton] at hk2
    subst hk2
    obtain ⟨e, he, hfst⟩ := List.mem_map.mp hk
    exact hany (List.any_eq_true.mpr ⟨e, he, decide_eq_true hfst⟩)

theorem add_factor_keys_sub (f : Factorization) (p k : Nat)
    (h : k ∈ (f.add_factor p).data.map Prod.fst) :
    k ∈ f.data.map Prod.fst ∨ k = p := by
  unfold Factorization.add_factor at h
  split at h
  · rw [List.map_map] at h
    obtain ⟨e, he, hfst⟩ := List.mem_map.mp h
    simp only [Function.comp] at hfst
    by_cases hx : e.1 = p
    · rw [if_pos hx] at hfst
      right
      rw [← hfst]
      exact hx
    · rw [if_neg hx] at hfst
      exact Or.inl (List.mem_map.mpr ⟨e, he, hfst⟩)
  · dsimp only at h
    rw [List.map_append] at h
    rcases List.mem_append.mp h with h2 | h2
    · exact Or.inl h2
    · simp only [List.map_cons, List.map_nil, List.mem_singleton] at h2
      exact Or.inr h2

theorem add_factor_mult_pos (f : Factorization) (p : Nat)
    (hm : ∀ e ∈ f.data, 1 ≤ e.2) : ∀ e ∈ (f.add_factor p).data, 1 ≤ e.2 := by
  unfold Factorization.add_factor
  split
  · intro e he
    obtain ⟨e0, he0, heq⟩ := List.mem_map.mp he
    by_cases hx : e0.1 = p
    · rw [if_pos hx] at heq
      rw [← heq]
      omega
    · rw [if_neg hx] at heq
      rw [← heq]
      exact hm e0 he0
  · intro e he
    rcases List.mem_append.mp he with h | h
    · exact hm e h
    · simp only [List.mem_singleton] at h
      rw [h]

theorem add_factor_ne_nil (f : Factorization) (p : Nat) :
    (f.add_factor p).data ≠ [] := by
  unfold Factorization.add_factor
  split
  · rename_i hany
    intro hc
    dsimp only at hc
    rw [List.map_eq_nil_iff] at hc
    rw [hc] at hany
    simp at hany
  · intro hc
    dsimp only at hc
    rcases List.append_eq_nil.mp hc with ⟨_, h2⟩
    exact List.noConfusion h2

theorem divideOut_spec (p : Nat) (hp : 2 ≤ p) : ∀ (n : Nat) (f : Factorization),
    0 < n → (f.data.map Prod.fst).Nodup →
    ((divideOut p n f).2.as_u64 * (divideOut p n f).1 = f.as_u64 * n ∧
      0 < (divideOut p n f).1 ∧ (divideOut p n f).1 ∣ n ∧
      ¬ p ∣ (divideOut p n f).1 ∧
      ((divideOut p n f).2.data.map Prod.fst).Nodup ∧
      (∀ e ∈ (divideOut p n f).2.data, e.1 ∈ f.data.map Prod.fst ∨ e.1 = p) ∧
      ((∀ e ∈ f.data, 1 ≤ e.2) → ∀ e ∈ (divideOut p n f).2.data, 1 ≤ e.2)) := by
  intro n f hn hnd
  unfold divideOut
  split
  · rename_i hcond
    obtain ⟨_, _, hmod⟩ := hcond
    have hdvd : p ∣ n := Nat.dvd_of_mod_eq_zero hmod
    have hqpos : 0 < n / p := Nat.div_pos (Nat.le_of_dvd hn hdvd) (by omega)
    have hqlt : n / p < n := Nat.div_lt_self hn (by omega)
    obtain ⟨ha, hb, hc, hd, he, hf, hg⟩ :=
      divideOut_spec p hp (n / p) (f.add_factor p) hqpos (add_factor_keys_nodup f p hnd)
    refine ⟨?_, hb, ?_, hd, he, ?_, ?_⟩
    · rw [ha, add_factor_as_u64 f p hnd]
      have hpc : p * (n / p) = n := Nat.mul_div_cancel' hdvd
      rw [Nat.mul_assoc, hpc]
    · exact dvd_trans hc (Nat.div_dvd_of_dvd hdvd)
    · intro e he2
      rcases hf e he2 with h | h
      · exact add_factor_keys_sub f p e.1 h
      · exact Or.inr h
    · intro hmult
      exact hg (add_factor_mult_pos f p hmult)
  · rename_i hcond
    refine ⟨rfl, hn, dvd_refl n, ?_, hnd, fun e he => Or.inl (List.mem_map.mpr ⟨e, he, rfl⟩),
      fun hmult => hmult⟩
    intro hdvd
    exact hcond ⟨hp, hn, Nat.mod_eq_zero_of_dvd hdvd⟩
termination_by n _ _ _ => n
decreasing_by
  exact hqlt

theorem foldl_divideOut_spec : ∀ (ps : List Nat) (st : Nat × Factorization),
    (∀ q ∈ ps, 2 ≤ q) → 0 < st.1 → (st.2.data.map Prod.fst).Nodup →
    ((ps.foldl (fun acc prime => divideOut prime acc.1 acc.2) st).2.as_u64 *
        (ps.foldl (fun acc prime => divideOut prime acc.1 acc.2) st).1 =
      st.2.as_u64 * st.1 ∧
    0 < (ps.foldl (fun acc prime => divideOut prime acc.1 acc.2) st).1 ∧
    (ps.foldl (fun acc prime => divideOut prime acc.1 acc.2) st).1 ∣ st.1 ∧
    ((ps.foldl (fun acc prime => divideOut prime acc.1 acc.2) st).2.data.map
      Prod.fst).Nodup ∧
    (∀ q ∈ ps, ¬ q ∣ (ps.foldl (fun acc prime => divideOut prime acc.1 acc.2) st).1) ∧
    (∀ e ∈ (ps.foldl (fun acc prime => divideOut prime acc.1 acc.2) st).2.data,
      e.1 ∈ st.2.data.map Prod.fst ∨ e.1 ∈ ps) ∧
    ((∀ e ∈ st.2.data, 1 ≤ e.2) →
      ∀ e ∈ (ps.foldl (fun acc prime => divideOut prime acc.1 acc.2) st).2.data,
        1 ≤ e.2)) := by
  intro ps
  induction ps with
  | nil =>
    intro st _ hpos hnd
    exact ⟨rfl, hpos, dvd_refl _, hnd, by simp,
      fun e he => Or.inl (List.mem_map.mpr ⟨e, he, rfl⟩), fun h => h⟩
  | cons p t ih =>
    intro st hq hpos hnd
    have hp2 : 2 ≤ p := hq p (List.mem_cons_self p t)
    obtain ⟨da, db, dc, dd, de, df, dg⟩ := divideOut_spec p hp2 st.1 st.2 hpos hnd
    rw [List.foldl_cons]
    obtain ⟨ia, ib, ic, id_, ie_, if_, ig⟩ :=
      ih (divideOut p st.1 st.2) (fun q hqt => hq q (List.mem_cons_of_mem p hqt)) db de
    refine ⟨?_, ib, dvd_trans ic dc, id_, ?_, ?_, ?_⟩
    · rw [ia, da]
    · intro q hq2
      rcases List.mem_cons.mp hq2 with hqp | hqt
      · subst hqp
        intro hdvd
        exact dd (dvd_trans hdvd ic)
      · exact ie_ q hqt
    · intro e he
      rcases if_ e he with h | h
      · obtain ⟨e0, he0, hfst⟩ := List.mem_map.mp h
        rcases df e0 he0 with h2 | h2
        · rw [← hfst]
          exact Or.inl h2
        · rw [← hfst, h2]
          exact Or.inr (List.mem_cons_self p t)
      · exact Or.inr (List.mem_cons_of_mem p h)
    · intro hmult
      exact ig (dg hmult)

theorem try_factorize_spec (d : PrimeData) (x : Nat) (hx : 1 ≤ x) (hs : Sound d)
    (h2d : d.range.lo ≤ 2) (hqd : Nat.sqrt x ≤ d.range.hi) :
    ∃ f, d.try_factorize x = .ok f ∧ f.as_u64 = x ∧
      (f.data.map Prod.fst).Nodup ∧ (∀ e ∈ f.data, 1 ≤ e.2) ∧
      (∀ e ∈ f.data, Nat.Prime e.1) ∧ (f.data = [] ↔ x = 1) := by
  unfold PrimeData.try_factorize
  dsimp only
  rw [contains_range_ok _ _ h2d hqd]
  dsimp only
  rw [iterList_adequate d ⟨2, Nat.sqrt x⟩ hs h2d hqd]
  have hps : ∀ q ∈ primesBetween 2 (Nat.sqrt x), 2 ≤ q ∧ q ≤ Nat.sqrt x ∧ Nat.Prime q := by
    intro q hq
    obtain ⟨hq1, hq2, hq3⟩ := (mem_primesBetween _ _ _).mp hq
    exact ⟨hq1, hq2, hq3⟩
  obtain ⟨fa, fb, fc, fd, fe, ff, fg⟩ :=
    foldl_divideOut_spec (primesBetween 2 (Nat.sqrt x)) (x, Factorization.new)
      (fun q hq => (hps q hq).1) hx (by exact List.nodup_nil)
  have hkeys_prime : ∀ e ∈ (List.foldl (fun acc prime => divideOut prime acc.1 acc.2)
      (x, Factorization.new) (primesBetween 2 (Nat.sqrt x))).2.data, Nat.Prime e.1 := by
    intro e he
    rcases ff e he with h | h
    · simp [Factorization.new] at h
    · exact (hps e.1 h).2.2
  have hmult : ∀ e ∈ (List.foldl (fun acc prime => divideOut prime acc.1 acc.2)
      (x, Factorization.new) (primesBetween 2 (Nat.sqrt x))).2.data, 1 ≤ e.2 :=
    fg (by intro e he; simp [Factorization.new] at he)
  have hprod : (List.foldl (fun acc prime => divideOut prime acc.1 acc.2)
      (x, Factorization.new) (primesBetween 2 (Nat.sqrt x))).2.as_u64 *
      (List.foldl (fun acc prime => divideOut prime acc.1 acc.2)
        (x, Factorization.new) (primesBetween 2 (Nat.sqrt x))).1 = x := by
    rw [fa]
    show Factorization.as_u64 ⟨[]⟩ * x = x
    rw [show Factorization.as_u64 ⟨[]⟩ = 1 from rfl, Nat.one_mul]
  split
  · rename_i hgt1
    -- residual > 1: it is prime and gets appended
    set res := List.foldl (fun acc prime => divideOut prime acc.1 acc.2)
      (x, Factorization.new) (primesBetween 2 (Nat.sqrt x)) with hres
    have hrp : Nat.Prime res.1 := by
      by_contra hnp
      have hmf := Nat.minFac_prime (show res.1 ≠ 1 by omega)
      have hmfd := Nat.minFac_dvd res.1
      have hsq : res.1.minFac * res.1.minFac ≤ res.1 := by
        have hw := Nat.minFac_sq_le_self (by omega) hnp
        rwa [Nat.pow_two] at hw
      have hrx : res.1 ≤ x := Nat.le_of_dvd hx fc
      have hmfs : res.1.minFac ≤ Nat.sqrt x :=
        Nat.le_sqrt.mpr (Nat.le_trans hsq hrx)
      have hmem : res.1.minFac ∈ primesBetween 2 (Nat.sqrt x) :=
        (mem_primesBetween _ _ _).mpr ⟨hmf.two_le, hmfs, hmf⟩
      exact fe res.1.minFac hmem hmfd
    refine ⟨res.2.add_factor res.1, rfl, ?_, add_factor_keys_nodup res.2 res.1 fd, ?_, ?_, ?_⟩
    · rw [add_factor_as_u64 res.2 res.1 fd]
      exact hprod
    · exact add_factor_mult_pos res.2 res.1 hmult
    · intro e he
      obtain ⟨e0, he0, hfst⟩ := List.mem_map.mp
        (List.mem_map.mpr ⟨e, he, rfl⟩ :
          (e.1 : Nat) ∈ (res.2.add_factor res.1).data.map Prod.fst)
      rcases add_factor_keys_sub res.2 res.1 e.1
          (List.mem_map.mpr ⟨e, he, rfl⟩) with h | h
      · obtain ⟨e1, he1, hfst1⟩ := List.mem_map.mp h
        rw [← hfst1]
        exact hkeys_prime e1 he1
      · rw [h]
        exact hrp
    · constructor
      · intro hc
        exact absurd hc (add_factor_ne_nil res.2 res.1)
      · intro hc
        have hx2 : 2 ≤ x := by
          have : res.1 ≤ x := Nat.le_of_dvd hx fc
          omega
        omega
  · rename_i hle1
    set res := List.foldl (fun acc prime => divideOut prime acc.1 acc.2)
      (x, Factorization.new) (primesBetween 2 (Nat.sqrt x)) with hres
    have hr1 : res.1 = 1 := by omega
    refine ⟨res.2, rfl, ?_, fd, hmult, ?_, ?_⟩
    · rw [← hprod, hr1, Nat.mul_one]
    · intro e he
      rcases ff e he with h | h
      · simp [Factorization.new] at h
      · exact (hps e.1 h).2.2
    · constructor
      · intro hc
        have : res.2.as_u64 = 1 := by
          rw [as_u64_eq_prod, hc]
          rfl
        rw [← hprod, hr1, Nat.mul_one, this]
      · intro hx1
        by_contra hc
        have hne : res.2.data ≠ [] := hc
        obtain ⟨e, he⟩ := List.exists_mem_of_ne_nil res.2.data hne
        have hpe : Nat.Prime e.1 := hkeys_prime e he
        have hdvd : e.1 ^ e.2 ∣ res.2.as_u64 := by
          rw [as_u64_eq_prod]
          exact List.dvd_prod (List.mem_map.mpr ⟨e, he, rfl⟩)
        have hme := hmult e he
        have hd1 : e.1 ∣ res.2.as_u64 :=
          dvd_trans (dvd_pow_self e.1 (by omega : e.2 ≠ 0)) hdvd
        have hu1 : res.2.as_u64 = 1 := by
          have := hprod
          rw [hr1, Nat.mul_one] at this
          omega
        rw [hu1] at hd1
        exact absurd (Nat.dvd_one.mp hd1) (by have := hpe.two_le; omega)

theorem from_u64_spec (x : Nat) (hx : 1 ≤ x) :
    (Factorization.from_u64 x).as_u64 = x ∧
      ((Factorization.from_u64 x).data.map Prod.fst).Nodup ∧
      (∀ e ∈ (Factorization.from_u64 x).data, 1 ≤ e.2) ∧
      (∀ e ∈ (Factorization.from_u64 x).data, Nat.Prime e.1) ∧
      ((Factorization.from_u64 x).data = [] ↔ x = 1) := by
  have hg := generate_sound ⟨0, Nat.sqrt x⟩ (Nat.zero_le _)
  obtain ⟨f, hok, ha, hb, hc, hd, he⟩ :=
    try_factorize_spec (PrimeData.generate ⟨0, Nat.sqrt x⟩) x hx hg.1
      (by rw [hg.2]; exact Nat.zero_le 2) (by rw [hg.2])
  unfold Factorization.from_u64
  rw [hok]
  exact ⟨ha, hb, hc, hd, he⟩

theorem factor_combos_length : ∀ (l : List (Nat × Nat)),
    (Factorization.factor_combos l).length = (l.map (fun e => e.2 + 1)).prod := by
  intro l
  induction l with
  | nil => rfl
  | cons e t ih =>
    show (Factorization.factor_combos (e :: t)).length = _
    unfold Factorization.factor_combos
    dsimp only
    have hfold : ∀ (m : Nat) (acc : List Nat),
        ((List.range m).foldl (fun combinations pow =>
          combinations ++ (Factorization.factor_combos t).map
            (fun y => e.1 ^ pow * y)) acc).length
        = acc.length + m * (Factorization.factor_combos t).length := by
      intro m
      induction m with
      | zero =>
        intro acc
        rw [List.range_zero, List.foldl_nil]
        omega
      | succ k ihm =>
        intro acc
        rw [List.range_succ, List.foldl_append, List.foldl_cons, List.foldl_nil]
        rw [List.length_append, ihm acc, List.length_map]
        ring
    rw [hfold (e.2 + 1) []]
    rw [List.map_cons, List.prod_cons, ih]
    rw [List.length_nil, Nat.zero_add]

theorem all_factors_length (f : Factorization) :
    f.all_factors.length = (f.data.map (fun e => e.2 + 1)).prod := by
  unfold Factorization.all_factors
  rw [(List.perm_insertionSort _ _).length_eq]
  rw [factor_combos_length]
  unfold Factorization.as_tuples
  rw [((List.perm_insertionSort _ f.data).map (fun e => e.2 + 1)).prod_eq]

theorem trialDivisionNoDivisor_eval (x : Nat) :
    trialDivisionNoDivisor x =
      decide (∀ d, d ≤ x → 2 ≤ d → d * d ≤ x → ¬ d ∣ x) := by
  unfold trialDivisionNoDivisor
  rw [decide_eq_decide]
  constructor
  · intro h d _ h2 hsq
    exact h d (Nat.le_sqrt.mpr hsq) h2
  · intro h d hds h2
    have hsq : d * d ≤ x := Nat.le_trans (Nat.mul_le_mul hds hds) (Nat.sqrt_le x)
    have hdx : d ≤ x := Nat.le_trans hds (Nat.sqrt_le_self x)
    exact h d hdx h2 hsq

theorem primesBetween_eval (lo hi : Nat) :
    primesBetween lo hi = (List.range (hi + 1)).filter
      (fun p => decide (lo ≤ p) &&
        (decide (2 ≤ p) && decide (∀ d, d ≤ p → 2 ≤ d → d * d ≤ p → ¬ d ∣ p))) := by
  unfold primesBetween
  apply List.filter_congr
  intro p _
  rw [← trialDivision_eq_prime]
  unfold trialDivisionPrime
  rw [trialDivisionNoDivisor_eval]

theorem try_nth_prime_ge4 (d : PrimeData) (large : Nat → URange) (n : Nat) :
    d.try_nth_prime large (n + 4) =
      (let total_primes := d.count_primesD
      match d.range.contains_range ⟨7, total_primes⟩ with
      | .error missing_range =>
        some (.error ⟨⟨.Reading, .PrimeData⟩, .NotEnoughData missing_range⟩)
      | .ok _ =>
        let bounds := nth_prime_bounds large (n + 4)
        let start := max 7 bounds.lo
        let stop := min d.range.hi bounds.hi
        match d.try_count_primes_in_range ⟨7, start⟩ with
        | .error _ => none
        | .ok below =>
          let offset := 3 + below - (if d.is_primeD start then 1 else 0)
          match (d.iterList ⟨start, stop⟩).get? (n + 4 - offset - 1) with
          | some p => some (.ok p)
          | none => none) := rfl

theorem nth_prime_26_panics (large : Nat → URange) :
    (PrimeData.generate ⟨0, 100⟩).try_nth_prime large 26 = none := by
  have hg := generate_sound ⟨0, 100⟩ (by decide)
  have hcount : (PrimeData.generate ⟨0, 100⟩).count_primesD = 25 := by
    rw [count_primesD_sound _ hg.1, hg.2]
    rw [primesBetween_eval]
    decide
  rw [show (26 : Nat) = 22 + 4 from rfl, try_nth_prime_ge4]
  dsimp only
  rw [hcount]
  rw [show (PrimeData.generate ⟨0, 100⟩).range.contains_range ⟨7, 25⟩ = .ok () by
    rw [hg.2]
    exact contains_range_ok _ _ (by decide) (by decide)]
  dsimp only
  rw [show nth_prime_bounds large (22 + 4) = ⟨0, 104723⟩ by
    unfold nth_prime_bounds
    rw [if_pos (Nat.log_lt_of_lt_pow (by omega) (by norm_num))]]
  dsimp only
  rw [show max 7 (0 : Nat) = 7 from rfl]
  rw [hg.2]
  rw [show min (100 : Nat) 104723 = 100 from by norm_num]
  rw [try_count_sound _ ⟨7, 7⟩ hg.1 (by rw [hg.2]; decide) (by rw [hg.2]; decide)]
  rw [show (primesBetween (7 : Nat) 7).length = 1 from by rw [primesBetween_eval]; decide]
  dsimp only
  rw [is_primeD_sound _ 7 hg.1 (by rw [hg.2]; decide) (by rw [hg.2]; decide)]
  rw [decide_eq_true (by norm_num : Nat.Prime 7)]
  simp only [if_true]
  rw [iterList_adequate _ ⟨7, 100⟩ hg.1 (by rw [hg.2]; decide) (by rw [hg.2])]
  rw [show 22 + 4 - (3 + 1 - 1) - 1 = 22 from by norm_num]
  rw [show (primesBetween (7 : Nat) 100).get? 22 = none from by
    rw [primesBetween_eval]
    decide]

theorem all_factors_of_zero : all_factors_of 0 = [1] := by
  unfold all_factors_of Factorization.from_u64
  have hg := generate_sound ⟨0, Nat.sqrt 0⟩ (Nat.zero_le _)
  have htf : (PrimeData.generate ⟨0, Nat.sqrt 0⟩).try_factorize 0 = .ok ⟨[]⟩ := by
    unfold PrimeData.try_factorize
    dsimp only
    rw [show (PrimeData.generate ⟨0, Nat.sqrt 0⟩).range.contains_range
        ⟨2, Nat.sqrt 0⟩ = .ok () by
      rw [hg.2]
      exact contains_range_ok _ _ (by decide) (by decide)]
    dsimp only
    rw [iterList_adequate _ ⟨2, Nat.sqrt 0⟩ hg.1 (by rw [hg.2]; decide) (by rw [hg.2])]
    rw [show primesBetween (2 : Nat) (Nat.sqrt 0) = [] from
      primesBetween_nil 2 (Nat.sqrt 0) (by decide)]
    rw [List.foldl_nil]
    rw [if_neg (by decide)]
    rfl
  rw [htf]
  rfl

theorem prod_mult_pos (l : List (Nat × Nat)) :
    0 < (l.map (fun e => e.2 + 1)).prod := by
  apply List.prod_pos
  intro a ha
  obtain ⟨e, _, he⟩ := List.mem_map.mp ha
  omega

theorem prod_mult_ge_two (l : List (Nat × Nat)) (hne : l ≠ [])
    (hm : ∀ e ∈ l, 1 ≤ e.2) :
    2 ≤ (l.map (fun e => e.2 + 1)).prod := by
  cases l with
  | nil => exact absurd rfl hne
  | cons e t =>
    rw [List.map_cons, List.prod_cons]
    have h1 : 2 ≤ e.2 + 1 := by
      have := hm e (List.mem_cons_self e t)
      omega
    have h2 := prod_mult_pos t
    calc (2 : Nat) ≤ (e.2 + 1) * 1 := by omega
      _ ≤ (e.2 + 1) * (t.map (fun e => e.2 + 1)).prod :=
          Nat.mul_le_mul_left _ h2

theorem all_factors_len_one_iff (x : Nat) (hx : 1 ≤ x) :
    (all_factors_of x).length = 1 ↔ x = 1 := by
  obtain ⟨ha, hb, hc, hd, he⟩ := from_u64_spec x hx
  unfold all_factors_of
  rw [all_factors_length]
  constructor
  · intro h1
    by_cases hnil : (Factorization.from_u64 x).data = []
    · exact he.mp hnil
    · have := prod_mult_ge_two _ hnil hc
      omega
  · intro hx1
    rw [he.mpr hx1]
    rfl

theorem all_factors_len_two_iff (x : Nat) (hx : 1 ≤ x) :
    (all_factors_of x).length = 2 ↔ Nat.Prime x := by
  obtain ⟨ha, hb, hc, hd, he⟩ := from_u64_spec x hx
  unfold all_factors_of
  rw [all_factors_length]
  constructor
  · intro h2
    rcases hdata : (Factorization.from_u64 x).data with _ | ⟨e, t⟩
    · rw [hdata] at h2
      simp at h2
    · have htnil : t = [] := by
        by_contra htne
        have hge := prod_mult_ge_two t htne (fun e2 he2 =>
          hc e2 (by rw [hdata]; exact List.mem_cons_of_mem e he2))
        have hee : 2 ≤ e.2 + 1 := by
          have := hc e (by rw [hdata]; exact List.mem_cons_self e t)
          omega
        rw [hdata, List.map_cons, List.prod_cons] at h2
        have hmul : 2 * 2 ≤ (e.2 + 1) * (t.map (fun e => e.2 + 1)).prod :=
          Nat.mul_le_mul hee hge
        omega
      subst htnil
      rw [hdata, List.map_cons, List.map_nil, List.prod_cons, List.prod_nil,
        Nat.mul_one] at h2
      have he2 : e.2 = 1 := by omega
      have hxval : x = e.1 ^ e.2 := by
        rw [← ha, as_u64_eq_prod, hdata]
        rw [List.map_cons, List.map_nil, List.prod_cons, List.prod_nil, Nat.mul_one]
      rw [hxval, he2, pow_one]
      exact hd e (by rw [hdata]; exact List.mem_cons_self e [])
  · intro hpx
    have hne : (Factorization.from_u64 x).data ≠ [] := by
      intro hc2
      have := he.mp hc2
      rw [this] at hpx
      exact Nat.not_prime_one hpx
    rcases hdata : (Factorization.from_u64 x).data with _ | ⟨e, t⟩
    · exact absurd hdata hne
    · have hkey : ∀ e2 ∈ (Factorization.from_u64 x).data, e2.1 = x := by
        intro e2 he2
        have hpe := hd e2 he2
        have hdvd : e2.1 ∣ x := by
          rw [← ha, as_u64_eq_prod]
          refine dvd_trans (dvd_pow_self e2.1 ?_) (List.dvd_prod
            (List.mem_map.mpr ⟨e2, he2, rfl⟩))
          have := hc e2 he2
          omega
        rcases (Nat.Prime.eq_one_or_self_of_dvd hpx e2.1 hdvd) with h | h
        · exact absurd h (Nat.Prime.ne_one hpe)
        · exact h
      have htnil : t = [] := by
        rcases ht : t with _ | ⟨e2, t2⟩
        · rfl
        · have hkeq : e.1 = x := hkey e (by rw [hdata]; exact List.mem_cons_self e t)
          have hkeq2 : e2.1 = x := hkey e2 (by
            rw [hdata, ht]
            exact List.mem_cons_of_mem e (List.mem_cons_self e2 t2))
          have hnd := hb
          rw [hdata, ht] at hnd
          rw [List.map_cons, List.map_cons, List.nodup_cons] at hnd
          exact absurd (by
            rw [hkeq, ← hkeq2]
            exact List.mem_cons_self e2.1 (t2.map Prod.fst)) hnd.1
      subst htnil
      have hxval : x = e.1 ^ e.2 := by
        rw [← ha, as_u64_eq_prod, hdata]
        rw [List.map_cons, List.map_nil, List.prod_cons, List.prod_nil, Nat.mul_one]
      have hkeq : e.1 = x := hkey e (by rw [hdata]; exact List.mem_cons_self e [])
      have he2 : e.2 = 1 := by
        have hx2 : 2 ≤ x := hpx.two_le
        have hpow : x ^ 1 = x ^ e.2 := by
          rw [pow_one]
          nth_rewrite 1 [hxval]
          rw [hkeq]
        have hinj := Nat.pow_right_injective hx2 hpow
        omega
      rw [List.map_cons, List.map_nil, List.prod_cons, List.prod_nil,
        Nat.mul_one, he2]

/-! ## Claim theorems

One theorem per claim of the specification review, with the witnesses and
counterexamples that settle each one. -/

/-- C1 (amended): for every store generated over `[a,b]` with `a ≤ b` and every
`2 ≤ x` with `a ≤ x ≤ b`, `is_prime x` agrees with trial division of `x` by all
integers in `[2, isqrt x]` (`x` is reported prime exactly when no such integer
divides it).  The claimed agreement at the edge value `x = 1` is false: see the
counterexample. -/
theorem claim_C1 (r : URange) (hr : r.lo ≤ r.hi) (x : Nat)
    (hlo : r.lo ≤ x) (hhi : x ≤ r.hi) (hx : 2 ≤ x) :
    (PrimeData.generate r).is_primeD x = trialDivisionNoDivisor x := by
  have hg := generate_sound r hr
  rw [is_primeD_sound _ x hg.1 (by rw [hg.2]; exact hlo) (by rw [hg.2]; exact hhi)]
  rw [← trialDivision_eq_prime]
  unfold trialDivisionPrime
  rw [decide_eq_true hx, Bool.true_and]

/-- Witness for C1 at the store over `[0,30]` and `x = 7`. -/
theorem claim_C1_witness :
    (0 : Nat) ≤ 30 ∧ (0 : Nat) ≤ 7 ∧ (7 : Nat) ≤ 30 ∧ (2 : Nat) ≤ 7 ∧
    (PrimeData.generate ⟨0, 30⟩).is_primeD 7 = trialDivisionNoDivisor 7 :=
  ⟨by decide, by decide, by decide, by decide,
    claim_C1 ⟨0, 30⟩ (by decide) 7 (by decide) (by decide) (by decide)⟩

/-- C1 counterexample: on the store generated over `[0,30]`, `x = 1` lies in
the range and is reported not prime, yet no integer of `[2, isqrt 1]` divides
1, so the claim's trial division reports 1 prime - the claimed agreement fails
at the edge value `x = 1`. -/
theorem claim_C1_counterexample :
    (PrimeData.generate ⟨0, 30⟩).is_primeD 1 = false ∧
    trialDivisionNoDivisor 1 = true := by
  constructor
  · have hg := generate_sound ⟨0, 30⟩ (by decide)
    rw [is_primeD_sound _ 1 hg.1 (by rw [hg.2]; decide) (by rw [hg.2]; decide)]
    decide
  · rw [trialDivisionNoDivisor_eval]
    decide

/-- C2: for every store generated over a range `[a,b]` with `a ≤ b` and every
sub-range `[s,e]` contained in it with `s ≤ e`, `try_count_primes_in_range`
returns exactly the number of primes `p` with `s ≤ p ≤ e` (the list
`primesBetween s e` counts every prime in the interval, 2, 3 and 5 included,
so the "added back" small primes are accounted for); the statement is uniform
over all four boundary shapes (either bound a multiple of 30 or not). -/
theorem claim_C2 (r s : URange) (hr : r.lo ≤ r.hi) (hse : s.lo ≤ s.hi)
    (h1 : r.lo ≤ s.lo) (h2 : s.hi ≤ r.hi) :
    (PrimeData.generate r).try_count_primes_in_range s =
      .ok ((primesBetween s.lo s.hi).length) := by
  have hg := generate_sound r hr
  exact try_count_sound _ s hg.1 (by rw [hg.2]; exact h1) (by rw [hg.2]; exact h2)

/-- Witness for C2 with both bounds multiples of 30: counting on `[30,60]`
inside the store over `[0,100]`. -/
theorem claim_C2_witness :
    (0 : Nat) ≤ 100 ∧ (30 : Nat) ≤ 60 ∧ (0 : Nat) ≤ 30 ∧ (60 : Nat) ≤ 100 ∧
    (PrimeData.generate ⟨0, 100⟩).try_count_primes_in_range ⟨30, 60⟩ =
      .ok ((primesBetween 30 60).length) :=
  ⟨by decide, by decide, by decide, by decide,
    claim_C2 ⟨0, 100⟩ ⟨30, 60⟩ (by decide) (by decide) (by decide) (by decide)⟩

/-- C3: the claim requires `try_nth_prime n` for `n ≥ 4` to return a
missing-data error whenever the store holds fewer than `n` primes in total.
The small cases behave as claimed (`n = 0` is out-of-bounds, `n = 1,2,3`
return 2, 3, 5), but the total-count check compares the store's *range*
against `7..=total_primes` with `contains_range`, conflating a prime count
with a range bound: on the store over `[0,100]`, which holds 25 primes and
whose range contains `[7,25]`, the check passes for `n = 26` and the final
iterator lookup panics (modelled by `none`) instead of returning the claimed
error.  `large` is the store-independent `f64` branch of `nth_prime_bounds`
for n ≥ 10^4, abstracted as a parameter; n = 26 takes the small branch, so
the divergence holds whatever the floating-point code returns. -/
theorem claim_C3 (large : Nat → URange) :
    (PrimeData.generate ⟨0, 100⟩).try_nth_prime large 0 =
      some (.error ⟨⟨.Reading, .PrimeData⟩, .OutOfBounds 0⟩) ∧
    (PrimeData.generate ⟨0, 100⟩).try_nth_prime large 1 = some (.ok 2) ∧
    (PrimeData.generate ⟨0, 100⟩).try_nth_prime large 2 = some (.ok 3) ∧
    (PrimeData.generate ⟨0, 100⟩).try_nth_prime large 3 = some (.ok 5) ∧
    (PrimeData.generate ⟨0, 100⟩).count_primesD = 25 ∧
    (PrimeData.generate ⟨0, 100⟩).try_nth_prime large 26 = none := by
  refine ⟨rfl, rfl, rfl, rfl, ?_, nth_prime_26_panics large⟩
  have hg := generate_sound ⟨0, 100⟩ (by decide)
  rw [count_primesD_sound _ hg.1, hg.2]
  rw [primesBetween_eval]
  decide

/-- C4 (amended): for every store and every reversed query range `a > b` that
is *contained in the store's range*, `try_count_primes_in_range` returns
`Ok 0`.  The claim's "even when a or b lies outside the store's range" is
false: the containment check runs first and reports an error - see the
counterexample. -/
theorem claim_C4 (d : PrimeData) (r : URange) (hba : r.hi < r.lo)
    (hl : d.range.lo ≤ r.lo) (hh : r.hi ≤ d.range.hi) :
    d.try_count_primes_in_range r = .ok 0 :=
  try_count_reversed d r hba hl hh

/-- Witness for C4: the base store (range `[0,30]`) with the reversed range
`20..=10`. -/
theorem claim_C4_witness :
    (10 : Nat) < 20 ∧ PrimeData.new.range.lo ≤ 20 ∧
    (10 : Nat) ≤ PrimeData.new.range.hi ∧
    PrimeData.new.try_count_primes_in_range ⟨20, 10⟩ = .ok 0 :=
  ⟨by decide, by decide, by decide,
    claim_C4 PrimeData.new ⟨20, 10⟩ (by decide) (by decide) (by decide)⟩

/-- C4 counterexample: on the base store (range `[0,30]`), the reversed range
`40..=35` has `a > b` but its upper end lies outside the store's range, and
the call returns a missing-data error for `[31,35]`, not `Ok 0`. -/
theorem claim_C4_counterexample :
    (35 : Nat) < 40 ∧
    PrimeData.new.try_count_primes_in_range ⟨40, 35⟩ =
      .error ⟨⟨.Reading, .PrimeData⟩, .NotEnoughData ⟨31, 35⟩⟩ := by
  exact ⟨by decide, rfl⟩

/-- C5 (amended): `try_expand` fails exactly when the store's range does not
fully contain `[7, isqrt range.hi]`, but the error does *not* carry the full
difference between the witness range and the store's range: it reports only
the first uncovered side - `[7, lo-1]` when the store starts after 7,
otherwise `[hi+1, isqrt range.hi]` when the store ends too early.  The
"exactly the uncovered sub-range" part of the claim fails when both sides are
uncovered - see the counterexample. -/
theorem claim_C5 (d : PrimeData) (r : URange) :
    ((∃ e, d.try_expand r = .error e) ↔
      ¬(d.range.lo ≤ 7 ∧ Nat.sqrt r.hi ≤ d.range.hi)) ∧
    (∀ e, d.try_expand r = .error e →
      (7 < d.range.lo ∧
        e = ⟨⟨.Modifying, .PrimeData⟩, .NotEnoughData ⟨7, d.range.lo - 1⟩⟩) ∨
      (d.range.lo ≤ 7 ∧ d.range.hi < Nat.sqrt r.hi ∧
        e = ⟨⟨.Modifying, .PrimeData⟩,
          .NotEnoughData ⟨d.range.hi + 1, Nat.sqrt r.hi⟩⟩)) := by
  constructor
  · constructor
    · rintro ⟨e, he⟩ ⟨hl, hh⟩
      rcases (try_expand_error_char d r e).mp he with ⟨h7, _⟩ | ⟨_, hlt, _⟩
      · omega
      · omega
    · intro hnc
      by_cases h7 : 7 < d.range.lo
      · exact ⟨_, (try_expand_error_char d r _).mpr (Or.inl ⟨h7, rfl⟩)⟩
      · have hl : d.range.lo ≤ 7 := by omega
        have hh : d.range.hi < Nat.sqrt r.hi := by
          by_contra hge
          exact hnc ⟨hl, by omega⟩
        exact ⟨_, (try_expand_error_char d r _).mpr (Or.inr ⟨hl, hh, rfl⟩)⟩
  · intro e he
    exact (try_expand_error_char d r e).mp he

/-- C5 counterexample: expanding the store over `[10,20]` to `0..=10000`
needs prime witnesses on `[7, isqrt 10000] = [7,100]`; both `[7,9]` and
`[21,100]` are uncovered, but the error reports only `[7,9]` - e.g. the
needed witness value 50 is uncovered by the store yet absent from the
reported range, so the error is not the full difference the claim
requires. -/
theorem claim_C5_counterexample :
    (PrimeData.generate ⟨10, 20⟩).try_expand ⟨0, 10000⟩ =
      .error ⟨⟨.Modifying, .PrimeData⟩, .NotEnoughData ⟨7, 9⟩⟩ ∧
    (7 ≤ 50 ∧ 50 ≤ Nat.sqrt 10000) ∧
    ¬(10 ≤ 50 ∧ 50 ≤ 20) ∧ ¬(7 ≤ 50 ∧ 50 ≤ 9) := by
  have hg := generate_sound ⟨10, 20⟩ (by decide)
  have hsq : Nat.sqrt 10000 = 100 := by
    rw [show (10000 : Nat) = 100 * 100 by norm_num]
    exact Nat.sqrt_eq' 100
  refine ⟨?_, ⟨by omega, by rw [hsq]; omega⟩, by omega, by omega⟩
  exact (try_expand_error_char _ _ _).mpr
    (Or.inl ⟨by rw [hg.2]; decide, by rw [hg.2]; decide⟩)

/-- C6: for every store generated over `[a,b]` with `a ≤ b` and every
sub-range `[s,e]` contained in it, the prime iterator yields exactly the
primes lying in `[s,e]` (2, 3 and 5 prepended when they fall inside, since
they are not stored as bits), in strictly ascending order; in particular on
`generate 0..=1000` restricted to `[472,491]` it yields `[479, 487, 491]`,
and restricted to `[888,906]` it yields nothing. -/
theorem claim_C6 (r s : URange) (hr : r.lo ≤ r.hi)
    (h1 : r.lo ≤ s.lo) (h2 : s.hi ≤ r.hi) :
    List.Sorted (· < ·) ((PrimeData.generate r).iterList s) ∧
    (∀ x, x ∈ (PrimeData.generate r).iterList s ↔
      s.lo ≤ x ∧ x ≤ s.hi ∧ Nat.Prime x) ∧
    (PrimeData.generate ⟨0, 1000⟩).iterList ⟨472, 491⟩ = [479, 487, 491] ∧
    (PrimeData.generate ⟨0, 1000⟩).iterList ⟨888, 906⟩ = [] := by
  have hg := generate_sound r hr
  have had := iterList_adequate _ s hg.1 (by rw [hg.2]; exact h1)
    (by rw [hg.2]; exact h2)
  have hg2 := generate_sound ⟨0, 1000⟩ (by decide)
  have had1 := iterList_adequate _ ⟨472, 491⟩ hg2.1 (by rw [hg2.2]; decide)
    (by rw [hg2.2]; decide)
  have had2 := iterList_adequate _ ⟨888, 906⟩ hg2.1 (by rw [hg2.2]; decide)
    (by rw [hg2.2]; decide)
  refine ⟨?_, ?_, ?_, ?_⟩
  · rw [had]
    exact primesBetween_sorted s.lo s.hi
  · intro x
    rw [had]
    exact mem_primesBetween s.lo s.hi x
  · rw [had1, primesBetween_eval]
    decide
  · rw [had2, primesBetween_eval]
    decide

/-- Witness for C6 on the store over `[0,60]` and the sub-range `[10,40]`. -/
theorem claim_C6_witness :
    (0 : Nat) ≤ 60 ∧ (0 : Nat) ≤ 10 ∧ (40 : Nat) ≤ 60 ∧
    (List.Sorted (· < ·) ((PrimeData.generate ⟨0, 60⟩).iterList ⟨10, 40⟩) ∧
     (∀ x, x ∈ (PrimeData.generate ⟨0, 60⟩).iterList ⟨10, 40⟩ ↔
       10 ≤ x ∧ x ≤ 40 ∧ Nat.Prime x) ∧
     (PrimeData.generate ⟨0, 1000⟩).iterList ⟨472, 491⟩ = [479, 487, 491] ∧
     (PrimeData.generate ⟨0, 1000⟩).iterList ⟨888, 906⟩ = []) :=
  ⟨by decide, by decide, by decide,
    claim_C6 ⟨0, 60⟩ ⟨10, 40⟩ (by decide) (by decide) (by decide)⟩

/-- C7: the count of primes up to `n` is generation-order independent - for
all `n ≤ M`, querying the larger store generated over `[0,M]` for the count
on `[0,n]` returns exactly `count_primes` of the store generated directly
over `[0,n]`. -/
theorem claim_C7 (n M : Nat) (h : n ≤ M) :
    (PrimeData.generate ⟨0, M⟩).try_count_primes_in_range ⟨0, n⟩ =
      .ok ((PrimeData.generate ⟨0, n⟩).count_primesD) := by
  have hgM := generate_sound ⟨0, M⟩ (Nat.zero_le M)
  have hgn := generate_sound ⟨0, n⟩ (Nat.zero_le n)
  rw [count_primesD_sound _ hgn.1, hgn.2]
  exact try_count_sound _ ⟨0, n⟩ hgM.1 (by rw [hgM.2])
    (by rw [hgM.2]; exact h)

/-- Witness for C7 at `n = 10`, `M = 100`. -/
theorem claim_C7_witness :
    (10 : Nat) ≤ 100 ∧
    (PrimeData.generate ⟨0, 100⟩).try_count_primes_in_range ⟨0, 10⟩ =
      .ok ((PrimeData.generate ⟨0, 10⟩).count_primesD) :=
  ⟨by decide, claim_C7 10 100 (by decide)⟩

/-- C8: round trip of the factorization - for every `x ≥ 1`, the product of
`prime ^ multiplicity` over all entries of `Factorization::from x` (`as_u64`)
yields `x` exactly, the mapping is empty exactly for `x = 1`, and no entry has
multiplicity 0. -/
theorem claim_C8 (x : Nat) (hx : 1 ≤ x) :
    (Factorization.from_u64 x).as_u64 = x ∧
    ((Factorization.from_u64 x).data = [] ↔ x = 1) ∧
    (∀ e ∈ (Factorization.from_u64 x).data, e.2 ≠ 0) := by
  obtain ⟨ha, hb, hc, hd, he⟩ := from_u64_spec x hx
  refine ⟨ha, he, fun e hme => ?_⟩
  have := hc e hme
  omega

/-- Witness for C8 at `x = 12`. -/
theorem claim_C8_witness :
    (1 : Nat) ≤ 12 ∧
    ((Factorization.from_u64 12).as_u64 = 12 ∧
     ((Factorization.from_u64 12).data = [] ↔ (12 : Nat) = 1) ∧
     (∀ e ∈ (Factorization.from_u64 12).data, e.2 ≠ 0)) :=
  ⟨by decide, claim_C8 12 (by decide)⟩

/-- C9 (amended): for every `x ≥ 1`, the divisor list `all_factors_of x` has
length exactly 1 iff `x = 1`, and length exactly 2 iff `x` is prime.  The
claim's extension to `x = 0` is false: see the counterexample. -/
theorem claim_C9 (x : Nat) (hx : 1 ≤ x) :
    ((all_factors_of x).length = 1 ↔ x = 1) ∧
    ((all_factors_of x).length = 2 ↔ Nat.Prime x) :=
  ⟨all_factors_len_one_iff x hx, all_factors_len_two_iff x hx⟩

/-- Witness for C9 at `x = 7`. -/
theorem claim_C9_witness :
    (1 : Nat) ≤ 7 ∧
    (((all_factors_of 7).length = 1 ↔ (7 : Nat) = 1) ∧
     ((all_factors_of 7).length = 2 ↔ Nat.Prime 7)) :=
  ⟨by decide, claim_C9 7 (by decide)⟩

/-- C9 counterexample: `all_factors_of 0 = [1]` (the store generated up to
`isqrt 0 = 0` holds no primes, so the trial division loop never runs, 0 is
never divided out, and the empty factorization's divisor list is `[1]`), so
the list has length 1 although `0 ≠ 1` - the claimed equivalence fails at the
input `x = 0` it explicitly includes. -/
theorem claim_C9_counterexample :
    (all_factors_of 0).length = 1 ∧ (0 : Nat) ≠ 1 := by
  rw [all_factors_of_zero]
  exact ⟨rfl, by decide⟩

/-- A 30-divisible value is never prime. -/
theorem not_prime_mod30 {x : Nat} (h : x % 30 = 0) : ¬ Nat.Prime x := by
  intro hp
  have h2 : (2 : Nat) ∣ x := by omega
  rcases Nat.Prime.eq_one_or_self_of_dvd hp 2 h2 with h1 | hx
  · omega
  · omega

/-- C10 (amended): every store produced by `new()`, by `generate r`, or by a
successful `expand r`, with `r.lo ≤ r.hi`, has exactly
`ceil(r.hi/30) - floor(r.lo/30)` blocks.  Whenever that block count is
positive, `data_index_that_contains x` returns `some i` with `i` strictly
below the block count for every `x` in the store's range.  The count is zero
exactly for the degenerate ranges `30k..=30k`, where no in-bounds index can
exist (see the counterexample); there every in-range value is a multiple of
30, the primality query answers multiples of 30 by the divisibility check
alone, and every counting query reduces to the containment check and `Ok 0` -
the only two callers of the private lookup never consult it on such a store,
so its panic and index-underflow branches stay unreachable through the public
operations. -/
theorem claim_C10 (r : URange) (hr : r.lo ≤ r.hi) (d : PrimeData)
    (hs : Sound d) (hok : d.range.lo ≤ 7 ∧ Nat.sqrt r.hi ≤ d.range.hi) :
    (PrimeData.new.data.length = div_ceil 30 30 - 0 / 30 ∧
     ∀ x, x ≤ 30 → ∃ i, PrimeData.new.data_index_that_contains x = some i ∧
       i < PrimeData.new.data.length) ∧
    (PrimeData.generate r).data.length = div_ceil r.hi 30 - r.lo / 30 ∧
    (d.try_expand r = .ok (d.expandD r) ∧
     (d.expandD r).data.length = div_ceil r.hi 30 - r.lo / 30) ∧
    (r.lo / 30 < div_ceil r.hi 30 →
      ∀ x, r.lo ≤ x → x ≤ r.hi →
        (∃ i, (PrimeData.generate r).data_index_that_contains x = some i ∧
          i < (PrimeData.generate r).data.length) ∧
        (∃ i, (d.expandD r).data_index_that_contains x = some i ∧
          i < (d.expandD r).data.length)) ∧
    (div_ceil r.hi 30 ≤ r.lo / 30 →
      (∀ x, r.lo ≤ x → x ≤ r.hi → x % 30 = 0) ∧
      (∀ q : URange, (PrimeData.generate r).try_count_primes_in_range q =
        match (PrimeData.generate r).range.contains_range q with
        | .error m => .error ⟨⟨.Reading, .PrimeData⟩, .NotEnoughData m⟩
        | .ok _ => .ok 0)) ∧
    (∀ (d2 : PrimeData) (x : Nat), x % 30 = 0 →
      d2.try_is_prime x =
        if d2.range.containsN x && !d2.is_empty then .ok false
        else .error ⟨⟨.Reading, .PrimeData⟩, .OutOfBounds x⟩) := by
  have hg := generate_sound r hr
  have hglen := hg.1.1
  rw [hg.2] at hglen
  have hexp : d.try_expand r = .ok (d.expandD r) := by
    rcases h : d.try_expand r with e | a
    · exfalso
      rcases (try_expand_error_char d r e).mp h with ⟨h7, _⟩ | ⟨_, hlt, _⟩
      · have := hok.1
        omega
      · have := hok.2
        omega
    · show Except.ok a = Except.ok (match d.try_expand r with
        | .ok d2 => d2
        | .error _ => d)
      rw [h]
  have hes := try_expand_ok_sound d r hs hr _ hexp
  have helen := hes.1.1
  rw [hes.2] at helen
  refine ⟨⟨by decide, ?_⟩, hglen, ⟨hexp, helen⟩, ?_, ?_, ?_⟩
  · intro x hx
    exact data_index_spec_pos PrimeData.new x (by decide) (Nat.zero_le x) hx
      (by decide)
  · intro hpos x hxl hxh
    constructor
    · refine data_index_spec_pos _ x hg.1.1 (by rw [hg.2]; exact hxl)
        (by rw [hg.2]; exact hxh) ?_
      rw [hglen]
      omega
    · refine data_index_spec_pos _ x hes.1.1 (by rw [hes.2]; exact hxl)
        (by rw [hes.2]; exact hxh) ?_
      rw [helen]
      omega
  · intro hz
    rw [div_ceil_30] at hz
    have hmod : r.lo % 30 = 0 := by omega
    have hlohi : r.lo = r.hi := by omega
    refine ⟨fun x hxl hxh => by omega, fun q => ?_⟩
    rcases hcr : (PrimeData.generate r).range.contains_range q with m | u
    · unfold PrimeData.try_count_primes_in_range
      rw [hcr]
    · obtain ⟨hq1, hq2⟩ := contains_range_ok_inv hcr
      rw [hg.2] at hq1 hq2
      by_cases hrev : q.hi < q.lo
      · rw [try_count_reversed _ q hrev (by rw [hg.2]; exact hq1)
          (by rw [hg.2]; exact hq2)]
      · have hql : q.lo = r.lo := by omega
        have hqh : q.hi = r.lo := by omega
        rw [try_count_sound _ q hg.1 (by rw [hg.2]; exact hq1)
          (by rw [hg.2]; exact hq2)]
        rw [hql, hqh, primesBetween_self, if_neg (not_prime_mod30 hmod)]
        rfl
  · intro d2 x hx30
    unfold PrimeData.try_is_prime
    by_cases hc : (d2.range.containsN x && !d2.is_empty) = true
    · rw [if_pos hc, if_pos hc]
      have h235 : ¬(x = 2 ∨ x = 3 ∨ x = 5) := by
        rintro (rfl | rfl | rfl) <;> omega
      rw [if_neg h235]
      have hd : divisible_by x 30 = true := by
        rw [divisible_by_30]
        exact decide_eq_true hx30
      rw [if_pos hd]
    · rw [if_neg hc, if_neg hc]

/-- Witness for C10: the base store (which is `Sound` and covers `[7, isqrt 30]`)
expanded over `[0,30]`, all quantified parts instantiated there. -/
theorem claim_C10_witness :
    (0 : Nat) ≤ 30 ∧ Sound PrimeData.new ∧
    (PrimeData.new.range.lo ≤ 7 ∧ Nat.sqrt 30 ≤ PrimeData.new.range.hi) ∧
    ((PrimeData.new.data.length = div_ceil 30 30 - 0 / 30 ∧
      ∀ x, x ≤ 30 → ∃ i, PrimeData.new.data_index_that_contains x = some i ∧
        i < PrimeData.new.data.length) ∧
     (PrimeData.generate ⟨0, 30⟩).data.length = div_ceil 30 30 - 0 / 30 ∧
     (PrimeData.new.try_expand ⟨0, 30⟩ = .ok (PrimeData.new.expandD ⟨0, 30⟩) ∧
      (PrimeData.new.expandD ⟨0, 30⟩).data.length = div_ceil 30 30 - 0 / 30) ∧
     ((0 : Nat) / 30 < div_ceil 30 30 →
       ∀ x, 0 ≤ x → x ≤ 30 →
         (∃ i, (PrimeData.generate ⟨0, 30⟩).data_index_that_contains x = some i ∧
           i < (PrimeData.generate ⟨0, 30⟩).data.length) ∧
         (∃ i, (PrimeData.new.expandD ⟨0, 30⟩).data_index_that_contains x = some i ∧
           i < (PrimeData.new.expandD ⟨0, 30⟩).data.length)) ∧
     (div_ceil 30 30 ≤ (0 : Nat) / 30 →
       (∀ x, 0 ≤ x → x ≤ 30 → x % 30 = 0) ∧
       (∀ q : URange, (PrimeData.generate ⟨0, 30⟩).try_count_primes_in_range q =
         match (PrimeData.generate ⟨0, 30⟩).range.contains_range q with
         | .error m => .error ⟨⟨.Reading, .PrimeData⟩, .NotEnoughData m⟩
         | .ok _ => .ok 0)) ∧
     (∀ (d2 : PrimeData) (x : Nat), x % 30 = 0 →
       d2.try_is_prime x =
         if d2.range.containsN x && !d2.is_empty then .ok false
         else .error ⟨⟨.Reading, .PrimeData⟩, .OutOfBounds x⟩)) :=
  ⟨by decide, sound_new, ⟨by decide, Nat.sqrt_le_self 30⟩,
    claim_C10 ⟨0, 30⟩ (by decide) PrimeData.new sound_new
      ⟨by decide, Nat.sqrt_le_self 30⟩⟩

/-- C10 counterexample: the store generated over `[30,30]` (a valid range
with start ≤ end) has `ceil(30/30) - floor(30/30) = 0` blocks, and for
`x = 30` - inside the store's range - the internal lookup cannot return any
index strictly below the block count, refuting the claim's "Some(i) with i
strictly below the block-vector length" for every in-range x (the source's
`Some(result - 1)` branch is reached here with `result = 0`, a usize
underflow). -/
theorem claim_C10_counterexample :
    (30 : Nat) ≤ 30 ∧
    (PrimeData.generate ⟨30, 30⟩).data.length = 0 ∧
    ¬∃ i, (PrimeData.generate ⟨30, 30⟩).data_index_that_contains 30 = some i ∧
      i < (PrimeData.generate ⟨30, 30⟩).data.length := by
  have hg := generate_sound ⟨30, 30⟩ (by decide)
  have hlen : (PrimeData.generate ⟨30, 30⟩).data.length = 0 := by
    have h1 := hg.1.1
    rw [hg.2] at h1
    rw [h1]
    decide
  refine ⟨by decide, hlen, ?_⟩
  rintro ⟨i, _, hi⟩
  rw [hlen] at hi
  omega
